import Mathlib

/-!
Verification of the terrahub generator, `bin/generator/terraform/parsing_tf_files.go`.

A shallow embedding of the tree normalizer (`NormalizeJson`), the document
reshaper (`ScanRec`, `RefactoringYml`) and the template composer
(`PrepareNewYmlFromOld`, `AddTfVars`), followed by theorems about them.

Modelling conventions.

* Go strings are lists of characters (`Text`).  Every text the program handles
  is taken to be valid UTF-8, so that the byte-level searches of
  `strings.Replace` and of `regexp` coincide with character-level searches.
* A decoded JSON document (`interface{}` after `json.Unmarshal`) is a `Json`
  value.  A Go map is an association list; the order of the list is the order
  in which `range` visits the map on the run under consideration.  A map has
  no repeated key, which theorems state as a `Nodup` hypothesis.
* A Go panic is the result `none`.
-/

namespace Terrahub

/-- Text of a Go string, one entry per character. -/
abbrev Text := List Char

/-! ## Generic trees -/

/-- The values `json.Unmarshal` stores in an `interface{}`.  Numbers are
restricted to the integers that a `float64` holds exactly (of magnitude up to
`2^53`), which `json.Marshal` prints in plain decimal; the normalizer never
inspects a number. -/
inductive Json where
  | null
  | bool (b : Bool)
  | num (n : Int)
  | str (s : String)
  | arr (xs : List Json)
  | obj (kvs : List (String × Json))

/-- The decoded top-level document, `map[string]interface{}`. -/
abbrev Tree := List (String × Json)

/-- The Go struct `Keys`. -/
structure Keys where
  GK : String
  SK : Nat
  EK : String

/-- The Go struct `Element`. -/
structure Element where
  GK : String
  SK : Nat
  EK : String
  Elements : List Json

/-- The mutable state of one normalization pass: the tree `m` (mutated in
place by the scan) and the global `uniqKeys`. -/
structure NormState where
  m : Tree
  uniqKeys : List Element

/-- Whether a value is a sequence, the `case []interface{}` of the type switches. -/
def Json.isArr : Json → Bool
  | .arr _ => true
  | _ => false

/-- Whether a value is a mapping, the `case map[string]interface{}` of the type switch. -/
def Json.isObj : Json → Bool
  | .obj _ => true
  | _ => false

/-- The map read `m[k]`. -/
def lookupKey : List (String × Json) → String → Option Json
  | [], _ => none
  | (k, v) :: rest, g => if k = g then some v else lookupKey rest g

/-- The read `m[g].([]interface{})[i]`; `none` when the type assertion or the
index panics. -/
def getSlot (m : Tree) (g : String) (i : Nat) : Option Json :=
  match lookupKey m g with
  | some (.arr xs) => xs.get? i
  | _ => none

/-- The store `m[g].([]interface{})[i] = v`; `none` when the type assertion or
the index panics. -/
def setSlot : Tree → String → Nat → Json → Option Tree
  | [], _, _, _ => none
  | (k, x) :: rest, g, i, v =>
    if k = g then
      match x with
      | .arr xs => if i < xs.length then some ((k, .arr (xs.set i v)) :: rest) else none
      | _ => none
    else (setSlot rest g i v).map (fun r => (k, x) :: r)

/-- The map store `fs[k] = v`: an existing key keeps its place, a new key is
added. -/
def setField : List (String × Json) → String → Json → List (String × Json)
  | [], k, v => [(k, v)]
  | (k', x) :: rest, k, v => if k' = k then (k', v) :: rest else (k', x) :: setField rest k v

/-- The Go function `Contains`. -/
def Contains : List Element → String → Bool
  | [], _ => false
  | a :: rest, str => if a.EK = str then true else Contains rest str

/-- Index of the first element whose `EK` is `str`, if there is one. -/
def indexOfKey : List Element → String → Option Nat
  | [], _ => none
  | a :: rest, str => if a.EK = str then some 0 else (indexOfKey rest str).map (· + 1)

/-- The Go function `ReturnElement`: the index found, or `0`. -/
def ReturnElement (arr : List Element) (str : String) : Nat :=
  (indexOfKey arr str).getD 0

/-- The statement `uniqKeys[i].Elements = append(uniqKeys[i].Elements, v)`;
`none` when the index is out of range. -/
def appendElements : List Element → Nat → Json → Option (List Element)
  | [], _, _ => none
  | a :: rest, 0, v => some ({ a with Elements := a.Elements ++ [v] } :: rest)
  | a :: rest, i + 1, v => (appendElements rest i v).map (fun r => a :: r)

/-- One iteration of the loop of `CheckElementByTypeStep3`, for the field
`key2: value2` of the slot `keys`. -/
def step3Field (keys : Keys) (st : NormState) (key2 : String) (value2 : Json) :
    Option NormState :=
  match value2 with
  | .arr _ =>
    if !Contains st.uniqKeys key2 then
      some { st with
        uniqKeys := st.uniqKeys ++ [⟨keys.GK, keys.SK, key2, [value2]⟩] }
    else
      match appendElements st.uniqKeys (ReturnElement st.uniqKeys key2) value2 with
      | none => none
      | some uk =>
        match setSlot st.m keys.GK keys.SK .null with
        | none => none
        | some m1 => some ⟨m1, uk⟩
  | _ => some st

/-- The Go function `CheckElementByTypeStep3`.  `element` is the slice
`m[keys.GK]` as it was when the scan of that group began; the scan reads slot
`keys.SK` of it before the only store to that slot. -/
def CheckElementByTypeStep3 (st : NormState) (keys : Keys) (element : List Json) :
    Option NormState :=
  match element.get? keys.SK with
  | some (.obj element2) =>
    element2.foldlM (fun s kv => step3Field keys s kv.1 kv.2) st
  | _ => none

/-- The inner loop of `CheckElementByType` over the slots of one group. -/
def scanGroup (k : String) (element : List Json) (st : NormState) : Option NormState :=
  element.enum.foldlM
    (fun s kv1 =>
      match kv1.2 with
      | .obj _ => CheckElementByTypeStep3 s ⟨k, kv1.1, ""⟩ element
      | _ => some s)
    st

/-- The Go function `CheckElementByType`, started with the given `uniqKeys`. -/
def CheckElementByType (m : Tree) (uniqKeys : List Element) : Option NormState :=
  m.foldlM
    (fun s kv =>
      match kv.2 with
      | .arr element => scanGroup kv.1 element s
      | _ => some s)
    ⟨m, uniqKeys⟩

/-- One iteration of the write-back loop of `NormalizeJson`. -/
def writeBack (m : Tree) (value : Element) : Option Tree :=
  match getSlot m value.GK value.SK with
  | some .null => some m
  | some (.obj fs) =>
    setSlot m value.GK value.SK (.obj (setField fs value.EK (.arr value.Elements)))
  | _ => none

/-- The tree `m` of `NormalizeJson` just before it is encoded: the scan from an
empty `uniqKeys`, then the write-back loop. -/
def normalizeTree (m : Tree) : Option Tree :=
  match CheckElementByType m [] with
  | none => none
  | some st => st.uniqKeys.foldlM writeBack st.m

/-! ## Text primitives of the Go standard library -/

/-- The call `strings.Replace(s, old, new, 1)` for a non-empty `old` (every
call in the program has one): the first occurrence of `old` is replaced. -/
def replaceFirst (old new : Text) : Text → Text
  | [] => []
  | c :: rest =>
    if old.isPrefixOf (c :: rest) then new ++ (c :: rest).drop old.length
    else c :: replaceFirst old new rest

/-- Worker of `replaceAll`; `skip` counts the characters of a replaced
occurrence that are still to be passed over. -/
def replaceAllAux (old new : Text) : Nat → Text → Text
  | _, [] => []
  | skip + 1, _ :: rest => replaceAllAux old new skip rest
  | 0, c :: rest =>
    if old.isPrefixOf (c :: rest) then new ++ replaceAllAux old new (old.length - 1) rest
    else c :: replaceAllAux old new 0 rest

/-- The call `strings.Replace(s, old, new, -1)` for a non-empty `old`: every
occurrence, left to right and without overlap, is replaced. -/
def replaceAll (old new s : Text) : Text :=
  replaceAllAux old new 0 s

/-- The test `strings.Index(s, sub) != -1`. -/
def containsText (sub : Text) : Text → Bool
  | [] => sub.isPrefixOf []
  | c :: rest => sub.isPrefixOf (c :: rest) || containsText sub rest

/-- The call `strings.Split(s, "/")`. -/
def splitSlash : Text → List Text
  | [] => [[]]
  | c :: rest =>
    if c = '/' then [] :: splitSlash rest
    else
      match splitSlash rest with
      | [] => [[c]]
      | hd :: tl => (c :: hd) :: tl

/-- The constant `bufio.MaxScanTokenSize`. -/
def maxScanTokenSize : Nat := 65536

/-- The helper `dropCR` of `bufio.ScanLines`: one trailing carriage return is
removed. -/
def dropCR : Text → Text
  | [] => []
  | [c] => if c = '\r' then [] else [c]
  | c :: d :: rest => c :: dropCR (d :: rest)

/-- Worker of `scanLines`: `cur` is the line read so far and `n` its length in
bytes. -/
def scanLinesAux : Text → Nat → Text → List Text
  | cur, _, [] => if cur = [] then [] else [dropCR cur]
  | cur, n, c :: rest =>
    if c = '\n' then dropCR cur :: scanLinesAux [] 0 rest
    else if maxScanTokenSize ≤ n + c.utf8Size then []
    else scanLinesAux (cur ++ [c]) (n + c.utf8Size) rest

/-- The lines a `bufio.Scanner` with the default split function yields for a
text: the text is cut at every newline, a trailing carriage return is dropped,
an unterminated last line counts when it is not empty, and scanning stops
(with the lines found so far) at a line of `maxScanTokenSize` bytes or more. -/
def scanLines (s : Text) : List Text :=
  scanLinesAux [] 0 s

/-- The slice expression `line[n:]`, which panics when `n` exceeds the length. -/
def sliceFrom (line : Text) (n : Nat) : Option Text :=
  if n ≤ line.length then some (line.drop n) else none

/-! ## Document reshaper -/

/-- The Go function `SpaceCount`. -/
def SpaceCount : Text → Nat
  | [] => 0
  | v :: rest => if v ≠ ' ' then 0 else SpaceCount rest + 1

/-- The list markers and the placeholder of `ScanRec`. -/
def doubleMarker : Text := ['-', ' ', '-', ' ']

/-- The single list marker `- `. -/
def singleMarker : Text := ['-', ' ']

/-- The placeholder `# `. -/
def placeholder : Text := ['#', ' ']

/-- Two spaces. -/
def twoSpaces : Text := [' ', ' ']

/-- The value of `line` in the loop of `ScanRec` after the first `if`, before
the depth-10 strip. -/
def scanRecRewrite (line : Text) : Text :=
  if SpaceCount line ≤ 10 ∧ containsText [':'] line = true then
    replaceFirst singleMarker twoSpaces (replaceFirst doubleMarker placeholder line)
  else line

/-- The value of `line` in the loop of `ScanRec` after the second `if`. -/
def scanRecLine (line : Text) : Option Text :=
  if 10 ≤ SpaceCount line then sliceFrom (scanRecRewrite line) 2
  else some (scanRecRewrite line)

/-- The loop of `ScanRec` over the scanned lines. -/
def scanRecLoop : List Text → Text → Option Text
  | [], newYml => some newYml
  | line :: rest, newYml =>
    match scanRecLine line with
    | none => none
    | some l => scanRecLoop rest (newYml ++ l ++ ['\n'])

/-- The Go function `ScanRec`. -/
def ScanRec (interYml : Text) : Option Text :=
  scanRecLoop (scanLines interYml) []

/-! ## Regular expressions of the composer and of the collapse -/

/-- The blank-line boundary, two consecutive newlines. -/
def blankLine : Text := ['\n', '\n']

/-- Worker of `findAllBlankLines`. -/
def findAllBlankLinesAux : Nat → Text → List Text
  | _, [] => []
  | skip + 1, _ :: rest => findAllBlankLinesAux skip rest
  | 0, c :: rest =>
    if blankLine.isPrefixOf (c :: rest) then blankLine :: findAllBlankLinesAux 1 rest
    else findAllBlankLinesAux 0 rest

/-- The call `re.FindAllString(s, -1)` for the pattern `(?m)\n\n`: the
occurrences of two newlines, left to right and without overlap. -/
def findAllBlankLines (s : Text) : List Text :=
  findAllBlankLinesAux 0 s

/-- The empty-mapping token `{}`. -/
def emptyObj : Text := ['{', '}']

/-- The smallest number of characters other than a newline after which `{}`
follows: the lazy `.*?` in front of the literal. -/
def dotsThenObj : Text → Option Nat
  | [] => none
  | c :: rest =>
    if emptyObj.isPrefixOf (c :: rest) then some 0
    else if c = '\n' then none
    else (dotsThenObj rest).map (· + 1)

/-- What the group of `\n(.+?|){}` matches right after a newline, as a number
of characters: the first alternative `.+?` takes at least one character and as
few as possible, the second alternative is empty and is tried last. -/
def emptyObjAt : Text → Option Nat
  | [] => none
  | c :: rest =>
    if c = '\n' then none
    else
      match dotsThenObj rest with
      | some j => some (j + 1)
      | none => if emptyObj.isPrefixOf (c :: rest) then some 0 else none

/-- Worker of `findAllEmptyObj`. -/
def findAllEmptyObjAux : Nat → Text → List Text
  | _, [] => []
  | skip + 1, _ :: rest => findAllEmptyObjAux skip rest
  | 0, c :: rest =>
    if c = '\n' then
      match emptyObjAt rest with
      | some j => ('\n' :: rest.take (j + 2)) :: findAllEmptyObjAux (j + 2) rest
      | none => findAllEmptyObjAux 0 rest
    else findAllEmptyObjAux 0 rest

/-- The call `re.FindAllString(s, -1)` for the pattern `(?m)\n(.+?|){}`: the
leftmost-first matches, left to right and without overlap. -/
def findAllEmptyObj (s : Text) : List Text :=
  findAllEmptyObjAux 0 s

/-- The replacement ` {}` of the collapse. -/
def spaceObj : Text := [' ', '{', '}']

/-- The last three statements of `RefactoringYml` before the `return`: each
match found in the composed document is replaced, in turn and once, in the
document as it stands. -/
def collapseEmptyObj (newYml : Text) : Text :=
  (findAllEmptyObj newYml).foldl (fun d mtch => replaceFirst mtch spaceObj d) newYml

/-! ## Encoding of the normalized tree -/

/-- One hexadecimal digit, lower case. -/
def hexDigit (n : Nat) : Char :=
  if n < 10 then Char.ofNat (48 + n) else Char.ofNat (87 + n)

/-- How `json.Marshal` writes one character of a string (HTML escaping on);
backspace and form feed have the short forms `\b` and `\f`. -/
def escapeChar (c : Char) : Text :=
  if c = '"' then ['\\', '"']
  else if c = '\\' then ['\\', '\\']
  else if c = '\n' then ['\\', 'n']
  else if c = '\r' then ['\\', 'r']
  else if c = '\t' then ['\\', 't']
  else if c.toNat = 8 then ['\\', 'b']
  else if c.toNat = 12 then ['\\', 'f']
  else if c.toNat < 32 ∨ c = '<' ∨ c = '>' ∨ c = '&' then
    ['\\', 'u', '0', '0', hexDigit (c.toNat / 16), hexDigit (c.toNat % 16)]
  else if c.toNat = 8232 ∨ c.toNat = 8233 then
    ['\\', 'u', '2', '0', '2', hexDigit (c.toNat % 16)]
  else [c]

/-- A string as `json.Marshal` writes it, quotes included. -/
def encodeString (s : String) : Text :=
  '"' :: (s.toList.flatMap escapeChar) ++ ['"']

/-- The order of Go strings: bytewise, which for valid UTF-8 is the order of
the code points. -/
def textLt : Text → Text → Bool
  | _, [] => false
  | [], _ :: _ => true
  | a :: s, b :: t =>
    if a.toNat < b.toNat then true
    else if b.toNat < a.toNat then false
    else textLt s t

/-- Insertion of a field into a list of fields sorted by key. -/
def insertField (kv : String × Json) : List (String × Json) → List (String × Json)
  | [] => [kv]
  | kv' :: rest =>
    if textLt kv.1.toList kv'.1.toList then kv :: kv' :: rest
    else kv' :: insertField kv rest

/-- The fields of a map in the order `json.Marshal` writes them, sorted by key. -/
def sortFields (kvs : List (String × Json)) : List (String × Json) :=
  kvs.foldr insertField []

mutual
/-- The text `json.Marshal` produces for a value. -/
def Marshal : Json → Text
  | .null => ['n', 'u', 'l', 'l']
  | .bool b => if b then ['t', 'r', 'u', 'e'] else ['f', 'a', 'l', 's', 'e']
  | .num n => (toString n).toList
  | .str s => encodeString s
  | .arr xs => '[' :: marshalItems xs ++ [']']
  | .obj kvs => '{' :: marshalFields kvs ++ ['}']
/-- The elements of an array, separated by commas. -/
def marshalItems : List Json → Text
  | [] => []
  | [x] => Marshal x
  | x :: y :: rest => Marshal x ++ ',' :: marshalItems (y :: rest)
/-- The fields of a map in the given order, separated by commas. -/
def marshalFields : List (String × Json) → Text
  | [] => []
  | [(k, x)] => encodeString k ++ ':' :: Marshal x
  | (k, x) :: y :: rest => encodeString k ++ ':' :: Marshal x ++ ',' :: marshalFields (y :: rest)
end

mutual
/-- A value with the fields of every map in it sorted by key. -/
def sortKeys : Json → Json
  | .arr xs => .arr (sortKeysItems xs)
  | .obj kvs => .obj (sortFields (sortKeysFields kvs))
  | v => v
/-- The function `sortKeys` on the elements of an array. -/
def sortKeysItems : List Json → List Json
  | [] => []
  | x :: rest => sortKeys x :: sortKeysItems rest
/-- The function `sortKeys` on the values of the fields of a map. -/
def sortKeysFields : List (String × Json) → List (String × Json)
  | [] => []
  | (k, x) :: rest => (k, sortKeys x) :: sortKeysFields rest
end

/-- The artifact `,null` that `NormalizeJson` strips from the encoded text. -/
def commaNull : Text := [',', 'n', 'u', 'l', 'l']

/-- The Go function `NormalizeJson` on the decoded document `m`: scan,
write-back, `json.Marshal` (which writes the keys of every map in sorted order)
and removal of every `,null`. -/
def NormalizeJson (m : Tree) : Option Text :=
  match normalizeTree m with
  | none => none
  | some m1 => some (replaceAll commaNull [] (Marshal (sortKeys (.obj m1))))

/-! ## Files and external collaborators -/

/-- The files a run can read: `ioutil.ReadFile` of a path gives the contents,
or fails. -/
abbrev Files := Text → Option Text

/-- Modelled from the spec: the function `DeleteFile` of the package is not in
the source file; after it the file can no longer be read. -/
def DeleteFile (fs : Files) (path : Text) : Files :=
  fun p => if p = path then none else fs p

/-- The external collaborators: `hclDecode` is `hcl.Unmarshal` followed by the
JSON round trip (`json.MarshalIndent`, then `json.Unmarshal` into a map) and
`jsonToYAML` is `yaml.JSONToYAML`.  Either fails with `none`, which the program
turns into a panic. -/
structure Collaborators where
  hclDecode : Text → Option Tree
  jsonToYAML : Text → Option Text

/-- The Go function `StartProccesingTfFile`; a file that cannot be read is
processed as empty input. -/
def StartProccesingTfFile (ext : Collaborators) (fs : Files) (filePath : Text) : Option Text :=
  match ext.hclDecode ((fs filePath).getD []) with
  | none => none
  | some m =>
    match NormalizeJson m with
    | none => none
    | some js => ext.jsonToYAML js

/-! ## Template composer -/

/-- The file name `default.tfvars`. -/
def defaultTfvars : Text := "default.tfvars".toList

/-- The file name `.terrahub.yml`. -/
def terrahubYml : Text := ".terrahub.yml".toList

/-- The loop `for scanner.Scan() { interYml += prefix + scanner.Text() }`. -/
def indentLines (pre : Text) (s : Text) : Text :=
  (scanLines s).foldl (fun interYml line => interYml ++ pre ++ line) []

/-- The Go function `AddTfVars`; the result is the returned text and the files
left behind. -/
def AddTfVars (ext : Collaborators) (fs : Files) (source context : Text) :
    Option (Text × Files) :=
  match fs (source ++ defaultTfvars) with
  | none => some (context, fs)
  | some _ =>
    match StartProccesingTfFile ext fs (source ++ defaultTfvars) with
    | none => none
    | some newYml =>
      some (context ++ "    tfvars:".toList ++ indentLines "\n      ".toList newYml,
        DeleteFile fs (source ++ defaultTfvars))

/-- The scaffold of a new document around the component name. -/
def scaffoldHeader (name : Text) : Text :=
  "## local config\n".toList ++ "component:\n".toList ++ "  name: '".toList ++ name ++ "'\n".toList

/-- The loop of `PrepareNewYmlFromOld` over the matches of the blank-line
pattern, then the final `if replaced`. -/
def spliceOld (oldYml context : Text) : Text :=
  let r := (findAllBlankLines oldYml).foldl
    (fun (_ : Text × Bool) mtch =>
      (replaceFirst mtch ('\n' :: context ++ ['\n']) oldYml, false))
    (([] : Text), true)
  if r.2 then r.1 ++ oldYml ++ context else r.1

/-- The Go function `PrepareNewYmlFromOld`; the index `paths[len(paths)-2]`
panics for a `source` without a slash. -/
def PrepareNewYmlFromOld (ext : Collaborators) (fs : Files) (source context : Text) :
    Option (Text × Files) :=
  match AddTfVars ext fs source context with
  | none => none
  | some (context1, fs1) =>
    match fs1 (source ++ terrahubYml) with
    | none =>
      let paths := splitSlash source
      if paths.length < 2 then none
      else
        match paths.get? (paths.length - 2) with
        | none => none
        | some name => some (scaffoldHeader name ++ context1, fs1)
    | some oldYml => some (spliceOld oldYml context1, fs1)

/-- The text `ScanRec` and the placeholder substitution make of a template
text: the first four statements of `RefactoringYml`. -/
def reshape (newYml : Text) : Option Text :=
  match ScanRec (indentLines "\n    ".toList newYml) with
  | none => none
  | some r => some (replaceAll placeholder twoSpaces r)

/-- The Go function `RefactoringYml`; the result is the returned document and
the files left behind. -/
def RefactoringYml (ext : Collaborators) (fs : Files) (source newYml : Text) :
    Option (Text × Files) :=
  match reshape newYml with
  | none => none
  | some r =>
    match PrepareNewYmlFromOld ext fs source ("  template:".toList ++ r) with
    | none => none
    | some (doc, fs1) => some (collapseEmptyObj doc ++ ['\n'], fs1)

/-! ## Vocabulary of the claims -/

/-- The text `s` has a line that consists solely of indentation followed by the
empty-mapping token `{}`. -/
def HasEmptyObjLine (s : Text) : Prop :=
  ∃ a ind b, s = a ++ ind ++ emptyObj ++ b ∧
    (a = [] ∨ a.getLast? = some '\n') ∧ (∀ c ∈ ind, c = ' ') ∧
    (b = [] ∨ b.head? = some '\n')

/-- The text the collapse pattern matches on a line made of indentation and
list markers `lead` followed by `{}`: the newline in front, `lead`, the token. -/
def tokenMatch (lead : Text) : Text :=
  '\n' :: lead ++ emptyObj

/-- A document given by its parts: the text `p0`, then for each pair
`(lead, p)` a line `lead{}` of its own followed by the text `p`. -/
def composeDoc (p0 : Text) : List (Text × Text) → Text
  | [] => p0
  | t :: ts => p0 ++ tokenMatch t.1 ++ composeDoc t.2 ts

/-- The document `composeDoc p0 ts` with every line `lead{}` joined to the line
above it as ` {}`. -/
def joinedDoc (p0 : Text) : List (Text × Text) → Text
  | [] => p0
  | t :: ts => p0 ++ spaceObj ++ joinedDoc t.2 ts

/-- The last line of the text holds a character of a key: one that is not a
space, a list marker or a newline, with no newline after it. -/
def EndsWithKey (p : Text) : Prop :=
  ∃ a c b, p = a ++ c :: b ∧ c ≠ ' ' ∧ c ≠ '-' ∧ c ≠ '\n' ∧ '\n' ∉ b

/-- The parts of a document in which `{}` occurs only as the token of the
lines `lead{}`, each made of spaces and list markers in front of the token and
each directly below a key line. -/
def WellPlaced (p0 : Text) : List (Text × Text) → Prop
  | [] => ¬ emptyObj <:+: p0
  | t :: ts =>
    ¬ emptyObj <:+: p0 ∧ EndsWithKey p0 ∧ (∀ c ∈ t.1, c = ' ' ∨ c = '-') ∧ WellPlaced t.2 ts

/-! ## The scan as one pass over the fields it meets -/

/-- A field met by the scan: group key, slot index, field key, field value. -/
abbrev Visit := String × Nat × String × Json

/-- The fields of one slot of the group `g`, when the slot is a mapping. -/
def slotVisits (g : String) (kv1 : Nat × Json) : List Visit :=
  match kv1.2 with
  | .obj element2 => element2.map (fun f => (g, kv1.1, f.1, f.2))
  | _ => []

/-- The fields of the mapping slots of one top-level entry, when its value is
an array. -/
def groupVisits (kv : String × Json) : List Visit :=
  match kv.2 with
  | .arr element => element.enum.flatMap (slotVisits kv.1)
  | _ => []

/-- The fields of the mapping slots of the top-level arrays, in the order in
which the scan meets them. -/
def fieldVisits (m : Tree) : List Visit :=
  m.flatMap groupVisits

/-- The occurrences of the candidate key `K`, in encounter order: the slot
position and the sequence found under `K` there. -/
def occurrences (K : String) (vs : List Visit) : List (String × Nat × Json) :=
  vs.filterMap (fun x =>
    if x.2.2.1 = K ∧ x.2.2.2.isArr = true then some (x.1, x.2.1, x.2.2.2) else none)

/-- The scan step for one field met. -/
def visitStep (st : NormState) (x : Visit) : Option NormState :=
  step3Field ⟨x.1, x.2.1, ""⟩ st x.2.2.1 x.2.2.2

/-- What the statement `uniqKeys[ReturnElement(uniqKeys, k)].Elements = append(...)`
does when `k` is present: the first element with that key gets the value. -/
def bumpFirst (k : String) (v : Json) : List Element → List Element
  | [] => []
  | a :: rest =>
    if a.EK = k then { a with Elements := a.Elements ++ [v] } :: rest
    else a :: bumpFirst k v rest

/-- The elements of `uniqKeys` for the key `K`. -/
def entriesFor (K : String) (uniqKeys : List Element) : List Element :=
  uniqKeys.filter (fun e => decide (e.EK = K))

/-- Every slot of `t` is as in `m`, or is a slot of `m` that was set to null. -/
def Evolves (m t : Tree) : Prop :=
  ∀ g i, getSlot t g i = getSlot m g i ∨
    (getSlot t g i = some .null ∧ (getSlot m g i).isSome = true)

/-! ## Sample inputs -/

/-- Collaborators that always fail. -/
def noCollaborators : Collaborators := ⟨fun _ => none, fun _ => none⟩

/-- A directory without any readable file. -/
def noFiles : Files := fun _ => none

/-- A source directory path in the form the driver passes it, with a trailing slash. -/
def sampleSource : Text := "infra/vpc/".toList

/-- An existing document with two blank-line boundaries. -/
def sampleOld : Text := "a: 1\n\nb: 2\n\nc: 3\n".toList

/-- A directory in which only `.terrahub.yml` can be read, with contents `old`. -/
def filesWithDoc (old : Text) : Files :=
  fun p => if p = sampleSource ++ terrahubYml then some old else none

/-- A composed block. -/
def sampleBlock : Text := "  template:\n    x: 1\n".toList

/-- Two groups whose only slots share the field key `K`, as two blocks of one
type under `resource` and under `data` decode; group `a` is visited first. -/
def twoGroups : Tree :=
  [("a", .arr [.obj [("K", .arr [.num 1])]]), ("b", .arr [.obj [("K", .arr [.num 2])]])]

/-- The tree `twoGroups` with group `b` visited first. -/
def twoGroupsSwapped : Tree :=
  [("b", .arr [.obj [("K", .arr [.num 2])]]), ("a", .arr [.obj [("K", .arr [.num 1])]])]

/-- An existing document with a `key: {}` pair on either side of its blank-line
boundary. -/
def docWithEmptyObj : Text :=
  "component:\n  name: 'vpc'\n  tags: {}\n\nbuild:\n  env: {}\n".toList

/-- One group with two single-key slots that share the key `K`. -/
def twoSlots : Tree :=
  [("r", .arr [.obj [("K", .arr [.num 1, .num 2])], .obj [("K", .arr [.num 3])]])]

/-- One group whose only slot has the key `K` once. -/
def oneSlot : Tree :=
  [("r", .arr [.obj [("K", .arr [.num 1])]])]

/-- The key `K` occurs once, in a slot that also repeats the key `L` of the
slot before it. -/
def repeatedSibling : Tree :=
  [("r", .arr [.obj [("L", .arr [.num 1])],
    .obj [("K", .arr [.num 2]), ("L", .arr [.num 3])]])]

/-- The template text of two empty blocks, `aws {}` and `google {}`, under
`provider` (the YAML of the decoded tree). -/
def twoEmptyBlocks : Text := "provider:\n- aws:\n  - {}\n- google:\n  - {}\n".toList

/-- The composed document of `twoEmptyBlocks` up to its first `{}` line. -/
def twoEmptyBlocksHead : Text :=
  "## local config\ncomponent:\n  name: 'vpc'\n  template:\n    provider:\n      aws:".toList

/-- The `{}` lines of the composed document of `twoEmptyBlocks`, each with the
text that follows it. -/
def twoEmptyBlocksTokens : List (Text × Text) :=
  [("      - ".toList, "\n      google:".toList), ("      - ".toList, "\n".toList)]

/-- The template text of one empty block `aws {}` under `provider`. -/
def emptyBlock : Text := "provider:\n- aws:\n  - {}\n".toList

/-- The document written for `emptyBlock` in the directory `infra/vpc/`. -/
def firstDocument : Text :=
  "## local config\ncomponent:\n  name: 'vpc'\n  template:\n    provider:\n      aws: {}\n\n".toList

/-- The template text of one resource `aws_vpc` named `main`. -/
def oneResource : Text :=
  "resource:\n- aws_vpc:\n  - - main:\n      - cidr: 10.0.0.0/16\n".toList

/-! ## File pipeline driver -/

/-- One entry of a directory listing, the `os.FileInfo` of `Readdir`: its name
and whether it is a directory. -/
structure DirEntry where
  name : Text
  isDir : Bool

/-- The length `len(s)` of a Go string, in bytes. -/
def byteLength (s : Text) : Nat :=
  s.foldr (fun c n => c.utf8Size + n) 0

/-- The extension `.tf`. -/
def dotTf : Text := ".tf".toList

/-- The file name `locals.tf`. -/
def localsTf : Text := "locals.tf".toList

/-- The condition of the `if` in the loop of `ParsingTfFile`.  The slice
`name[len(name)-3:]` is evaluated first and panics for a name of fewer than
three bytes; on a longer name its three bytes are `.tf` exactly when the last
three characters are. -/
def eligible (file : DirEntry) : Option Bool :=
  if byteLength file.name < 3 then none
  else
    some (decide (file.name.drop (file.name.length - 3) = dotTf) && !file.isDir &&
      !containsText localsTf file.name)

/-- The call `ioutil.WriteFile(path, content, 0777)`, whose error the program
ignores; the destination directory is taken to exist (the caller
`ParsingFolderTfFile` creates it), so that the write succeeds. -/
def WriteFile (fs : Files) (path content : Text) : Files :=
  fun p => if p = path then some content else fs p

/-- The files `fs` with the file at `path` replaced by `x`; with `none` there
is no file at `path`. -/
def overrideFile (fs : Files) (path : Text) (x : Option Text) : Files :=
  fun p => if p = path then x else fs p

/-- The loop of `ParsingTfFile` over the directory listing; the state is the
text `newYml` and the files. -/
def parseLoop (ext : Collaborators) (source destination : Text) :
    List DirEntry → Text × Files → Option (Text × Files)
  | [], acc => some acc
  | file :: rest, acc =>
    match eligible file with
    | none => none
    | some true =>
      match StartProccesingTfFile ext acc.2 (source ++ file.name) with
      | none => none
      | some y =>
        parseLoop ext source destination rest
          (acc.1 ++ y,
            if source = destination then DeleteFile acc.2 (source ++ file.name) else acc.2)
    | some false => parseLoop ext source destination rest acc

/-- The Go function `ParsingTfFile` on the listing `entries` of the source
directory (empty when the directory cannot be listed); the result is the files
left behind. -/
def ParsingTfFile (ext : Collaborators) (fs : Files) (entries : List DirEntry)
    (source destination : Text) : Option Files :=
  match parseLoop ext source destination entries ([], fs) with
  | none => none
  | some acc =>
    let fs2 := if source = destination then DeleteFile acc.2 (source ++ localsTf) else acc.2
    match RefactoringYml ext fs2 source acc.1 with
    | none => none
    | some r => some (WriteFile r.2 (destination ++ terrahubYml) r.1)

/-- The length of the top-level array `m[g]`, when `m[g]` is an array. -/
def groupLength (m : Tree) (g : String) : Option Nat :=
  match lookupKey m g with
  | some (.arr xs) => some xs.length
  | _ => none

/-! ## Further sample inputs -/

/-- Collaborators for the variable file `region = "eu"`: the decoder gives its
tree for that text and fails on any other, and the YAML text is `region: eu`. -/
def regionCollaborators : Collaborators :=
  ⟨fun input =>
      if input = "region = \"eu\"".toList then some [("region", .str "eu")] else none,
    fun _ => some "region: eu\n".toList⟩

/-- Collaborators that pass the text of the file through: the decoded tree has
the text under the key `text`, and the YAML text is the JSON text. -/
def echoCollaborators : Collaborators :=
  ⟨fun input => some [("text", .str (String.mk input))], fun js => some js⟩

/-- A source directory and a destination directory that differ. -/
def otherDestination : Text := "out/vpc/".toList

/-- The files of a run from `infra/vpc/` to `out/vpc/`: a source file, a
defaults file, and an existing document at the destination. -/
def splitFiles : Files :=
  fun p =>
    if p = sampleSource ++ "main.tf".toList then some "region = \"eu\"".toList
    else if p = sampleSource ++ defaultTfvars then some "region = \"eu\"".toList
    else if p = otherDestination ++ terrahubYml then some "keep: me\n\n".toList
    else none

/-- The files of a run from `infra/vpc/` to `out/vpc/` with a source file and a
document in either directory. -/
def bothDocuments : Files :=
  fun p =>
    if p = sampleSource ++ "main.tf".toList then some "region = \"eu\"".toList
    else if p = sampleSource ++ terrahubYml then some "a: 1\n\nb: 2\n".toList
    else if p = otherDestination ++ terrahubYml then some "keep: me\n\n".toList
    else none

/-- A directory that holds `a.tf`, `b.tf` and `locals.tf`, with the texts `A`,
`B` and `L`. -/
def threeFiles : Files :=
  fun p =>
    if p = sampleSource ++ "a.tf".toList then some ['A']
    else if p = sampleSource ++ "b.tf".toList then some ['B']
    else if p = sampleSource ++ localsTf then some ['L']
    else none

/-- The listing of the directory of `threeFiles`. -/
def threeEntries : List DirEntry :=
  [⟨"a.tf".toList, false⟩, ⟨"locals.tf".toList, false⟩, ⟨"b.tf".toList, false⟩]

/-- A directory that holds only a defaults file. -/
def onlyDefaults : Files :=
  fun p => if p = sampleSource ++ defaultTfvars then some "region = \"eu\"".toList else none

/-- A tree with two groups, a slot that repeats a key of the slot before it
and a slot that is not a mapping. -/
def mixedTree : Tree :=
  [("r", .arr [.obj [("K", .arr [.num 1])],
      .obj [("K", .arr [.num 2]), ("L", .arr [.num 3])], .str "x"]),
    ("name", .str "n"),
    ("d", .arr [.obj [("L", .arr [.num 4])]])]

/-! ## Two visiting orders of one tree -/

/-- Two slot reads that give the same Go value: the same result, or two
mappings that hold the same value under every key (one map, listed in two
orders). -/
def SameSlot (a b : Option Json) : Prop :=
  a = b ∨ ∃ fs1 fs2, a = some (.obj fs1) ∧ b = some (.obj fs2) ∧
    ∀ k, lookupKey fs1 k = lookupKey fs2 k

/-- Two association lists that stand for the same Go tree: the same keys hold
arrays, of the same length; a key that holds no array has the same value in
both (or is absent in both); and slot by slot the arrays hold the same value. -/
def SameTree (m1 m2 : Tree) : Prop :=
  (∀ g, groupLength m1 g = groupLength m2 g) ∧
  (∀ g, groupLength m1 g = none → lookupKey m1 g = lookupKey m2 g) ∧
  ∀ g i, SameSlot (getSlot m1 g i) (getSlot m2 g i)

/-- An association list that lists a Go tree: no top-level key twice, and no
key twice among the fields of a slot mapping. -/
def WellFormed (m : Tree) : Prop :=
  (m.map Prod.fst).Nodup ∧
  ∀ g i fs, getSlot m g i = some (.obj fs) → (fs.map Prod.fst).Nodup

/-- No candidate key (a field key with a sequence value in a slot mapping)
occurs in more than one top-level group. -/
def OneGroupPerKey (m : Tree) : Prop :=
  ∀ K g1 i1 fs1 v1 g2 i2 fs2 v2,
    getSlot m g1 i1 = some (.obj fs1) → lookupKey fs1 K = some v1 → v1.isArr = true →
    getSlot m g2 i2 = some (.obj fs2) → lookupKey fs2 K = some v2 → v2.isArr = true →
    g1 = g2

/-- The value under a key after the write-back in a slot that the scan kept:
a sequence value is replaced by the collected sequences `vals`, anything else
stays. -/
def mergedValue (old : Option Json) (vals : List Json) : Option Json :=
  match old with
  | some (.arr _) => some (.arr vals)
  | r => r

/-- A tree listed in one order: the group `r` first, the fields of its first
slot in the order `K`, `L`, `n`. -/
def orderA : Tree :=
  [("r", .arr [.obj [("K", .arr [.num 1]), ("L", .arr [.num 2]), ("n", .str "a")],
      .obj [("K", .arr [.num 3])], .str "s"]),
    ("name", .str "x")]

/-- The tree `orderA` listed in another order: the key `name` first, the fields
of the first slot of `r` in the order `n`, `L`, `K`. -/
def orderB : Tree :=
  [("name", .str "x"),
    ("r", .arr [.obj [("n", .str "a"), ("L", .arr [.num 2]), ("K", .arr [.num 1])],
      .obj [("K", .arr [.num 3])], .str "s"])]

/-! ## Reads and stores of slots -/

theorem getSlot_cons (k : String) (x : Json) (rest : Tree) (g : String) (i : Nat) :
    getSlot ((k, x) :: rest) g i =
      if k = g then (match x with | .arr xs => xs.get? i | _ => none) else getSlot rest g i := by
  unfold getSlot
  simp only [lookupKey]
  by_cases hk : k = g
  · simp only [hk, if_true]
    cases x <;> rfl
  · simp only [hk, if_false]

theorem getSlot_setSlot (t : Tree) (g : String) (i : Nat) (v : Json) :
    ∀ t1, setSlot t g i v = some t1 → ∀ g1 i1,
      getSlot t1 g1 i1 = if g1 = g ∧ i1 = i then some v else getSlot t g1 i1 := by
  induction t with
  | nil => intro t1 h; simp [setSlot] at h
  | cons kv rest ih =>
    obtain ⟨k, x⟩ := kv
    intro t1 h g1 i1
    simp only [setSlot] at h
    by_cases hk : k = g
    · simp only [hk, if_true] at h
      cases x with
      | arr xs =>
        simp only at h
        split at h
        · rename_i hlt
          cases h
          rw [getSlot_cons, getSlot_cons, hk]
          by_cases hg : g = g1
          · subst hg
            simp only [if_true, true_and]
            by_cases hi : i1 = i
            · subst hi
              simp [List.get?_eq_getElem?, hlt]
            · simp only [hi, if_false, List.get?_eq_getElem?]
              rw [List.getElem?_set_ne (fun e => hi e.symm)]
          · have hg' : ¬ g1 = g := fun e => hg e.symm
            simp [hg, hg']
        · cases h
      | null => cases h
      | bool b => cases h
      | num n => cases h
      | str s => cases h
      | obj kvs => cases h
    · simp only [hk, if_false] at h
      cases hr : setSlot rest g i v with
      | none => rw [hr] at h; cases h
      | some r =>
        rw [hr] at h
        cases h
        rw [getSlot_cons, getSlot_cons]
        by_cases hg : k = g1
        · have hne : ¬ g1 = g := fun e => hk (hg.trans e)
          simp [hg, hne]
        · simp only [hg, if_false]
          exact ih r hr g1 i1

theorem setSlot_isSome (t : Tree) (g : String) (i : Nat) (v : Json) :
    (getSlot t g i).isSome = true → ∃ t1, setSlot t g i v = some t1 := by
  induction t with
  | nil => intro h; simp [getSlot, lookupKey] at h
  | cons kv rest ih =>
    obtain ⟨k, x⟩ := kv
    intro h
    rw [getSlot_cons] at h
    simp only [setSlot]
    by_cases hk : k = g
    · simp only [hk, if_true] at h ⊢
      cases x with
      | arr xs =>
        simp only at h ⊢
        have hlt : i < xs.length := by
          rw [List.get?_eq_getElem?] at h
          by_contra hc
          rw [List.getElem?_eq_none (Nat.le_of_not_lt hc)] at h
          simp at h
        simp [hlt]
      | null => simp at h
      | bool b => simp at h
      | num n => simp at h
      | str s => simp at h
      | obj kvs => simp at h
    · simp only [hk, if_false] at h ⊢
      obtain ⟨r, hr⟩ := ih h
      exact ⟨_, by rw [hr]; rfl⟩

/-! ## The list `uniqKeys` -/

theorem contains_iff_index (arr : List Element) (k : String) :
    Contains arr k = true → ∃ j, indexOfKey arr k = some j := by
  induction arr with
  | nil => intro h; simp [Contains] at h
  | cons a rest ih =>
    intro h
    simp only [Contains] at h
    simp only [indexOfKey]
    by_cases ha : a.EK = k
    · exact ⟨0, by simp [ha]⟩
    · simp only [ha, if_false] at h ⊢
      obtain ⟨j, hj⟩ := ih h
      exact ⟨j + 1, by simp [hj]⟩

theorem appendElements_eq_bumpFirst (arr : List Element) (k : String) (v : Json) :
    Contains arr k = true →
      appendElements arr (ReturnElement arr k) v = some (bumpFirst k v arr) := by
  induction arr with
  | nil => intro h; simp [Contains] at h
  | cons a rest ih =>
    intro h
    simp only [Contains] at h
    by_cases ha : a.EK = k
    · simp [ReturnElement, indexOfKey, ha, appendElements, bumpFirst]
    · simp only [ha, if_false] at h
      obtain ⟨j, hj⟩ := contains_iff_index rest k h
      have ih2 := ih h
      simp only [ReturnElement, hj, Option.getD_some] at ih2
      simp [ReturnElement, indexOfKey, ha, hj, appendElements, ih2, bumpFirst]

theorem contains_eq_false_iff (arr : List Element) (K : String) :
    Contains arr K = false ↔ entriesFor K arr = [] := by
  induction arr with
  | nil => simp [Contains, entriesFor]
  | cons a rest ih =>
    by_cases ha : a.EK = K
    · simp [Contains, entriesFor, ha]
    · simp only [Contains, ha, if_false, ih]
      simp [entriesFor, ha]

theorem entriesFor_append (K : String) (a b : List Element) :
    entriesFor K (a ++ b) = entriesFor K a ++ entriesFor K b := by
  simp [entriesFor]

theorem entriesFor_bumpFirst_ne (K k : String) (v : Json) (hk : k ≠ K) (arr : List Element) :
    entriesFor K (bumpFirst k v arr) = entriesFor K arr := by
  induction arr with
  | nil => rfl
  | cons a rest ih =>
    simp only [bumpFirst]
    by_cases ha : a.EK = k
    · have hne : ¬ a.EK = K := fun e => hk (ha.symm.trans e)
      simp [ha, entriesFor, hne, hk]
    · simp only [ha, if_false]
      simp only [entriesFor, List.filter_cons] at ih ⊢
      rw [ih]

theorem entriesFor_bumpFirst_eq (K : String) (v : Json) (arr : List Element) (e : Element)
    (r : List Element) (h : entriesFor K arr = e :: r) :
    entriesFor K (bumpFirst K v arr) = { e with Elements := e.Elements ++ [v] } :: r := by
  induction arr with
  | nil => simp [entriesFor] at h
  | cons a rest ih =>
    simp only [bumpFirst]
    by_cases ha : a.EK = K
    · simp only [entriesFor, List.filter_cons, ha, decide_True, if_true, List.cons.injEq] at h
      obtain ⟨h1, h2⟩ := h
      subst h1
      simp only [ha, if_true, entriesFor, List.filter_cons, decide_True, List.cons.injEq]
      exact ⟨trivial, h2⟩
    · simp only [entriesFor, List.filter_cons, ha, decide_False, Bool.false_eq_true,
        if_false] at h
      simp only [ha, if_false, entriesFor, List.filter_cons, decide_False, Bool.false_eq_true]
      exact ih h

theorem mem_bumpFirst (k : String) (v : Json) (arr : List Element) (e1 : Element)
    (h : e1 ∈ bumpFirst k v arr) : ∃ e ∈ arr, e1.GK = e.GK ∧ e1.SK = e.SK := by
  induction arr with
  | nil => simp [bumpFirst] at h
  | cons a rest ih =>
    simp only [bumpFirst] at h
    by_cases ha : a.EK = k
    · simp only [ha, if_true] at h
      rcases List.mem_cons.mp h with h1 | h1
      · exact ⟨a, List.mem_cons_self _ _, by rw [h1], by rw [h1]⟩
      · exact ⟨e1, List.mem_cons_of_mem _ h1, rfl, rfl⟩
    · simp only [ha, if_false] at h
      rcases List.mem_cons.mp h with h1 | h1
      · exact ⟨a, List.mem_cons_self _ _, by rw [h1], by rw [h1]⟩
      · obtain ⟨e, he, h2⟩ := ih h1
        exact ⟨e, List.mem_cons_of_mem _ he, h2⟩

/-! ## One step of the scan -/

theorem foldlM_cons_some {α β : Type} (f : β → α → Option β) (x : α) (vs : List α)
    (st st1 : β) :
    (x :: vs).foldlM f st = some st1 ↔ ∃ s, f st x = some s ∧ vs.foldlM f s = some st1 := by
  rw [List.foldlM_cons]
  cases h : f st x with
  | none => simp
  | some s => simp

theorem visitStep_cases (st : NormState) (x : Visit) (st1 : NormState)
    (h : visitStep st x = some st1) :
    (x.2.2.2.isArr = false ∧ st1 = st) ∨
    (x.2.2.2.isArr = true ∧ Contains st.uniqKeys x.2.2.1 = false ∧
      st1 = ⟨st.m, st.uniqKeys ++ [⟨x.1, x.2.1, x.2.2.1, [x.2.2.2]⟩]⟩) ∨
    (x.2.2.2.isArr = true ∧ Contains st.uniqKeys x.2.2.1 = true ∧
      st1.uniqKeys = bumpFirst x.2.2.1 x.2.2.2 st.uniqKeys ∧
      setSlot st.m x.1 x.2.1 .null = some st1.m) := by
  obtain ⟨g, i, k, v⟩ := x
  unfold visitStep at h
  simp only at h ⊢
  cases v with
  | arr xs =>
    simp only [step3Field] at h
    by_cases hc : Contains st.uniqKeys k = true
    · right; right
      simp only [hc, Bool.not_true, Bool.false_eq_true, if_false,
        appendElements_eq_bumpFirst _ k _ hc] at h
      cases hs : setSlot st.m g i .null with
      | none => rw [hs] at h; cases h
      | some m1 =>
        rw [hs] at h
        cases h
        exact ⟨rfl, hc, rfl, rfl⟩
    · right; left
      have hc2 : Contains st.uniqKeys k = false := by simpa using hc
      simp only [hc2, Bool.not_false, if_true] at h
      cases h
      exact ⟨rfl, hc2, rfl⟩
  | null => left; simp only [step3Field] at h; cases h; exact ⟨rfl, rfl⟩
  | bool b => left; simp only [step3Field] at h; cases h; exact ⟨rfl, rfl⟩
  | num n => left; simp only [step3Field] at h; cases h; exact ⟨rfl, rfl⟩
  | str s => left; simp only [step3Field] at h; cases h; exact ⟨rfl, rfl⟩
  | obj kvs => left; simp only [step3Field] at h; cases h; exact ⟨rfl, rfl⟩

theorem visitStep_success (st : NormState) (x : Visit)
    (h : (getSlot st.m x.1 x.2.1).isSome = true) : ∃ st1, visitStep st x = some st1 := by
  obtain ⟨g, i, k, v⟩ := x
  unfold visitStep
  simp only at h ⊢
  cases v with
  | arr xs =>
    simp only [step3Field]
    by_cases hc : Contains st.uniqKeys k = true
    · obtain ⟨m1, hm1⟩ := setSlot_isSome st.m g i .null h
      simp [hc, appendElements_eq_bumpFirst _ k _ hc, hm1]
    · have hc2 : Contains st.uniqKeys k = false := by simpa using hc
      simp [hc2]
  | null => exact ⟨st, rfl⟩
  | bool b => exact ⟨st, rfl⟩
  | num n => exact ⟨st, rfl⟩
  | str s => exact ⟨st, rfl⟩
  | obj kvs => exact ⟨st, rfl⟩

/-- A step leaves the tree alone or sets the slot of the field to null. -/
theorem visitStep_tree (st : NormState) (x : Visit) (st1 : NormState)
    (h : visitStep st x = some st1) :
    st1.m = st.m ∨ (x.2.2.2.isArr = true ∧ setSlot st.m x.1 x.2.1 .null = some st1.m) := by
  rcases visitStep_cases st x st1 h with h1 | h1 | h1
  · left; rw [h1.2]
  · left; rw [h1.2.2]
  · right; exact ⟨h1.1, h1.2.2.2⟩

theorem evolves_refl (m : Tree) : Evolves m m := fun _ _ => Or.inl rfl

theorem evolves_step (m : Tree) (st : NormState) (x : Visit) (st1 : NormState)
    (hx : (getSlot m x.1 x.2.1).isSome = true)
    (he : Evolves m st.m) (h : visitStep st x = some st1) : Evolves m st1.m := by
  rcases visitStep_tree st x st1 h with h1 | ⟨_, h1⟩
  · rw [h1]; exact he
  · intro g i
    rw [getSlot_setSlot st.m x.1 x.2.1 .null st1.m h1 g i]
    by_cases hgi : g = x.1 ∧ i = x.2.1
    · rw [if_pos hgi]
      right
      exact ⟨rfl, by rw [hgi.1, hgi.2]; exact hx⟩
    · rw [if_neg hgi]
      exact he g i

theorem evolves_isSome (m t : Tree) (he : Evolves m t) (g : String) (i : Nat)
    (h : (getSlot m g i).isSome = true) : (getSlot t g i).isSome = true := by
  rcases he g i with h1 | h1
  · rw [h1]; exact h
  · rw [h1.1]; rfl

/-! ## The scan over a list of fields -/

theorem scan_total (m : Tree) :
    ∀ (vs : List Visit) (st : NormState),
      (∀ x ∈ vs, ∃ fs, getSlot m x.1 x.2.1 = some (.obj fs)) →
      Evolves m st.m →
      (∀ e ∈ st.uniqKeys, ∃ fs, getSlot m e.GK e.SK = some (.obj fs)) →
      ∃ st1, vs.foldlM visitStep st = some st1 ∧ Evolves m st1.m ∧
        (∀ e ∈ st1.uniqKeys, ∃ fs, getSlot m e.GK e.SK = some (.obj fs)) := by
  intro vs
  induction vs with
  | nil => intro st _ he hu; exact ⟨st, rfl, he, hu⟩
  | cons x vs ih =>
    intro st hv he hu
    obtain ⟨fs, hfs⟩ := hv x (List.mem_cons_self _ _)
    have hx : (getSlot m x.1 x.2.1).isSome = true := by rw [hfs]; rfl
    obtain ⟨s, hs⟩ := visitStep_success st x (evolves_isSome m st.m he _ _ hx)
    have he1 := evolves_step m st x s hx he hs
    have hu1 : ∀ e ∈ s.uniqKeys, ∃ fs, getSlot m e.GK e.SK = some (.obj fs) := by
      intro e hmem
      rcases visitStep_cases st x s hs with h1 | h1 | h1
      · rw [h1.2] at hmem; exact hu e hmem
      · rw [h1.2.2] at hmem
        rcases List.mem_append.mp hmem with h2 | h2
        · exact hu e h2
        · rw [List.mem_singleton] at h2
          rw [h2]
          exact ⟨fs, hfs⟩
      · rw [h1.2.2.1] at hmem
        obtain ⟨e0, he0, hg, hk⟩ := mem_bumpFirst _ _ _ e hmem
        rw [hg, hk]
        exact hu e0 he0
    obtain ⟨st1, h1, h2, h3⟩ :=
      ih s (fun y hy => hv y (List.mem_cons_of_mem _ hy)) he1 hu1
    exact ⟨st1, (foldlM_cons_some _ _ _ _ _).mpr ⟨s, hs, h1⟩, h2, h3⟩

theorem scan_slot_frame (g : String) (i : Nat) :
    ∀ (vs : List Visit) (st st1 : NormState), vs.foldlM visitStep st = some st1 →
      (∀ x ∈ vs, x.1 = g → x.2.1 = i → x.2.2.2.isArr = false) →
      getSlot st1.m g i = getSlot st.m g i := by
  intro vs
  induction vs with
  | nil => intro st st1 h _; cases h; rfl
  | cons x vs ih =>
    intro st st1 h hx
    obtain ⟨s, hs, hrest⟩ := (foldlM_cons_some _ _ _ _ _).mp h
    rw [ih s st1 hrest (fun y hy => hx y (List.mem_cons_of_mem _ hy))]
    rcases visitStep_tree st x s hs with h1 | ⟨ha, h1⟩
    · rw [h1]
    · rw [getSlot_setSlot st.m x.1 x.2.1 .null s.m h1 g i]
      by_cases hgi : g = x.1 ∧ i = x.2.1
      · have := hx x (List.mem_cons_self _ _) hgi.1.symm hgi.2.symm
        rw [ha] at this
        cases this
      · rw [if_neg hgi]

theorem scan_null_persists (g : String) (i : Nat) :
    ∀ (vs : List Visit) (st st1 : NormState), vs.foldlM visitStep st = some st1 →
      getSlot st.m g i = some .null → getSlot st1.m g i = some .null := by
  intro vs
  induction vs with
  | nil => intro st st1 h hn; cases h; exact hn
  | cons x vs ih =>
    intro st st1 h hn
    obtain ⟨s, hs, hrest⟩ := (foldlM_cons_some _ _ _ _ _).mp h
    apply ih s st1 hrest
    rcases visitStep_tree st x s hs with h1 | ⟨_, h1⟩
    · rw [h1]; exact hn
    · rw [getSlot_setSlot st.m x.1 x.2.1 .null s.m h1 g i]
      split
      · rfl
      · exact hn

theorem occurrences_cons (K : String) (x : Visit) (vs : List Visit) :
    occurrences K (x :: vs) =
      if x.2.2.1 = K ∧ x.2.2.2.isArr = true then (x.1, x.2.1, x.2.2.2) :: occurrences K vs
      else occurrences K vs := by
  unfold occurrences
  rw [List.filterMap_cons]
  by_cases h : x.2.2.1 = K ∧ x.2.2.2.isArr = true
  · simp only [h, and_self, if_true]
  · simp only [h, if_false]

theorem occurrences_append (K : String) (a b : List Visit) :
    occurrences K (a ++ b) = occurrences K a ++ occurrences K b := by
  simp [occurrences]

theorem mem_occurrences (K : String) (vs : List Visit) (o : String × Nat × Json) :
    o ∈ occurrences K vs ↔ (o.1, o.2.1, K, o.2.2) ∈ vs ∧ o.2.2.isArr = true := by
  induction vs with
  | nil => simp [occurrences]
  | cons x vs ih =>
    obtain ⟨g, i, k, v⟩ := x
    obtain ⟨og, oi, ov⟩ := o
    rw [occurrences_cons]
    by_cases hx : k = K ∧ v.isArr = true
    · rw [if_pos hx]
      simp only [List.mem_cons, ih, Prod.mk.injEq]
      constructor
      · rintro (⟨h1, h2, h3⟩ | h)
        · subst h1 h2 h3
          exact ⟨Or.inl ⟨rfl, rfl, hx.1.symm, rfl⟩, hx.2⟩
        · exact ⟨Or.inr h.1, h.2⟩
      · rintro ⟨⟨h1, h2, _, h3⟩ | h, ha⟩
        · exact Or.inl ⟨h1, h2, h3⟩
        · exact Or.inr ⟨h, ha⟩
    · rw [if_neg hx]
      simp only [ih, List.mem_cons, Prod.mk.injEq]
      constructor
      · rintro ⟨h, ha⟩; exact ⟨Or.inr h, ha⟩
      · rintro ⟨⟨_, _, h3, h4⟩ | h, ha⟩
        · exfalso
          apply hx
          subst h4
          exact ⟨h3.symm, ha⟩
        · exact ⟨h, ha⟩

/-- A step for a field that is not an occurrence of `K` leaves the elements for
`K` alone. -/
theorem visitStep_entries_other (K : String) (st : NormState) (x : Visit) (s : NormState)
    (h : visitStep st x = some s) (hx : ¬ (x.2.2.1 = K ∧ x.2.2.2.isArr = true)) :
    entriesFor K s.uniqKeys = entriesFor K st.uniqKeys := by
  rcases visitStep_cases st x s h with h1 | h1 | h1
  · rw [h1.2]
  · rw [h1.2.2]
    have hne : ¬ x.2.2.1 = K := fun e => hx ⟨e, h1.1⟩
    simp [entriesFor, hne]
  · rw [h1.2.2.1]
    exact entriesFor_bumpFirst_ne K _ _ (fun e => hx ⟨e, h1.1⟩) _

theorem scan_entries_frame (K : String) :
    ∀ (vs : List Visit) (st st1 : NormState), vs.foldlM visitStep st = some st1 →
      occurrences K vs = [] → entriesFor K st1.uniqKeys = entriesFor K st.uniqKeys := by
  intro vs
  induction vs with
  | nil => intro st st1 h _; cases h; rfl
  | cons x vs ih =>
    intro st st1 h ho
    obtain ⟨s, hs, hrest⟩ := (foldlM_cons_some _ _ _ _ _).mp h
    rw [occurrences_cons] at ho
    by_cases hx : x.2.2.1 = K ∧ x.2.2.2.isArr = true
    · rw [if_pos hx] at ho; cases ho
    · rw [if_neg hx] at ho
      rw [ih s st1 hrest ho, visitStep_entries_other K st x s hs hx]

theorem scan_entries_grow (K : String) :
    ∀ (vs : List Visit) (st st1 : NormState) (e : Element),
      vs.foldlM visitStep st = some st1 → entriesFor K st.uniqKeys = [e] →
      entriesFor K st1.uniqKeys =
        [{ e with Elements := e.Elements ++ (occurrences K vs).map (fun o => o.2.2) }] ∧
      ∀ o ∈ occurrences K vs, getSlot st1.m o.1 o.2.1 = some .null := by
  intro vs
  induction vs with
  | nil =>
    intro st st1 e h he
    cases h
    simp [occurrences, he]
  | cons x vs ih =>
    intro st st1 e h he
    obtain ⟨s, hs, hrest⟩ := (foldlM_cons_some _ _ _ _ _).mp h
    rw [occurrences_cons]
    by_cases hx : x.2.2.1 = K ∧ x.2.2.2.isArr = true
    · rw [if_pos hx]
      have hc : Contains st.uniqKeys x.2.2.1 = true := by
        rw [hx.1]
        cases hcc : Contains st.uniqKeys K with
        | true => rfl
        | false =>
          rw [contains_eq_false_iff] at hcc
          rw [hcc] at he
          cases he
      rcases visitStep_cases st x s hs with h1 | h1 | h1
      · rw [hx.2] at h1; cases h1.1
      · rw [hc] at h1; cases h1.2.1
      · have hs1 : entriesFor K s.uniqKeys =
            [{ e with Elements := e.Elements ++ [x.2.2.2] }] := by
          rw [h1.2.2.1, hx.1]
          exact entriesFor_bumpFirst_eq K _ _ e [] he
        obtain ⟨ih1, ih2⟩ := ih s st1 _ hrest hs1
        refine ⟨?_, ?_⟩
        · rw [ih1]
          simp
        · intro o ho
          rcases List.mem_cons.mp ho with h2 | h2
          · rw [h2]
            apply scan_null_persists _ _ vs s st1 hrest
            rw [getSlot_setSlot st.m x.1 x.2.1 .null s.m h1.2.2.2]
            simp
          · exact ih2 o h2
    · rw [if_neg hx]
      have hs1 : entriesFor K s.uniqKeys = [e] := by
        rw [visitStep_entries_other K st x s hs hx, he]
      exact ih s st1 e hrest hs1

/-! ## The nested loops are the scan over `fieldVisits` -/

theorem step3_eq_scan (k : String) (i : Nat) (element : List Json)
    (fs : List (String × Json)) (h : element.get? i = some (.obj fs)) (st : NormState) :
    CheckElementByTypeStep3 st ⟨k, i, ""⟩ element =
      (slotVisits k (i, .obj fs)).foldlM visitStep st := by
  unfold CheckElementByTypeStep3
  simp only [h, slotVisits]
  rw [List.foldlM_map]
  rfl

theorem scanGroup_eq_scan (k : String) (element : List Json) :
    ∀ (l : List (Nat × Json)), (∀ p ∈ l, element.get? p.1 = some p.2) →
      ∀ st : NormState,
        l.foldlM
          (fun s kv1 =>
            match kv1.2 with
            | .obj _ => CheckElementByTypeStep3 s ⟨k, kv1.1, ""⟩ element
            | _ => some s) st =
        (l.flatMap (slotVisits k)).foldlM visitStep st := by
  intro l
  induction l with
  | nil => intro _ st; rfl
  | cons p l ih =>
    intro hl st
    have hp := hl p (List.mem_cons_self _ _)
    have ih2 := ih (fun q hq => hl q (List.mem_cons_of_mem _ hq))
    rw [List.foldlM_cons, List.flatMap_cons, List.foldlM_append]
    obtain ⟨i, x⟩ := p
    cases x with
    | obj fs =>
      simp only at hp ⊢
      rw [step3_eq_scan k i element fs hp st]
      congr 1
      funext s
      exact ih2 s
    | null => simp only [slotVisits]; exact ih2 st
    | bool b => simp only [slotVisits]; exact ih2 st
    | num n => simp only [slotVisits]; exact ih2 st
    | str s => simp only [slotVisits]; exact ih2 st
    | arr xs => simp only [slotVisits]; exact ih2 st

theorem checkElementByType_eq_scan (m : Tree) (uniqKeys : List Element) :
    CheckElementByType m uniqKeys = (fieldVisits m).foldlM visitStep ⟨m, uniqKeys⟩ := by
  unfold CheckElementByType fieldVisits
  generalize (⟨m, uniqKeys⟩ : NormState) = st
  induction m generalizing st with
  | nil => rfl
  | cons kv rest ih =>
    rw [List.foldlM_cons, List.flatMap_cons, List.foldlM_append]
    obtain ⟨k, v⟩ := kv
    cases v with
    | arr element =>
      simp only [groupVisits]
      have := scanGroup_eq_scan k element element.enum
        (fun p hp => by
          obtain ⟨i, x⟩ := p
          rw [List.get?_eq_getElem?]
          exact List.mk_mem_enum_iff_getElem?.mp hp) st
      unfold scanGroup
      rw [this]
      congr 1
      funext s
      exact ih s
    | null => simp only [groupVisits]; exact ih st
    | bool b => simp only [groupVisits]; exact ih st
    | num n => simp only [groupVisits]; exact ih st
    | str s => simp only [groupVisits]; exact ih st
    | obj kvs => simp only [groupVisits]; exact ih st

/-! ## Where the fields of a slot sit in `fieldVisits` -/

theorem mem_slotVisits (g : String) (p : Nat × Json) (y : Visit) (h : y ∈ slotVisits g p) :
    y.1 = g ∧ y.2.1 = p.1 ∧ ∃ fs, p.2 = .obj fs ∧ (y.2.2.1, y.2.2.2) ∈ fs := by
  obtain ⟨i, x⟩ := p
  cases x with
  | obj fs =>
    simp only [slotVisits, List.mem_map] at h
    obtain ⟨f, hf, hy⟩ := h
    subst hy
    exact ⟨rfl, rfl, fs, rfl, hf⟩
  | null => simp [slotVisits] at h
  | bool b => simp [slotVisits] at h
  | num n => simp [slotVisits] at h
  | str s => simp [slotVisits] at h
  | arr xs => simp [slotVisits] at h

theorem mem_enumFrom_visits (g : String) (xs : List Json) (n : Nat) (y : Visit)
    (h : y ∈ (xs.enumFrom n).flatMap (slotVisits g)) :
    y.1 = g ∧ n ≤ y.2.1 ∧ ∃ fs, xs.get? (y.2.1 - n) = some (.obj fs) ∧
      (y.2.2.1, y.2.2.2) ∈ fs := by
  obtain ⟨p, hp, hy⟩ := List.mem_flatMap.mp h
  obtain ⟨h1, h2, fs, h3, h4⟩ := mem_slotVisits g p y hy
  obtain ⟨i, x⟩ := p
  have := List.mk_mem_enumFrom_iff_le_and_getElem?_sub.mp hp
  simp only at h2 h3
  subst h3
  rw [h2]
  exact ⟨h1, this.1, fs, by rw [List.get?_eq_getElem?]; exact this.2, h4⟩

theorem enumFrom_visits_split (g : String) :
    ∀ (xs : List Json) (n i : Nat) (x : Json), xs.get? i = some x →
      ∃ A B, (xs.enumFrom n).flatMap (slotVisits g) = A ++ slotVisits g (n + i, x) ++ B ∧
        ∀ y ∈ A ++ B, y.2.1 ≠ n + i := by
  intro xs
  induction xs with
  | nil => intro n i x h; simp at h
  | cons a xs ih =>
    intro n i x h
    cases i with
    | zero =>
      simp only [List.get?_cons_zero, Option.some.injEq] at h
      subst h
      refine ⟨[], (xs.enumFrom (n + 1)).flatMap (slotVisits g), by simp, ?_⟩
      intro y hy
      simp only [List.nil_append] at hy
      have := (mem_enumFrom_visits g xs (n + 1) y hy).2.1
      omega
    | succ j =>
      simp only [List.get?_cons_succ] at h
      obtain ⟨A, B, hAB, hpos⟩ := ih (n + 1) j x h
      refine ⟨slotVisits g (n, a) ++ A, B, ?_, ?_⟩
      · rw [List.enumFrom_cons, List.flatMap_cons, hAB]
        have : n + 1 + j = n + (j + 1) := by omega
        rw [this]
        simp
      · intro y hy
        rw [List.append_assoc] at hy
        rcases List.mem_append.mp hy with h1 | h1
        · have := (mem_slotVisits g (n, a) y h1).2.1
          simp only at this
          omega
        · have := hpos y h1
          omega

theorem mem_groupVisits (kv : String × Json) (y : Visit) (h : y ∈ groupVisits kv) :
    y.1 = kv.1 ∧ ∃ xs fs, kv.2 = .arr xs ∧ xs.get? y.2.1 = some (.obj fs) ∧
      (y.2.2.1, y.2.2.2) ∈ fs := by
  obtain ⟨k, v⟩ := kv
  cases v with
  | arr xs =>
    simp only [groupVisits] at h
    obtain ⟨h1, _, fs, h3, h4⟩ := mem_enumFrom_visits k xs 0 y h
    exact ⟨h1, xs, fs, rfl, by simpa using h3, h4⟩
  | null => simp [groupVisits] at h
  | bool b => simp [groupVisits] at h
  | num n => simp [groupVisits] at h
  | str s => simp [groupVisits] at h
  | obj kvs => simp [groupVisits] at h

theorem mem_fieldVisits_key (m : Tree) (y : Visit) (h : y ∈ fieldVisits m) :
    y.1 ∈ m.map Prod.fst := by
  obtain ⟨kv, hkv, hy⟩ := List.mem_flatMap.mp h
  rw [(mem_groupVisits kv y hy).1]
  exact List.mem_map_of_mem _ hkv

theorem mem_fieldVisits_slot (m : Tree) (hkeys : (m.map Prod.fst).Nodup) :
    ∀ y ∈ fieldVisits m,
      ∃ fs, getSlot m y.1 y.2.1 = some (.obj fs) ∧ (y.2.2.1, y.2.2.2) ∈ fs := by
  induction m with
  | nil => intro y hy; simp [fieldVisits] at hy
  | cons kv rest ih =>
    obtain ⟨k, v⟩ := kv
    intro y hy
    simp only [List.map_cons, List.nodup_cons] at hkeys
    rw [fieldVisits, List.flatMap_cons] at hy
    rcases List.mem_append.mp hy with h1 | h1
    · obtain ⟨h2, xs, fs, h3, h4, h5⟩ := mem_groupVisits (k, v) y h1
      simp only at h2 h3
      subst h3
      refine ⟨fs, ?_, h5⟩
      rw [getSlot_cons, h2]
      simpa using h4
    · obtain ⟨fs, h2, h3⟩ := ih hkeys.2 y h1
      refine ⟨fs, ?_, h3⟩
      have hne : ¬ k = y.1 := by
        intro e
        apply hkeys.1
        rw [e]
        exact mem_fieldVisits_key rest y h1
      rw [getSlot_cons, if_neg hne]
      exact h2

theorem fieldVisits_split (m : Tree) (hkeys : (m.map Prod.fst).Nodup) (g : String) (i : Nat)
    (x : Json) (h : getSlot m g i = some x) :
    ∃ A B, fieldVisits m = A ++ slotVisits g (i, x) ++ B ∧
      ∀ y ∈ A ++ B, ¬ (y.1 = g ∧ y.2.1 = i) := by
  induction m with
  | nil => simp [getSlot, lookupKey] at h
  | cons kv rest ih =>
    obtain ⟨k, v⟩ := kv
    simp only [List.map_cons, List.nodup_cons] at hkeys
    rw [getSlot_cons] at h
    by_cases hk : k = g
    · rw [if_pos hk] at h
      cases v with
      | arr xs =>
        simp only at h
        obtain ⟨A, B, hAB, hpos⟩ := enumFrom_visits_split g xs 0 i x h
        simp only [Nat.zero_add] at hAB hpos
        refine ⟨A, B ++ fieldVisits rest, ?_, ?_⟩
        · rw [fieldVisits, List.flatMap_cons]
          simp only [groupVisits, List.enum_eq_enumFrom, hk]
          rw [hAB]
          simp [fieldVisits]
        · intro y hy
          rw [← List.append_assoc] at hy
          rcases List.mem_append.mp hy with h1 | h1
          · intro hc
            exact hpos y h1 hc.2
          · intro hc
            apply hkeys.1
            rw [hk, ← hc.1]
            exact mem_fieldVisits_key rest y h1
      | null => simp at h
      | bool b => simp at h
      | num n => simp at h
      | str s => simp at h
      | obj kvs => simp at h
    · rw [if_neg hk] at h
      obtain ⟨A, B, hAB, hpos⟩ := ih hkeys.2 h
      refine ⟨groupVisits (k, v) ++ A, B, ?_, ?_⟩
      · rw [fieldVisits, List.flatMap_cons]
        change groupVisits (k, v) ++ fieldVisits rest = _
        rw [hAB]
        simp
      · intro y hy
        rw [List.append_assoc] at hy
        rcases List.mem_append.mp hy with h1 | h1
        · intro hc
          apply hk
          rw [← hc.1]
          exact ((mem_groupVisits (k, v) y h1).1).symm
        · exact hpos y h1

theorem slot_mem_fieldVisits (m : Tree) (hkeys : (m.map Prod.fst).Nodup) (g : String) (i : Nat)
    (fs : List (String × Json)) (h : getSlot m g i = some (.obj fs)) (k : String) (v : Json)
    (hf : (k, v) ∈ fs) : (g, i, k, v) ∈ fieldVisits m := by
  obtain ⟨A, B, hAB, _⟩ := fieldVisits_split m hkeys g i (.obj fs) h
  rw [hAB]
  apply List.mem_append_left
  apply List.mem_append_right
  simp only [slotVisits, List.mem_map]
  exact ⟨(k, v), hf, rfl⟩

/-! ## The write-back loop -/

theorem lookupKey_setField_same (fs : List (String × Json)) (k : String) (v : Json) :
    lookupKey (setField fs k v) k = some v := by
  induction fs with
  | nil => simp [setField, lookupKey]
  | cons kv rest ih =>
    obtain ⟨k1, x⟩ := kv
    simp only [setField]
    by_cases h : k1 = k
    · simp [h, lookupKey]
    · simp [h, lookupKey, ih]

theorem lookupKey_setField_ne (fs : List (String × Json)) (k k1 : String) (v : Json)
    (hne : k ≠ k1) : lookupKey (setField fs k v) k1 = lookupKey fs k1 := by
  induction fs with
  | nil => simp [setField, lookupKey, hne]
  | cons kv rest ih =>
    obtain ⟨k2, x⟩ := kv
    simp only [setField]
    by_cases h : k2 = k
    · have h2 : ¬ k2 = k1 := fun e => hne (h.symm.trans e)
      simp [h, lookupKey, hne]
    · rw [if_neg h]
      by_cases h3 : k2 = k1
      · simp [lookupKey, h3]
      · simp [lookupKey, h3, ih]

theorem lookupKey_isSome_of_mem (fs : List (String × Json)) (k : String) (v : Json)
    (h : (k, v) ∈ fs) : (lookupKey fs k).isSome = true := by
  induction fs with
  | nil => simp at h
  | cons kv rest ih =>
    obtain ⟨k1, x⟩ := kv
    simp only [lookupKey]
    by_cases hk : k1 = k
    · simp [hk]
    · rw [if_neg hk]
      rcases List.mem_cons.mp h with h1 | h1
      · simp only [Prod.mk.injEq] at h1
        exact absurd h1.1.symm hk
      · exact ih h1

theorem mem_of_lookupKey (fs : List (String × Json)) (k : String) (v : Json)
    (h : lookupKey fs k = some v) : (k, v) ∈ fs := by
  induction fs with
  | nil => simp [lookupKey] at h
  | cons kv rest ih =>
    obtain ⟨k1, x⟩ := kv
    simp only [lookupKey] at h
    by_cases hk : k1 = k
    · rw [if_pos hk] at h
      cases h
      rw [hk]
      exact List.mem_cons_self _ _
    · rw [if_neg hk] at h
      exact List.mem_cons_of_mem _ (ih h)

/-- The write-back loop succeeds when the slot of every element is null or a
mapping; it keeps nulls, and in a mapping slot it changes the value under `K`
only through the element `eK`, the only one with key `K`. -/
theorem writeBack_all (K : String) (eK : Element) (hK : eK.EK = K) :
    ∀ (es : List Element) (t : Tree),
      (∀ e ∈ es, getSlot t e.GK e.SK = some .null ∨
        ∃ fs, getSlot t e.GK e.SK = some (.obj fs)) →
      (∀ e ∈ es, e.EK = K → e = eK) →
      ∃ t1, es.foldlM writeBack t = some t1 ∧
        ∀ g i,
          (∀ fs, getSlot t g i = some (.obj fs) →
            ∃ fs1, getSlot t1 g i = some (.obj fs1) ∧
              (eK ∈ es → g = eK.GK → i = eK.SK →
                lookupKey fs1 K = some (.arr eK.Elements)) ∧
              (¬ (eK ∈ es ∧ g = eK.GK ∧ i = eK.SK) → lookupKey fs1 K = lookupKey fs K)) ∧
          ((∀ fs, getSlot t g i ≠ some (.obj fs)) → getSlot t1 g i = getSlot t g i) := by
  intro es
  induction es with
  | nil =>
    intro t _ _
    refine ⟨t, rfl, ?_⟩
    intro g i
    refine ⟨?_, fun _ => rfl⟩
    intro fs hfs
    exact ⟨fs, hfs, by simp, fun _ => rfl⟩
  | cons e es ih =>
    intro t hslots huniq
    have hslots' := fun e1 (h1 : e1 ∈ es) => hslots e1 (List.mem_cons_of_mem _ h1)
    have huniq' := fun e1 (h1 : e1 ∈ es) => huniq e1 (List.mem_cons_of_mem _ h1)
    rcases hslots e (List.mem_cons_self _ _) with hnull | ⟨fs0, hobj⟩
    · -- the slot of `e` is null: nothing is written
      have hwb : writeBack t e = some t := by simp [writeBack, hnull]
      obtain ⟨t1, ht1, hprop⟩ := ih t hslots' huniq'
      refine ⟨t1, (foldlM_cons_some _ _ _ _ _).mpr ⟨t, hwb, ht1⟩, ?_⟩
      intro g i
      obtain ⟨hp1, hp2⟩ := hprop g i
      refine ⟨?_, hp2⟩
      intro fs hfs
      obtain ⟨fs1, h1, h2, h3⟩ := hp1 fs hfs
      refine ⟨fs1, h1, ?_, ?_⟩
      · intro hmem hg hi
        rcases List.mem_cons.mp hmem with h4 | h4
        · exfalso
          rw [hg, hi, h4, hnull] at hfs
          cases hfs
        · exact h2 h4 hg hi
      · intro hn
        apply h3
        rintro ⟨h4, h5⟩
        exact hn ⟨List.mem_cons_of_mem _ h4, h5⟩
    · -- the slot of `e` is a mapping: the field `e.EK` is set
      have hsome : (getSlot t e.GK e.SK).isSome = true := by rw [hobj]; rfl
      obtain ⟨t0, ht0⟩ := setSlot_isSome t e.GK e.SK
        (.obj (setField fs0 e.EK (.arr e.Elements))) hsome
      have hwb : writeBack t e = some t0 := by simp [writeBack, hobj, ht0]
      have hget := getSlot_setSlot t e.GK e.SK _ t0 ht0
      have hslots0 : ∀ e1 ∈ es, getSlot t0 e1.GK e1.SK = some .null ∨
          ∃ fs, getSlot t0 e1.GK e1.SK = some (.obj fs) := by
        intro e1 h1
        rw [hget]
        split
        · exact Or.inr ⟨_, rfl⟩
        · exact hslots' e1 h1
      obtain ⟨t1, ht1, hprop⟩ := ih t0 hslots0 huniq'
      refine ⟨t1, (foldlM_cons_some _ _ _ _ _).mpr ⟨t0, hwb, ht1⟩, ?_⟩
      intro g i
      obtain ⟨hp1, hp2⟩ := hprop g i
      by_cases hpos : g = e.GK ∧ i = e.SK
      · -- the slot written by `e`
        have hg0 : getSlot t0 g i = some (.obj (setField fs0 e.EK (.arr e.Elements))) := by
          rw [hget, if_pos hpos]
        constructor
        · intro fs hfs
          have hfs0 : fs = fs0 := by
            rw [hpos.1, hpos.2, hobj] at hfs
            cases hfs
            rfl
          subst hfs0
          obtain ⟨fs1, h1, h2, h3⟩ := hp1 _ hg0
          refine ⟨fs1, h1, ?_, ?_⟩
          · intro hmem hg hi
            by_cases hin : eK ∈ es
            · exact h2 hin hg hi
            · rcases List.mem_cons.mp hmem with h4 | h4
              · rw [h3 (fun hc => hin hc.1), ← h4, ← hK]
                exact lookupKey_setField_same _ _ _
              · exact absurd h4 hin
          · intro hn
            rw [h3 (fun hc => hn ⟨List.mem_cons_of_mem _ hc.1, hc.2⟩)]
            apply lookupKey_setField_ne
            intro hek
            apply hn
            have := huniq e (List.mem_cons_self _ _) hek
            rw [← this]
            exact ⟨List.mem_cons_self _ _, hpos⟩
        · intro hno
          exfalso
          apply hno fs0
          rw [hpos.1, hpos.2]
          exact hobj
      · -- another slot
        have hg0 : getSlot t0 g i = getSlot t g i := by rw [hget, if_neg hpos]
        constructor
        · intro fs hfs
          obtain ⟨fs1, h1, h2, h3⟩ := hp1 fs (by rw [hg0]; exact hfs)
          refine ⟨fs1, h1, ?_, ?_⟩
          · intro hmem hg hi
            rcases List.mem_cons.mp hmem with h4 | h4
            · exfalso
              apply hpos
              rw [← h4]
              exact ⟨hg, hi⟩
            · exact h2 h4 hg hi
          · intro hn
            apply h3
            rintro ⟨h4, h5⟩
            exact hn ⟨List.mem_cons_of_mem _ h4, h5⟩
        · intro hno
          rw [hp2 (by rw [hg0]; exact hno), hg0]

/-! ## The scan around the first occurrence of a key -/

theorem foldlM_append_some {α β : Type} (f : β → α → Option β) (a b : List α) (st st1 : β) :
    (a ++ b).foldlM f st = some st1 ↔
      ∃ s, a.foldlM f st = some s ∧ b.foldlM f s = some st1 := by
  induction a generalizing st with
  | nil => simp
  | cons x a ih =>
    rw [List.cons_append, foldlM_cons_some]
    constructor
    · rintro ⟨s, hs, h⟩
      obtain ⟨s2, h1, h2⟩ := (ih s).mp h
      exact ⟨s2, (foldlM_cons_some _ _ _ _ _).mpr ⟨s, hs, h1⟩, h2⟩
    · rintro ⟨s2, h1, h2⟩
      obtain ⟨s, hs, h3⟩ := (foldlM_cons_some _ _ _ _ _).mp h1
      exact ⟨s, hs, (ih s).mpr ⟨s2, h3, h2⟩⟩

theorem scan_no_arr :
    ∀ (vs : List Visit) (st st1 : NormState), vs.foldlM visitStep st = some st1 →
      (∀ x ∈ vs, x.2.2.2.isArr = false) → st1 = st := by
  intro vs
  induction vs with
  | nil => intro st st1 h _; cases h; rfl
  | cons x vs ih =>
    intro st st1 h hx
    obtain ⟨s, hs, hrest⟩ := (foldlM_cons_some _ _ _ _ _).mp h
    have h0 := hx x (List.mem_cons_self _ _)
    have hs2 : s = st := by
      rcases visitStep_cases st x s hs with h1 | h1 | h1
      · exact h1.2
      · rw [h0] at h1; cases h1.1
      · rw [h0] at h1; cases h1.1
    rw [ih s st1 hrest (fun y hy => hx y (List.mem_cons_of_mem _ hy)), hs2]

theorem scan_first (K g : String) (i : Nat) (v : Json) :
    ∀ (vs : List Visit) (st st1 : NormState), vs.foldlM visitStep st = some st1 →
      entriesFor K st.uniqKeys = [] →
      occurrences K vs = [(g, i, v)] →
      (∀ x ∈ vs, x.2.2.2.isArr = true → x.2.2.1 = K) →
      entriesFor K st1.uniqKeys = [⟨g, i, K, [v]⟩] ∧ st1.m = st.m := by
  intro vs
  induction vs with
  | nil => intro st st1 _ _ ho _; simp [occurrences] at ho
  | cons x vs ih =>
    intro st st1 h he ho hk
    obtain ⟨s, hs, hrest⟩ := (foldlM_cons_some _ _ _ _ _).mp h
    have hk' := fun y (hy : y ∈ vs) => hk y (List.mem_cons_of_mem _ hy)
    rw [occurrences_cons] at ho
    by_cases hx : x.2.2.1 = K ∧ x.2.2.2.isArr = true
    · rw [if_pos hx] at ho
      simp only [List.cons.injEq, Prod.mk.injEq] at ho
      obtain ⟨⟨hg, hi, hv⟩, hnil⟩ := ho
      have hnoarr : ∀ y ∈ vs, y.2.2.2.isArr = false := by
        intro y hy
        cases hya : y.2.2.2.isArr with
        | false => rfl
        | true =>
          exfalso
          have : (y.1, y.2.1, y.2.2.2) ∈ occurrences K vs := by
            rw [mem_occurrences]
            refine ⟨?_, hya⟩
            have := hk' y hy hya
            rw [← this]
            exact hy
          rw [hnil] at this
          simp at this
      have hst1 := scan_no_arr vs s st1 hrest hnoarr
      have hc : Contains st.uniqKeys x.2.2.1 = false := by
        rw [hx.1, contains_eq_false_iff]; exact he
      rcases visitStep_cases st x s hs with h1 | h1 | h1
      · rw [hx.2] at h1; cases h1.1
      · rw [hst1, h1.2.2]
        refine ⟨?_, rfl⟩
        simp only [entriesFor_append, he, List.nil_append]
        simp [entriesFor, hx.1, hg, hi, hv]
      · rw [hc] at h1; cases h1.2.1
    · rw [if_neg hx] at ho
      have hna : x.2.2.2.isArr = false := by
        cases hxa : x.2.2.2.isArr with
        | false => rfl
        | true => exact absurd ⟨hk x (List.mem_cons_self _ _) hxa, hxa⟩ hx
      have hs2 : s = st := by
        rcases visitStep_cases st x s hs with h1 | h1 | h1
        · exact h1.2
        · rw [hna] at h1; cases h1.1
        · rw [hna] at h1; cases h1.1
      rw [hs2] at hrest
      exact ih st st1 hrest he ho hk'

/-- The normalized tree around a key `K` whose first occurrence is in a slot
that has no other sequence-valued field. -/
theorem normalizeTree_core (m : Tree) (K g0 : String) (i0 : Nat)
    (fs0 : List (String × Json)) (v0 : Json) (rest : List (String × Nat × Json))
    (hkeys : (m.map Prod.fst).Nodup)
    (hslot : getSlot m g0 i0 = some (.obj fs0))
    (honly : ∀ k v, (k, v) ∈ fs0 → v.isArr = true → k = K)
    (hseg : occurrences K (slotVisits g0 (i0, .obj fs0)) = [(g0, i0, v0)])
    (hocc : occurrences K (fieldVisits m) = (g0, i0, v0) :: rest) :
    ∃ m1, normalizeTree m = some m1 ∧
      (∃ fs, getSlot m1 g0 i0 = some (.obj fs) ∧
        lookupKey fs K = some (.arr (v0 :: rest.map (fun o => o.2.2)))) ∧
      (∀ g i fs1, getSlot m1 g i = some (.obj fs1) → ¬ (g = g0 ∧ i = i0) →
        ∃ fs, getSlot m g i = some (.obj fs) ∧ lookupKey fs1 K = lookupKey fs K ∧
          ∀ o ∈ rest, ¬ (o.1 = g ∧ o.2.1 = i)) := by
  obtain ⟨A, B, hAB, hpos⟩ := fieldVisits_split m hkeys g0 i0 (.obj fs0) hslot
  have hposA : ∀ y ∈ A, ¬ (y.1 = g0 ∧ y.2.1 = i0) :=
    fun y hy => hpos y (List.mem_append_left _ hy)
  have hposB : ∀ y ∈ B, ¬ (y.1 = g0 ∧ y.2.1 = i0) :=
    fun y hy => hpos y (List.mem_append_right _ hy)
  -- the occurrences before, in and after the slot
  have hocc2 := hocc
  rw [hAB, occurrences_append, occurrences_append, hseg] at hocc2
  have hoccA : occurrences K A = [] := by
    cases hA : occurrences K A with
    | nil => rfl
    | cons o os =>
      exfalso
      rw [hA] at hocc2
      simp only [List.cons_append, List.cons.injEq] at hocc2
      have hmem : o ∈ occurrences K A := by rw [hA]; exact List.mem_cons_self _ _
      rw [mem_occurrences] at hmem
      apply hposA _ hmem.1
      rw [hocc2.1]
      exact ⟨rfl, rfl⟩
  rw [hoccA] at hocc2
  have hrest : rest = occurrences K B := by
    simp only [List.nil_append, List.cons_append, List.cons.injEq, true_and] at hocc2
    exact hocc2.symm
  -- the scan
  have hvalid : ∀ x ∈ fieldVisits m, ∃ fs, getSlot m x.1 x.2.1 = some (.obj fs) := by
    intro x hx
    obtain ⟨fs, h1, _⟩ := mem_fieldVisits_slot m hkeys x hx
    exact ⟨fs, h1⟩
  obtain ⟨st3, hscan, hev, hent⟩ :=
    scan_total m (fieldVisits m) ⟨m, []⟩ hvalid (evolves_refl m) (by simp)
  have hscan2 := hscan
  rw [hAB] at hscan2
  obtain ⟨st2, hscanAS, hscanB⟩ := (foldlM_append_some _ _ _ _ _).mp hscan2
  obtain ⟨st1, hscanA, hscanS⟩ := (foldlM_append_some _ _ _ _ _).mp hscanAS
  have hE1 : entriesFor K st1.uniqKeys = [] := by
    rw [scan_entries_frame K A _ st1 hscanA hoccA]; rfl
  have hS1 : getSlot st1.m g0 i0 = getSlot m g0 i0 :=
    scan_slot_frame g0 i0 A _ st1 hscanA
      (fun x hx h1 h2 => absurd ⟨h1, h2⟩ (hposA x hx))
  have hsegK : ∀ x ∈ slotVisits g0 (i0, .obj fs0), x.2.2.2.isArr = true → x.2.2.1 = K := by
    intro x hx ha
    obtain ⟨_, _, fs, h3, h4⟩ := mem_slotVisits g0 _ x hx
    simp only [Json.obj.injEq] at h3
    rw [← h3] at h4
    exact honly _ _ h4 ha
  obtain ⟨hE2, hM2⟩ := scan_first K g0 i0 v0 _ st1 st2 hscanS hE1 hseg hsegK
  obtain ⟨hE3, hN3⟩ := scan_entries_grow K B st2 st3 _ hscanB hE2
  have hS3 : getSlot st3.m g0 i0 = getSlot m g0 i0 := by
    rw [scan_slot_frame g0 i0 B st2 st3 hscanB
      (fun x hx h1 h2 => absurd ⟨h1, h2⟩ (hposB x hx)), hM2, hS1]
  simp only at hE3
  -- the write-back
  have hpre : ∀ e ∈ st3.uniqKeys, getSlot st3.m e.GK e.SK = some .null ∨
      ∃ fs, getSlot st3.m e.GK e.SK = some (.obj fs) := by
    intro e he
    obtain ⟨fs, hfs⟩ := hent e he
    rcases hev e.GK e.SK with h1 | h1
    · exact Or.inr ⟨fs, by rw [h1, hfs]⟩
    · exact Or.inl h1.1
  have huniq : ∀ e ∈ st3.uniqKeys, e.EK = K →
      e = ⟨g0, i0, K, [v0] ++ (occurrences K B).map (fun o => o.2.2)⟩ := by
    intro e he hk
    have : e ∈ entriesFor K st3.uniqKeys := by
      simp only [entriesFor, List.mem_filter, decide_eq_true_eq]
      exact ⟨he, hk⟩
    rw [hE3] at this
    simpa using this
  have hmemK : (⟨g0, i0, K, [v0] ++ (occurrences K B).map (fun o => o.2.2)⟩ : Element) ∈
      st3.uniqKeys := by
    have : (⟨g0, i0, K, [v0] ++ (occurrences K B).map (fun o => o.2.2)⟩ : Element) ∈
        entriesFor K st3.uniqKeys := by rw [hE3]; exact List.mem_singleton.mpr rfl
    simp only [entriesFor, List.mem_filter] at this
    exact this.1
  obtain ⟨t1, hwb, hprop⟩ := writeBack_all K _ rfl st3.uniqKeys st3.m hpre huniq
  refine ⟨t1, ?_, ?_, ?_⟩
  · unfold normalizeTree
    rw [checkElementByType_eq_scan, hscan]
    exact hwb
  · obtain ⟨fs1, h1, h2, _⟩ := (hprop g0 i0).1 fs0 (by rw [hS3, hslot])
    refine ⟨fs1, h1, ?_⟩
    rw [h2 hmemK rfl rfl, hrest]
    rfl
  · intro g i fs1 hg1 hnp
    by_cases hex : ∃ fs, getSlot st3.m g i = some (.obj fs)
    · obtain ⟨fs, hfs⟩ := hex
      obtain ⟨fs2, h1, _, h3⟩ := (hprop g i).1 fs hfs
      have hfs2 : fs2 = fs1 := by
        rw [h1] at hg1
        cases hg1
        rfl
      subst hfs2
      refine ⟨fs, ?_, h3 (fun hc => hnp hc.2), ?_⟩
      · rcases hev g i with h4 | h4
        · rw [← h4]; exact hfs
        · rw [h4.1] at hfs; cases hfs
      · intro o ho hc
        rw [hrest] at ho
        have := hN3 o ho
        rw [hc.1, hc.2, hfs] at this
        cases this
    · exfalso
      have := (hprop g i).2 (fun fs hfs => hex ⟨fs, hfs⟩)
      rw [hg1] at this
      exact hex ⟨fs1, this.symm⟩

/-! ## Claims on the tree normalizer -/

/-- C1, as the code has it: when the slots that carry the field key `K` are
single-key mappings with a sequence under `K`, and there are `N ≥ 1` of them,
then after normalization exactly one mapping still carries `K`, the slot of the
first occurrence, and the value stored under `K` there is the sequence whose
elements are the `N` source sequences in encounter order. -/
theorem normalizeTree_merges (m : Tree) (K g0 : String) (i0 : Nat) (v0 : Json)
    (rest : List (String × Nat × Json))
    (hkeys : (m.map Prod.fst).Nodup)
    (hsingle : ∀ g i fs, getSlot m g i = some (.obj fs) → (lookupKey fs K).isSome = true →
      ∃ s, fs = [(K, .arr s)])
    (hocc : occurrences K (fieldVisits m) = (g0, i0, v0) :: rest) :
    ∃ m1, normalizeTree m = some m1 ∧
      (∃ fs, getSlot m1 g0 i0 = some (.obj fs) ∧
        lookupKey fs K = some (.arr (v0 :: rest.map (fun o => o.2.2)))) ∧
      (∀ g i fs, getSlot m1 g i = some (.obj fs) → (lookupKey fs K).isSome = true →
        g = g0 ∧ i = i0) := by
  have hhead : (g0, i0, v0) ∈ occurrences K (fieldVisits m) := by
    rw [hocc]; exact List.mem_cons_self _ _
  rw [mem_occurrences] at hhead
  obtain ⟨fs0, hslot, hmem⟩ := mem_fieldVisits_slot m hkeys _ hhead.1
  simp only at hslot hmem
  obtain ⟨s, hs⟩ := hsingle g0 i0 fs0 hslot (lookupKey_isSome_of_mem fs0 K v0 hmem)
  subst hs
  have hv0 : v0 = .arr s := by simpa using hmem
  subst hv0
  have honly : ∀ k v, (k, v) ∈ [(K, Json.arr s)] → v.isArr = true → k = K := by
    intro k v hkv _
    simp only [List.mem_singleton, Prod.mk.injEq] at hkv
    exact hkv.1
  have hseg : occurrences K (slotVisits g0 (i0, .obj [(K, Json.arr s)])) =
      [(g0, i0, Json.arr s)] := by
    simp [slotVisits, occurrences, Json.isArr]
  obtain ⟨m1, h1, h2, h3⟩ :=
    normalizeTree_core m K g0 i0 _ _ rest hkeys hslot honly hseg hocc
  refine ⟨m1, h1, h2, ?_⟩
  intro g i fs1 hg1 hK
  by_contra hnp
  obtain ⟨fs, hm, heq, hnot⟩ := h3 g i fs1 hg1 hnp
  rw [heq] at hK
  obtain ⟨s1, hs1⟩ := hsingle g i fs hm hK
  subst hs1
  have hvis := slot_mem_fieldVisits m hkeys g i _ hm K (.arr s1) (List.mem_singleton.mpr rfl)
  have hoc : (g, i, Json.arr s1) ∈ occurrences K (fieldVisits m) := by
    rw [mem_occurrences]; exact ⟨hvis, rfl⟩
  rw [hocc] at hoc
  rcases List.mem_cons.mp hoc with h4 | h4
  · simp only [Prod.mk.injEq] at h4
    exact hnp ⟨h4.1, h4.2.1⟩
  · exact hnot _ h4 ⟨rfl, rfl⟩

/-- Witness of C1: one group with two slots that share the key `K`. -/
theorem normalizeTree_merges_witness :
    (twoSlots.map Prod.fst).Nodup ∧
    (∀ g i fs, getSlot twoSlots g i = some (.obj fs) → (lookupKey fs "K").isSome = true →
      ∃ s, fs = [("K", .arr s)]) ∧
    occurrences "K" (fieldVisits twoSlots) =
      ("r", 0, .arr [.num 1, .num 2]) :: [("r", 1, .arr [.num 3])] ∧
    ∃ m1, normalizeTree twoSlots = some m1 ∧
      (∃ fs, getSlot m1 "r" 0 = some (.obj fs) ∧
        lookupKey fs "K" = some (.arr (Json.arr [.num 1, .num 2] ::
          [(("r", 1, .arr [.num 3]) : String × Nat × Json)].map (fun o => o.2.2)))) ∧
      (∀ g i fs, getSlot m1 g i = some (.obj fs) → (lookupKey fs "K").isSome = true →
        g = "r" ∧ i = 0) := by
  have hsingle : ∀ g i fs, getSlot twoSlots g i = some (.obj fs) →
      (lookupKey fs "K").isSome = true → ∃ s, fs = [("K", .arr s)] := by
    intro g i fs h _
    rw [twoSlots, getSlot_cons] at h
    split at h
    · match i with
      | 0 => simp at h; exact ⟨_, h.symm⟩
      | 1 => simp at h; exact ⟨_, h.symm⟩
      | n + 2 => simp at h
    · simp [getSlot, lookupKey] at h
  exact ⟨by decide, hsingle, rfl,
    normalizeTree_merges twoSlots "K" "r" 0 _ _ (by decide) hsingle rfl⟩

/-- Counterexample to C1 as stated: for the two source sequences `[1, 2]` and
`[3]` the value stored under `K` is `[[1, 2], [3]]`, not their concatenation
`[1, 2, 3]`. -/
theorem normalizeTree_merges_counterexample :
    (normalizeTree twoSlots).bind (fun m1 => getSlot m1 "r" 0) =
      some (.obj [("K", .arr [.arr [.num 1, .num 2], .arr [.num 3]])]) ∧
    lookupKey [("K", Json.arr [.arr [.num 1, .num 2], .arr [.num 3]])] "K" ≠
      some (.arr [.num 1, .num 2, .num 3]) := by
  constructor
  · rfl
  · simp [lookupKey]

/-- C2, as the code has it: when the candidate key `K` occurs exactly once, in
a slot that has no other sequence-valued field, normalization does not null
that slot and the value stored under `K` there is the one-element sequence that
holds the original sequence. -/
theorem normalizeTree_single (m : Tree) (K g0 : String) (i0 : Nat)
    (fs0 : List (String × Json)) (v0 : Json)
    (hkeys : (m.map Prod.fst).Nodup)
    (hslot : getSlot m g0 i0 = some (.obj fs0))
    (honly : ∀ k v, (k, v) ∈ fs0 → v.isArr = true → k = K)
    (hocc : occurrences K (fieldVisits m) = [(g0, i0, v0)]) :
    ∃ m1, normalizeTree m = some m1 ∧
      ∃ fs, getSlot m1 g0 i0 = some (.obj fs) ∧ lookupKey fs K = some (.arr [v0]) := by
  obtain ⟨A, B, hAB, hpos⟩ := fieldVisits_split m hkeys g0 i0 (.obj fs0) hslot
  have hocc2 := hocc
  rw [hAB, occurrences_append, occurrences_append] at hocc2
  have hnone : ∀ C : List Visit, (∀ y ∈ C, ¬ (y.1 = g0 ∧ y.2.1 = i0)) →
      (∀ o ∈ occurrences K C, o = (g0, i0, v0)) → occurrences K C = [] := by
    intro C hC hall
    rw [List.eq_nil_iff_forall_not_mem]
    intro o ho
    have h1 := hall o ho
    rw [mem_occurrences] at ho
    apply hC _ ho.1
    rw [h1]
    exact ⟨rfl, rfl⟩
  have hA : occurrences K A = [] := by
    apply hnone A (fun y hy => hpos y (List.mem_append_left _ hy))
    intro o ho
    have : o ∈ occurrences K A ++ occurrences K (slotVisits g0 (i0, .obj fs0)) ++
        occurrences K B := by simp [ho]
    rw [hocc2] at this
    simpa using this
  have hB : occurrences K B = [] := by
    apply hnone B (fun y hy => hpos y (List.mem_append_right _ hy))
    intro o ho
    have : o ∈ occurrences K A ++ occurrences K (slotVisits g0 (i0, .obj fs0)) ++
        occurrences K B := by simp [ho]
    rw [hocc2] at this
    simpa using this
  rw [hA, hB] at hocc2
  simp only [List.nil_append, List.append_nil] at hocc2
  obtain ⟨m1, h1, h2, _⟩ :=
    normalizeTree_core m K g0 i0 fs0 v0 [] hkeys hslot honly hocc2 hocc
  exact ⟨m1, h1, h2⟩

/-- Witness of C2: one group whose only slot has the key `K`. -/
theorem normalizeTree_single_witness :
    (oneSlot.map Prod.fst).Nodup ∧
    getSlot oneSlot "r" 0 = some (.obj [("K", .arr [.num 1])]) ∧
    (∀ k v, (k, v) ∈ [("K", Json.arr [.num 1])] → v.isArr = true → k = "K") ∧
    occurrences "K" (fieldVisits oneSlot) = [("r", 0, .arr [.num 1])] ∧
    ∃ m1, normalizeTree oneSlot = some m1 ∧
      ∃ fs, getSlot m1 "r" 0 = some (.obj fs) ∧
        lookupKey fs "K" = some (.arr [.arr [.num 1]]) := by
  have honly : ∀ k v, (k, v) ∈ [("K", Json.arr [.num 1])] → v.isArr = true → k = "K" := by
    intro k v hkv _
    simp only [List.mem_singleton, Prod.mk.injEq] at hkv
    exact hkv.1
  exact ⟨by decide, rfl, honly, rfl,
    normalizeTree_single oneSlot "K" "r" 0 _ _ (by decide) rfl honly rfl⟩

/-- Counterexample to C2 as stated.  In `oneSlot` the key `K` occurs once with
the sequence `[1]`, and the value stored under `K` afterwards is `[[1]]`.  In
`repeatedSibling` the key `K` occurs once, in the slot `r[1]`, and that slot is
null afterwards. -/
theorem normalizeTree_single_counterexample :
    occurrences "K" (fieldVisits oneSlot) = [("r", 0, .arr [.num 1])] ∧
    (normalizeTree oneSlot).bind (fun m1 => getSlot m1 "r" 0) =
      some (.obj [("K", .arr [.arr [.num 1]])]) ∧
    lookupKey [("K", Json.arr [.arr [.num 1]])] "K" ≠ some (.arr [.num 1]) ∧
    occurrences "K" (fieldVisits repeatedSibling) = [("r", 1, .arr [.num 2])] ∧
    (normalizeTree repeatedSibling).bind (fun m1 => getSlot m1 "r" 1) = some .null := by
  refine ⟨rfl, rfl, ?_, rfl, rfl⟩
  simp [lookupKey]

/-! ## Occurrences of a pattern in a text -/

theorem containsText_iff (sub s : Text) : containsText sub s = true ↔ sub <:+: s := by
  induction s with
  | nil =>
    simp only [containsText, List.isPrefixOf_iff_prefix, List.prefix_nil, List.infix_nil]
  | cons c rest ih =>
    simp only [containsText, Bool.or_eq_true, List.isPrefixOf_iff_prefix, ih, List.infix_cons_iff]

theorem replaceFirst_of_not_infix (old new : Text) :
    ∀ s : Text, ¬ old <:+: s → replaceFirst old new s = s := by
  intro s
  induction s with
  | nil => intro _; rfl
  | cons c rest ih =>
    intro h
    rw [List.infix_cons_iff] at h
    push_neg at h
    have h1 : old.isPrefixOf (c :: rest) = false := by
      rw [Bool.eq_false_iff]
      intro hp
      exact h.1 (List.isPrefixOf_iff_prefix.mp hp)
    simp only [replaceFirst, h1, Bool.false_eq_true, if_false, ih h.2]

/-- An occurrence of `pat` that starts inside a non-empty `b`, in front of
another occurrence, lies within `b` followed by all but the last character of
`pat`. -/
theorem prefix_before_occurrence (pat b post : Text) (hb : b ≠ [])
    (h : pat <+: b ++ pat ++ post) : pat <+: b ++ pat.dropLast := by
  rcases List.eq_nil_or_concat pat with hp | ⟨p, x, hp⟩
  · subst hp; exact List.nil_prefix
  · rw [List.concat_eq_append] at hp
    subst hp
    have hlen : (p ++ [x]).length ≤ (b ++ p).length := by
      have : 0 < b.length := List.length_pos.mpr hb
      simp only [List.length_append, List.length_singleton]
      omega
    have e : b ++ (p ++ [x]) ++ post = (b ++ p) ++ (x :: post) := by simp
    rw [e] at h
    have h2 := List.prefix_of_prefix_length_le h (List.prefix_append _ _) hlen
    simpa using h2

theorem replaceFirst_first (pat new : Text) (hpat : pat ≠ []) :
    ∀ pre post : Text, ¬ pat <:+: pre ++ pat.dropLast →
      replaceFirst pat new (pre ++ pat ++ post) = pre ++ new ++ post := by
  intro pre
  induction pre with
  | nil =>
    intro post _
    obtain ⟨c, rest, hc⟩ := List.exists_cons_of_ne_nil hpat
    have hp : pat.isPrefixOf (pat ++ post) = true :=
      List.isPrefixOf_iff_prefix.mpr (List.prefix_append _ _)
    simp only [List.nil_append]
    rw [hc] at hp ⊢
    simp only [List.cons_append] at hp ⊢
    simp only [replaceFirst, hp, if_true]
    have : (c :: (rest ++ post)).drop (c :: rest).length = post := by
      rw [← List.cons_append]; exact List.drop_left' rfl
    rw [this]
  | cons a pre ih =>
    intro post h
    have h1 : pat.isPrefixOf (a :: pre ++ pat ++ post) = false := by
      rw [Bool.eq_false_iff]
      intro hp
      have hp2 := prefix_before_occurrence pat (a :: pre) post (by simp)
        (List.isPrefixOf_iff_prefix.mp hp)
      exact h hp2.isInfix
    have h2 : ¬ pat <:+: pre ++ pat.dropLast := by
      intro hi
      apply h
      rw [List.cons_append, List.infix_cons_iff]
      exact Or.inr hi
    have e : a :: pre ++ pat ++ post = a :: (pre ++ pat ++ post) := by simp
    rw [e]
    simp only [replaceFirst]
    rw [← e, h1]
    simp only [Bool.false_eq_true, if_false, ih post h2, List.cons_append]

theorem exists_first_occurrence (pat : Text) (hpat : pat ≠ []) :
    ∀ s : Text, pat <:+: s →
      ∃ pre post, s = pre ++ pat ++ post ∧ ¬ pat <:+: pre ++ pat.dropLast := by
  intro s
  induction s with
  | nil =>
    intro h
    exact absurd (List.infix_nil.mp h) hpat
  | cons c rest ih =>
    intro h
    by_cases hp : pat <+: c :: rest
    · obtain ⟨post, hpost⟩ := hp
      refine ⟨[], post, by simpa using hpost.symm, ?_⟩
      intro hi
      have h1 := hi.length_le
      rcases List.eq_nil_or_concat pat with hn | ⟨p, x, hx⟩
      · exact hpat hn
      · rw [List.concat_eq_append] at hx
        subst hx; simp at h1
    · rw [List.infix_cons_iff] at h
      rcases h with h | h
      · exact absurd h hp
      · obtain ⟨pre, post, hs, hf⟩ := ih h
        refine ⟨c :: pre, post, by simp [hs], ?_⟩
        intro hi
        rw [List.cons_append, List.infix_cons_iff] at hi
        rcases hi with hi | hi
        · apply hp
          have : c :: (pre ++ pat.dropLast) <+: c :: rest := by
            rw [List.prefix_cons_inj, hs]
            rw [List.append_assoc]
            exact (List.prefix_append_right_inj pre).mpr
              ((List.dropLast_prefix pat).trans (List.prefix_append _ _))
          exact hi.trans this
        · exact hf hi

/-! ## The blank-line pattern and the splice into an existing document -/

theorem findAllBlankLinesAux_mem (s : Text) :
    ∀ skip, ∀ x ∈ findAllBlankLinesAux skip s, x = blankLine := by
  induction s with
  | nil => intro skip x hx; simp [findAllBlankLinesAux] at hx
  | cons c rest ih =>
    intro skip x hx
    cases skip with
    | succ k => exact ih k x (by simpa [findAllBlankLinesAux] using hx)
    | zero =>
      simp only [findAllBlankLinesAux] at hx
      split at hx
      · rcases List.mem_cons.mp hx with h | h
        · exact h
        · exact ih 1 x h
      · exact ih 0 x hx

theorem findAllBlankLines_eq_nil_iff (s : Text) :
    findAllBlankLines s = [] ↔ ¬ blankLine <:+: s := by
  unfold findAllBlankLines
  induction s with
  | nil => simp [findAllBlankLinesAux, blankLine]
  | cons c rest ih =>
    simp only [findAllBlankLinesAux]
    by_cases hp : blankLine.isPrefixOf (c :: rest) = true
    · simp only [hp, if_true]
      constructor
      · intro h; cases h
      · intro h
        exact absurd (List.isPrefixOf_iff_prefix.mp hp).isInfix h
    · simp only [hp, Bool.false_eq_true, if_false, ih, List.infix_cons_iff, not_or]
      constructor
      · intro h
        exact ⟨fun hq => hp (List.isPrefixOf_iff_prefix.mpr hq), h⟩
      · intro h; exact h.2

theorem foldl_last_wins {α β : Type} (g : β → α) :
    ∀ (l : List β) (b : β) (init : α), (∀ x ∈ l, x = b) → l ≠ [] →
      l.foldl (fun _ x => g x) init = g b := by
  intro l
  induction l with
  | nil => intro b init _ h; exact absurd rfl h
  | cons x rest ih =>
    intro b init hall _
    have hx : x = b := hall x (List.mem_cons_self _ _)
    by_cases hr : rest = []
    · subst hr; simp [hx]
    · simp only [List.foldl_cons]
      exact ih b (g x) (fun y hy => hall y (List.mem_cons_of_mem _ hy)) hr

theorem spliceOld_eq (oldYml context : Text) :
    spliceOld oldYml context =
      if blankLine <:+: oldYml then replaceFirst blankLine ('\n' :: context ++ ['\n']) oldYml
      else oldYml ++ context := by
  unfold spliceOld
  by_cases h : blankLine <:+: oldYml
  · have hne : findAllBlankLines oldYml ≠ [] := by
      intro he
      exact (findAllBlankLines_eq_nil_iff oldYml).mp he h
    have := foldl_last_wins
      (fun mtch : Text => (replaceFirst mtch ('\n' :: context ++ ['\n']) oldYml, false))
      (findAllBlankLines oldYml) blankLine (([] : Text), true)
      (findAllBlankLinesAux_mem oldYml 0) hne
    simp only [this, h, if_true, Bool.false_eq_true, if_false]
  · have he := (findAllBlankLines_eq_nil_iff oldYml).mpr h
    simp [he, h]

/-! ## Path segments -/

theorem splitSlash_ne_nil (s : Text) : splitSlash s ≠ [] := by
  cases s with
  | nil => simp [splitSlash]
  | cons c rest =>
    simp only [splitSlash]
    split
    · simp
    · split <;> simp

theorem splitSlash_append_slash (a b : Text) :
    splitSlash (a ++ '/' :: b) = splitSlash a ++ splitSlash b := by
  induction a with
  | nil => simp [splitSlash]
  | cons x a ih =>
    simp only [List.cons_append, splitSlash]
    by_cases hx : x = '/'
    · simp [hx, ih]
    · obtain ⟨hd, tl, e⟩ := List.exists_cons_of_ne_nil (splitSlash_ne_nil a)
      simp only [hx, if_false]
      have ih2 : splitSlash (a.append ('/' :: b)) = splitSlash a ++ splitSlash b := ih
      rw [ih2, e]
      rfl

theorem splitSlash_of_no_slash (s : Text) (h : '/' ∉ s) : splitSlash s = [s] := by
  induction s with
  | nil => rfl
  | cons c rest ih =>
    have hc : c ≠ '/' := fun e => h (by simp [e])
    have hr : '/' ∉ rest := fun e => h (List.mem_cons_of_mem _ e)
    simp [splitSlash, hc, ih hr]

theorem splitSlash_source (pre seg : Text) (hseg : '/' ∉ seg)
    (hpre : pre = [] ∨ ∃ p, pre = p ++ ['/']) :
    ∃ front, splitSlash (pre ++ seg ++ ['/']) = front ++ [seg, []] := by
  rcases hpre with h | ⟨p, h⟩
  · subst h
    refine ⟨[], ?_⟩
    have := splitSlash_append_slash seg []
    simp only [List.nil_append] at this ⊢
    rw [this, splitSlash_of_no_slash seg hseg]
    rfl
  · subst h
    refine ⟨splitSlash p, ?_⟩
    have e : p ++ ['/'] ++ seg ++ ['/'] = p ++ '/' :: (seg ++ '/' :: []) := by simp
    rw [e, splitSlash_append_slash, splitSlash_append_slash, splitSlash_of_no_slash seg hseg]
    rfl

theorem deleteFile_none (fs : Files) (q p : Text) (h : fs p = none) : DeleteFile fs q p = none := by
  unfold DeleteFile
  split <;> simp [h]

/-! ## Claims on the template composer -/

/-- C4: `PrepareNewYmlFromOld` with an existing document `old`, a block `c` and
no defaults file returns `old` with its first blank-line boundary replaced by
newline, `c`, newline, however many boundaries follow; without a boundary it
returns `old` followed by `c`. -/
theorem prepareNewYmlFromOld_existing (ext : Collaborators) (fs : Files)
    (source old c : Text)
    (hd : fs (source ++ defaultTfvars) = none)
    (ho : fs (source ++ terrahubYml) = some old) :
    ∃ doc, PrepareNewYmlFromOld ext fs source c = some (doc, fs) ∧
      (¬ blankLine <:+: old → doc = old ++ c) ∧
      (blankLine <:+: old →
        ∃ pre post, old = pre ++ blankLine ++ post ∧ ¬ blankLine <:+: pre ++ ['\n']) ∧
      (∀ pre post, old = pre ++ blankLine ++ post → ¬ blankLine <:+: pre ++ ['\n'] →
        doc = pre ++ '\n' :: c ++ '\n' :: post) := by
  refine ⟨spliceOld old c, ?_, ?_, ?_, ?_⟩
  · simp [PrepareNewYmlFromOld, AddTfVars, hd, ho]
  · intro h; simp [spliceOld_eq, h]
  · intro h
    exact exists_first_occurrence blankLine (by simp [blankLine]) old h
  · intro pre post he hf
    have hi : blankLine <:+: old := by rw [he]; exact ⟨pre, post, rfl⟩
    rw [spliceOld_eq, if_pos hi, he,
      replaceFirst_first blankLine _ (by simp [blankLine]) pre post hf]
    simp

/-- Witness of C4: a document with two boundaries. -/
theorem prepareNewYmlFromOld_existing_witness :
    filesWithDoc sampleOld (sampleSource ++ defaultTfvars) = none ∧
    filesWithDoc sampleOld (sampleSource ++ terrahubYml) = some sampleOld ∧
    ∃ doc, PrepareNewYmlFromOld noCollaborators (filesWithDoc sampleOld) sampleSource
        sampleBlock = some (doc, filesWithDoc sampleOld) ∧
      (¬ blankLine <:+: sampleOld → doc = sampleOld ++ sampleBlock) ∧
      (blankLine <:+: sampleOld →
        ∃ pre post, sampleOld = pre ++ blankLine ++ post ∧ ¬ blankLine <:+: pre ++ ['\n']) ∧
      (∀ pre post, sampleOld = pre ++ blankLine ++ post → ¬ blankLine <:+: pre ++ ['\n'] →
        doc = pre ++ '\n' :: sampleBlock ++ '\n' :: post) :=
  ⟨by decide, by decide,
    prepareNewYmlFromOld_existing noCollaborators (filesWithDoc sampleOld) sampleSource
      sampleOld sampleBlock (by decide) (by decide)⟩

/-- C6: when no existing document can be read, `PrepareNewYmlFromOld` returns
the header line `## local config`, a `component:` section whose `name` is the
last segment of the source directory in single quotes, then the block as
`AddTfVars` returns it, which without a defaults file is the block unchanged. -/
theorem prepareNewYmlFromOld_scaffold (ext : Collaborators) (fs : Files)
    (pre seg block : Text)
    (hseg : '/' ∉ seg)
    (hpre : pre = [] ∨ ∃ p, pre = p ++ ['/'])
    (ho : fs (pre ++ seg ++ ['/'] ++ terrahubYml) = none) :
    PrepareNewYmlFromOld ext fs (pre ++ seg ++ ['/']) block =
      (AddTfVars ext fs (pre ++ seg ++ ['/']) block).map
        (fun r => ("## local config\n".toList ++ "component:\n".toList ++
          "  name: '".toList ++ seg ++ "'\n".toList ++ r.1, r.2)) ∧
    (fs (pre ++ seg ++ ['/'] ++ defaultTfvars) = none →
      PrepareNewYmlFromOld ext fs (pre ++ seg ++ ['/']) block =
        some ("## local config\n".toList ++ "component:\n".toList ++
          "  name: '".toList ++ seg ++ "'\n".toList ++ block, fs)) := by
  obtain ⟨front, hsplit⟩ := splitSlash_source pre seg hseg hpre
  have hgen : PrepareNewYmlFromOld ext fs (pre ++ seg ++ ['/']) block =
      (AddTfVars ext fs (pre ++ seg ++ ['/']) block).map
        (fun r => ("## local config\n".toList ++ "component:\n".toList ++
          "  name: '".toList ++ seg ++ "'\n".toList ++ r.1, r.2)) := by
    unfold PrepareNewYmlFromOld
    cases hA : AddTfVars ext fs (pre ++ seg ++ ['/']) block with
    | none => rfl
    | some r =>
      obtain ⟨c1, fs1⟩ := r
      have hfs1 : fs1 (pre ++ seg ++ ['/'] ++ terrahubYml) = none := by
        unfold AddTfVars at hA
        split at hA
        · cases hA; exact ho
        · split at hA
          · cases hA
          · cases hA; exact deleteFile_none fs _ _ ho
      simp only [hfs1, hsplit, Option.map_some']
      have hlen : ¬ (front ++ [seg, []]).length < 2 := by simp
      have hget : (front ++ [seg, []]).get? ((front ++ [seg, []]).length - 2) = some seg := by
        have : (front ++ [seg, []]).length - 2 = front.length := by simp
        rw [this, List.get?_eq_getElem?, List.getElem?_append_right (Nat.le_refl _)]
        simp
      simp only [hlen, if_false, hget, scaffoldHeader]
  refine ⟨hgen, ?_⟩
  intro hd
  rw [hgen]
  unfold AddTfVars
  rw [hd]
  rfl

/-- Witness of C6: the directory `infra/vpc/` without any file. -/
theorem prepareNewYmlFromOld_scaffold_witness :
    '/' ∉ "vpc".toList ∧
    ("infra/".toList = [] ∨ ∃ p, "infra/".toList = p ++ ['/']) ∧
    noFiles ("infra/".toList ++ "vpc".toList ++ ['/'] ++ terrahubYml) = none ∧
    (PrepareNewYmlFromOld noCollaborators noFiles ("infra/".toList ++ "vpc".toList ++ ['/'])
        sampleBlock =
      (AddTfVars noCollaborators noFiles ("infra/".toList ++ "vpc".toList ++ ['/'])
        sampleBlock).map
        (fun r => ("## local config\n".toList ++ "component:\n".toList ++
          "  name: '".toList ++ "vpc".toList ++ "'\n".toList ++ r.1, r.2)) ∧
    (noFiles ("infra/".toList ++ "vpc".toList ++ ['/'] ++ defaultTfvars) = none →
      PrepareNewYmlFromOld noCollaborators noFiles
          ("infra/".toList ++ "vpc".toList ++ ['/']) sampleBlock =
        some ("## local config\n".toList ++ "component:\n".toList ++
          "  name: '".toList ++ "vpc".toList ++ "'\n".toList ++ sampleBlock, noFiles))) :=
  ⟨by decide, Or.inr ⟨"infra".toList, rfl⟩, rfl,
    prepareNewYmlFromOld_scaffold noCollaborators noFiles "infra/".toList "vpc".toList
      sampleBlock (by decide) (Or.inr ⟨"infra".toList, rfl⟩) rfl⟩

/-! ## The empty-object collapse -/

/-- An occurrence of a two-character pattern in `a ++ b` lies in `a`, lies in
`b`, or straddles the seam. -/
theorem pair_infix_append (x y : Char) (a b : Text) (h : [x, y] <:+: a ++ b) :
    [x, y] <:+: a ∨ [x, y] <:+: b ∨ (a.getLast? = some x ∧ b.head? = some y) := by
  induction a with
  | nil => exact Or.inr (Or.inl (by simpa using h))
  | cons c a ih =>
    rw [List.cons_append, List.infix_cons_iff] at h
    rcases h with h | h
    · cases a with
      | nil =>
        cases b with
        | nil =>
          have := h.length_le
          simp at this
        | cons d b =>
          obtain ⟨t, ht⟩ := h
          simp only [List.cons_append, List.nil_append, List.cons.injEq] at ht
          exact Or.inr (Or.inr ⟨by simp [ht.1], by simp [ht.2.1]⟩)
      | cons d a =>
        obtain ⟨t, ht⟩ := h
        simp only [List.cons_append, List.nil_append, List.cons.injEq] at ht
        refine Or.inl ⟨[], a, ?_⟩
        simp [ht.1, ht.2.1]
    · rcases ih h with h1 | h1 | h1
      · exact Or.inl (List.infix_cons_iff.mpr (Or.inr h1))
      · exact Or.inr (Or.inl h1)
      · refine Or.inr (Or.inr ⟨?_, h1.2⟩)
        cases a with
        | nil => simp at h1
        | cons d a => simpa [List.getLast?_cons_cons] using h1.1

theorem emptyObj_not_prefix (c : Char) (rest : Text) (h : ¬ emptyObj <:+: c :: rest) :
    emptyObj.isPrefixOf (c :: rest) = false := by
  rw [Bool.eq_false_iff]
  intro hp
  exact h (List.isPrefixOf_iff_prefix.mp hp).isInfix

theorem not_infix_tail (pat : Text) (c : Char) (rest : Text) (h : ¬ pat <:+: c :: rest) :
    ¬ pat <:+: rest :=
  fun hi => h (List.infix_cons_iff.mpr (Or.inr hi))

theorem dotsThenObj_none (t : Text) (h : ¬ emptyObj <:+: t) : dotsThenObj t = none := by
  induction t with
  | nil => rfl
  | cons c rest ih =>
    simp only [dotsThenObj, emptyObj_not_prefix c rest h, Bool.false_eq_true, if_false,
      ih (not_infix_tail _ c rest h), Option.map_none', ite_self]

theorem emptyObj_not_prefix_line (c : Char) (a r : Text) (h : ¬ emptyObj <:+: c :: a) :
    emptyObj.isPrefixOf (c :: a ++ '\n' :: r) = false := by
  rw [Bool.eq_false_iff]
  intro hp
  have hp2 := List.isPrefixOf_iff_prefix.mp hp
  cases a with
  | nil =>
    obtain ⟨t, ht⟩ := hp2
    simp [emptyObj] at ht
  | cons d a =>
    obtain ⟨t, ht⟩ := hp2
    simp only [emptyObj, List.cons_append, List.nil_append, List.cons.injEq] at ht
    obtain ⟨h1, h2, _⟩ := ht
    subst h1 h2
    exact h ⟨[], a, rfl⟩

theorem dotsThenObj_line_none (a r : Text) (h : ¬ emptyObj <:+: a) :
    dotsThenObj (a ++ '\n' :: r) = none := by
  induction a with
  | nil => simp [dotsThenObj, emptyObj]
  | cons c a ih =>
    have h1 := emptyObj_not_prefix_line c a r h
    simp only [List.cons_append] at h1 ⊢
    simp only [dotsThenObj, h1, Bool.false_eq_true, if_false,
      ih (not_infix_tail _ c a h), Option.map_none', ite_self]

theorem emptyObjAt_line_none (a r : Text) (h : ¬ emptyObj <:+: a) :
    emptyObjAt (a ++ '\n' :: r) = none := by
  cases a with
  | nil => simp [emptyObjAt]
  | cons c a =>
    have h1 := emptyObj_not_prefix_line c a r h
    simp only [List.cons_append] at h1 ⊢
    simp only [emptyObjAt, dotsThenObj_line_none a r (not_infix_tail _ c a h), h1,
      Bool.false_eq_true, if_false, ite_self]

theorem emptyObjAt_none (t : Text) (h : ¬ emptyObj <:+: t) : emptyObjAt t = none := by
  cases t with
  | nil => rfl
  | cons c rest =>
    simp only [emptyObjAt, dotsThenObj_none rest (not_infix_tail _ c rest h),
      emptyObj_not_prefix c rest h, Bool.false_eq_true, if_false, ite_self]

theorem findAllEmptyObjAux_none (t : Text) (h : ¬ emptyObj <:+: t) :
    findAllEmptyObjAux 0 t = [] := by
  induction t with
  | nil => rfl
  | cons c rest ih =>
    have hr := not_infix_tail _ c rest h
    simp only [findAllEmptyObjAux, emptyObjAt_none rest hr, ih hr, ite_self]

theorem findAllEmptyObjAux_zero_cons (c : Char) (rest : Text) :
    findAllEmptyObjAux 0 (c :: rest) =
      if c = '\n' then
        match emptyObjAt rest with
        | some j => ('\n' :: rest.take (j + 2)) :: findAllEmptyObjAux (j + 2) rest
        | none => findAllEmptyObjAux 0 rest
      else findAllEmptyObjAux 0 rest := rfl

theorem findAllEmptyObjAux_prefix (p r : Text) (h : ¬ emptyObj <:+: p) :
    findAllEmptyObjAux 0 (p ++ '\n' :: r) = findAllEmptyObjAux 0 ('\n' :: r) := by
  induction p with
  | nil => rfl
  | cons c p ih =>
    have hr := not_infix_tail _ c p h
    rw [List.cons_append, findAllEmptyObjAux_zero_cons c (p ++ '\n' :: r),
      emptyObjAt_line_none p r hr, ih hr]
    simp

theorem findAllEmptyObjAux_skip (a t : Text) :
    findAllEmptyObjAux a.length (a ++ t) = findAllEmptyObjAux 0 t := by
  induction a with
  | nil => rfl
  | cons c a ih => simpa [findAllEmptyObjAux] using ih

theorem dotsThenObj_lead (lead post : Text) (hlead : ∀ c ∈ lead, c = ' ' ∨ c = '-') :
    dotsThenObj (lead ++ emptyObj ++ post) = some lead.length := by
  induction lead with
  | nil => simp [dotsThenObj, emptyObj]
  | cons c lead ih =>
    have hc : c = ' ' ∨ c = '-' := hlead c (List.mem_cons_self _ _)
    have ih2 := ih (fun d hd => hlead d (List.mem_cons_of_mem _ hd))
    have hne : c ≠ '\n' := by rcases hc with h | h <;> simp [h]
    have hp : emptyObj.isPrefixOf (c :: (lead ++ emptyObj ++ post)) = false := by
      rcases hc with h | h <;> simp [h, emptyObj, List.isPrefixOf]
    simp only [List.cons_append, List.append_assoc] at hp ⊢
    simp only [List.append_assoc] at ih2
    simp [dotsThenObj, hp, hne, ih2]

/-- The only occurrence of `{}` in `u ++ {} ++ v`, when there is none that
starts earlier and none in `v`. -/
theorem emptyObj_occurrence_unique (u v u1 v1 : Text)
    (hu : ¬ emptyObj <:+: u ++ ['{']) (hv : ¬ emptyObj <:+: v)
    (h : u ++ emptyObj ++ v = u1 ++ emptyObj ++ v1) : u1 = u := by
  rw [List.append_assoc, List.append_assoc] at h
  rcases List.append_eq_append_iff.mp h with ⟨t, ht1, ht2⟩ | ⟨t, ht1, ht2⟩
  · -- u1 = u ++ t
    cases t with
    | nil => simpa using ht1
    | cons a t =>
      exfalso
      cases t with
      | nil =>
        simp [emptyObj] at ht2
      | cons b t =>
        simp only [emptyObj, List.cons_append, List.nil_append, List.cons.injEq] at ht2
        apply hv
        rw [ht2.2.2]
        exact ⟨t, v1, by simp [emptyObj]⟩
  · -- u = u1 ++ t
    cases t with
    | nil => simpa using ht1.symm
    | cons a t =>
      exfalso
      apply hu
      have hp : emptyObj <+: (a :: t) ++ emptyObj ++ v := ⟨v1, by simpa using ht2⟩
      have hq := prefix_before_occurrence emptyObj (a :: t) v (by simp) hp
      rw [ht1]
      have : emptyObj.dropLast = ['{'] := rfl
      rw [this] at hq
      rw [List.append_assoc]
      exact (hq.isInfix).trans (List.infix_append' u1 _ [])  |> fun x => by simpa using x

theorem emptyObjAt_lead (lead rest : Text) (hlead : ∀ c ∈ lead, c = ' ' ∨ c = '-')
    (hrest : dotsThenObj rest = none) :
    emptyObjAt (lead ++ emptyObj ++ rest) = some lead.length := by
  cases lead with
  | nil =>
    have h1 : dotsThenObj ('}' :: rest) = none := by
      simp [dotsThenObj, emptyObj, List.isPrefixOf, hrest]
    simp [emptyObjAt, emptyObj, h1, List.isPrefixOf]
  | cons c lead =>
    have hc : c = ' ' ∨ c = '-' := hlead c (List.mem_cons_self _ _)
    have hne : c ≠ '\n' := by rcases hc with h | h <;> simp [h]
    have h2 := dotsThenObj_lead lead rest (fun d hd => hlead d (List.mem_cons_of_mem _ hd))
    simp only [List.append_assoc] at h2
    simp [emptyObjAt, hne, h2]

theorem wellPlaced_no_token (p0 : Text) (ts : List (Text × Text)) (h : WellPlaced p0 ts) :
    ¬ emptyObj <:+: p0 := by
  cases ts with
  | nil => exact h
  | cons t ts => exact h.1

theorem wellPlaced_leads (ts : List (Text × Text)) :
    ∀ p0, WellPlaced p0 ts → ∀ t ∈ ts, ∀ c ∈ t.1, c = ' ' ∨ c = '-' := by
  induction ts with
  | nil => intro p0 _ t ht; simp at ht
  | cons t0 ts ih =>
    intro p0 h t ht
    rcases List.mem_cons.mp ht with h1 | h1
    · rw [h1]; exact h.2.2.1
    · exact ih t0.2 h.2.2.2 t h1

theorem dotsThenObj_composeDoc (p : Text) (ts : List (Text × Text)) (h : WellPlaced p ts) :
    dotsThenObj (composeDoc p ts) = none := by
  cases ts with
  | nil => exact dotsThenObj_none p h
  | cons t ts =>
    simp only [composeDoc, tokenMatch, List.append_assoc, List.cons_append]
    exact dotsThenObj_line_none p _ h.1

theorem findAllEmptyObj_composeDoc (ts : List (Text × Text)) :
    ∀ p0, WellPlaced p0 ts →
      findAllEmptyObjAux 0 (composeDoc p0 ts) = ts.map (fun t => tokenMatch t.1) := by
  induction ts with
  | nil => intro p0 h; exact findAllEmptyObjAux_none p0 h
  | cons t ts ih =>
    intro p0 h
    obtain ⟨lead, p⟩ := t
    obtain ⟨h1, _, h3, h4⟩ := h
    simp only at h3 h4
    have e : composeDoc p0 ((lead, p) :: ts) =
        p0 ++ '\n' :: ((lead ++ emptyObj) ++ composeDoc p ts) := by
      simp [composeDoc, tokenMatch]
    rw [e, findAllEmptyObjAux_prefix p0 _ h1, findAllEmptyObjAux_zero_cons,
      emptyObjAt_lead lead _ h3 (dotsThenObj_composeDoc p ts h4)]
    have hlen : lead.length + 2 = (lead ++ emptyObj).length := by simp [emptyObj]
    simp only [if_true]
    rw [hlen, findAllEmptyObjAux_skip, ih p h4, List.take_left' rfl]
    rfl

theorem tokenMatch_dropLast (lead : Text) : (tokenMatch lead).dropLast = '\n' :: lead ++ ['{'] := by
  have : tokenMatch lead = ('\n' :: lead ++ ['{']) ++ ['}'] := by simp [tokenMatch, emptyObj]
  rw [this, List.dropLast_concat]

theorem brace_not_in_lead (lead : Text) (hlead : ∀ c ∈ lead, c = ' ' ∨ c = '-') (x : Char)
    (hx : x = '{' ∨ x = '}') : x ∉ '\n' :: lead := by
  intro hm
  rcases List.mem_cons.mp hm with h4 | h4
  · rcases hx with h | h <;> simp [h] at h4
  · rcases hlead _ h4 with h5 | h5 <;> rcases hx with h | h <;> simp [h] at h5

/-- The token does not occur in a text free of it followed by the newline, the
markers and the opening brace of a line `lead{}`. -/
theorem emptyObj_not_before (p lead : Text) (hp : ¬ emptyObj <:+: p)
    (hlead : ∀ c ∈ lead, c = ' ' ∨ c = '-') : ¬ emptyObj <:+: p ++ ('\n' :: lead ++ ['{']) := by
  intro h1
  rcases pair_infix_append '{' '}' p ('\n' :: lead ++ ['{']) h1 with h2 | h2 | h2
  · exact hp h2
  · have e2 : '\n' :: lead ++ ['{'] = ('\n' :: lead) ++ ['{'] := rfl
    rw [e2] at h2
    rcases pair_infix_append '{' '}' ('\n' :: lead) ['{'] h2 with h3 | h3 | h3
    · obtain ⟨a, b, hab⟩ := h3
      have hm : '{' ∈ '\n' :: lead := by rw [← hab]; simp
      exact brace_not_in_lead lead hlead '{' (Or.inl rfl) hm
    · have := h3.length_le
      simp at this
    · simp at h3
  · simp at h2

theorem replaceFirst_tokenMatch (p lead rest : Text) (hp : ¬ emptyObj <:+: p)
    (hlead : ∀ c ∈ lead, c = ' ' ∨ c = '-') :
    replaceFirst (tokenMatch lead) spaceObj (p ++ tokenMatch lead ++ rest) =
      p ++ spaceObj ++ rest := by
  apply replaceFirst_first _ _ (by simp [tokenMatch])
  intro hi
  have hsub : emptyObj <:+: tokenMatch lead := ⟨'\n' :: lead, [], by simp [tokenMatch]⟩
  rw [tokenMatch_dropLast] at hi
  exact emptyObj_not_before p lead hp hlead (hsub.trans hi)

/-- A replacement passes over a front part in which the pattern cannot start. -/
theorem replaceFirst_skip (pat new : Text) :
    ∀ (r0 x : Text), (∀ a b, r0 = a ++ b → b ≠ [] → ¬ pat <+: b ++ x) →
      replaceFirst pat new (r0 ++ x) = r0 ++ replaceFirst pat new x := by
  intro r0
  induction r0 with
  | nil => intro x _; rfl
  | cons c r0 ih =>
    intro x h
    have h1 : pat.isPrefixOf (c :: (r0 ++ x)) = false := by
      rw [Bool.eq_false_iff]
      intro hp
      exact h [] (c :: r0) rfl (by simp) (List.isPrefixOf_iff_prefix.mp hp)
    rw [List.cons_append]
    simp only [replaceFirst, h1, Bool.false_eq_true, if_false]
    rw [ih x (fun a b hab hb => h (c :: a) b (by rw [hab]; rfl) hb)]
    rfl

theorem key_line_not_markers (p0 a lead : Text) (hkey : EndsWithKey p0)
    (hlead : ∀ c ∈ lead, c = ' ' ∨ c = '-') (h : p0 ++ [' '] = a ++ '\n' :: lead) : False := by
  obtain ⟨a0, c, b0, hp0, hc1, hc2, hc3, hb0⟩ := hkey
  rw [hp0, List.append_assoc] at h
  rcases List.append_eq_append_iff.mp h with ⟨t, _, ht2⟩ | ⟨t, _, ht2⟩
  · -- the newline lies in the key part
    have hm : '\n' ∈ c :: b0 ++ [' '] := by rw [ht2]; simp
    simp only [List.cons_append, List.mem_cons, List.mem_append, List.mem_singleton] at hm
    rcases hm with h1 | h1 | h1
    · exact hc3 h1.symm
    · exact hb0 h1
    · simp at h1
  · -- the key character lies in the markers
    have hm : c ∈ '\n' :: lead := by rw [ht2]; simp
    rcases List.mem_cons.mp hm with h1 | h1
    · exact hc3 h1
    · rcases hlead c h1 with h2 | h2
      · exact hc1 h2
      · exact hc2 h2

/-- After a key line joined with ` {}`, the match of a later line `lead{}`
cannot start inside the joined part. -/
theorem tokenMatch_no_start (p0 lead : Text) (hp : ¬ emptyObj <:+: p0) (hkey : EndsWithKey p0)
    (hlead : ∀ c ∈ lead, c = ' ' ∨ c = '-') :
    ∀ a b x, p0 ++ spaceObj = a ++ b → b ≠ [] → ¬ tokenMatch lead <+: b ++ x := by
  intro a b x hab hb hpre
  have hblast : b.getLast? = some '}' := by
    have : (a ++ b).getLast? = some '}' := by rw [← hab]; simp [spaceObj]
    rwa [List.getLast?_append_of_ne_nil _ hb] at this
  by_cases hlen : (tokenMatch lead).length ≤ b.length
  · -- the whole match lies in `b`
    have h1 : tokenMatch lead <+: b :=
      List.prefix_of_prefix_length_le hpre (List.prefix_append _ _) hlen
    obtain ⟨b2, hb2⟩ := h1
    have e : (p0 ++ [' ']) ++ emptyObj ++ [] = (a ++ '\n' :: lead) ++ emptyObj ++ b2 := by
      have : p0 ++ spaceObj = p0 ++ [' '] ++ emptyObj := by simp [spaceObj, emptyObj]
      rw [List.append_nil, ← this, hab, ← hb2]
      simp [tokenMatch]
    have hu : ¬ emptyObj <:+: (p0 ++ [' ']) ++ ['{'] := by
      intro hi
      rw [List.append_assoc] at hi
      rcases pair_infix_append '{' '}' p0 ([' '] ++ ['{']) hi with h | h | h
      · exact hp h
      · obtain ⟨y, z, hyz⟩ := h
        have hm : '}' ∈ [' '] ++ ['{'] := by rw [← hyz]; simp [emptyObj]
        simp at hm
      · simp at h
    have huniq := emptyObj_occurrence_unique _ _ _ _ hu (by simp [emptyObj]) e
    exact key_line_not_markers p0 a lead hkey hlead huniq.symm
  · -- `b` is a proper front part of the match and ends with a closing brace
    have h1 : b <+: tokenMatch lead :=
      List.prefix_of_prefix_length_le (List.prefix_append _ _) hpre (by omega)
    obtain ⟨t, ht⟩ := h1
    have htne : t ≠ [] := by
      intro e
      rw [e, List.append_nil] at ht
      rw [ht] at hlen
      exact hlen (Nat.le_refl _)
    have hbd : b <+: (tokenMatch lead).dropLast := by
      rw [← ht]
      obtain ⟨t1, y, hy⟩ := (List.eq_nil_or_concat t).resolve_left htne
      rw [hy, List.concat_eq_append, ← List.append_assoc, List.dropLast_concat]
      exact List.prefix_append _ _
    rw [tokenMatch_dropLast] at hbd
    have hm : '}' ∈ '\n' :: lead ++ ['{'] :=
      hbd.subset (List.mem_of_getLast?_eq_some hblast)
    rcases List.mem_append.mp hm with h2 | h2
    · exact brace_not_in_lead lead hlead '}' (Or.inr rfl) h2
    · simp at h2

theorem foldl_replaceFirst_skip (new r0 : Text) :
    ∀ (pats : List Text) (x : Text),
      (∀ pat ∈ pats, ∀ a b y, r0 = a ++ b → b ≠ [] → ¬ pat <+: b ++ y) →
      pats.foldl (fun d pat => replaceFirst pat new d) (r0 ++ x) =
        r0 ++ pats.foldl (fun d pat => replaceFirst pat new d) x := by
  intro pats
  induction pats with
  | nil => intro x _; rfl
  | cons pat pats ih =>
    intro x h
    simp only [List.foldl_cons]
    rw [replaceFirst_skip pat new r0 x
      (fun a b hab hb => h pat (List.mem_cons_self _ _) a b x hab hb)]
    exact ih _ (fun q hq => h q (List.mem_cons_of_mem _ hq))

theorem collapse_composeDoc (ts : List (Text × Text)) :
    ∀ p0, WellPlaced p0 ts →
      (ts.map (fun t => tokenMatch t.1)).foldl (fun d pat => replaceFirst pat spaceObj d)
        (composeDoc p0 ts) = joinedDoc p0 ts := by
  induction ts with
  | nil => intro p0 _; rfl
  | cons t ts ih =>
    intro p0 h
    obtain ⟨lead, p⟩ := t
    obtain ⟨h1, h2, h3, h4⟩ := h
    simp only at h3 h4
    simp only [List.map_cons, List.foldl_cons, composeDoc, joinedDoc]
    rw [replaceFirst_tokenMatch p0 lead _ h1 h3]
    rw [foldl_replaceFirst_skip spaceObj (p0 ++ spaceObj) _ (composeDoc p ts), ih p h4]
    intro pat hpat a b y hab hb
    obtain ⟨t1, ht1, hpt⟩ := List.mem_map.mp hpat
    rw [← hpt]
    exact tokenMatch_no_start p0 t1.1 h1 h2 (wellPlaced_leads ts p h4 t1 ht1) a b y hab hb

theorem collapseEmptyObj_composeDoc (p0 : Text) (ts : List (Text × Text))
    (h : WellPlaced p0 ts) : collapseEmptyObj (composeDoc p0 ts) = joinedDoc p0 ts := by
  unfold collapseEmptyObj findAllEmptyObj
  rw [findAllEmptyObj_composeDoc ts p0 h]
  exact collapse_composeDoc ts p0 h

theorem no_line_at_key (p0 a ind : Text) (hkey : EndsWithKey p0) (h : a ++ ind = p0 ++ [' '])
    (ha : a = [] ∨ a.getLast? = some '\n') (hind : ∀ c ∈ ind, c = ' ') : False := by
  obtain ⟨a0, c, b0, hp0, hc1, _, hc3, hb0⟩ := hkey
  rw [hp0, List.append_assoc] at h
  rcases List.append_eq_append_iff.mp h with ⟨t, ht1, ht2⟩ | ⟨t, ht1, ht2⟩
  · -- a0 = a ++ t and ind = t ++ key part
    apply hc1
    apply hind
    rw [ht2]
    simp
  · -- a = a0 ++ t and key part = t ++ ind
    cases t with
    | nil =>
      apply hc1
      apply hind
      rw [List.nil_append] at ht2
      rw [← ht2]
      simp
    | cons d t =>
      rcases ha with ha | ha
      · rw [ha] at ht1
        have := congrArg List.length ht1
        simp at this
        omega
      · have hl : (d :: t).getLast? = some '\n' := by
          rw [ht1, List.getLast?_append_of_ne_nil _ (by simp)] at ha
          exact ha
        have hm : '\n' ∈ c :: b0 ++ [' '] := by
          rw [ht2]
          exact List.mem_append_left _ (List.mem_of_getLast?_eq_some hl)
        simp only [List.cons_append, List.mem_cons, List.mem_append, List.mem_singleton] at hm
        rcases hm with h1 | h1 | h1
        · exact hc3 h1.symm
        · exact hb0 h1
        · simp at h1

theorem emptyObj_not_in_key_space (p0 : Text) (hp : ¬ emptyObj <:+: p0) :
    ¬ emptyObj <:+: (p0 ++ [' ']) ++ ['{'] := by
  intro hi
  rw [List.append_assoc] at hi
  rcases pair_infix_append '{' '}' p0 ([' '] ++ ['{']) hi with h | h | h
  · exact hp h
  · obtain ⟨y, z, hyz⟩ := h
    have hm : '}' ∈ [' '] ++ ['{'] := by rw [← hyz]; simp [emptyObj]
    simp at hm
  · simp at h

theorem joinedDoc_no_line (ts : List (Text × Text)) :
    ∀ p0, WellPlaced p0 ts → ¬ HasEmptyObjLine (joinedDoc p0 ts ++ ['\n']) := by
  induction ts with
  | nil =>
    intro p0 h
    rintro ⟨a, ind, b, hdoc, _, _, _⟩
    have hno : ¬ emptyObj <:+: p0 ++ ['\n'] := by
      intro hi
      rcases pair_infix_append '{' '}' p0 ['\n'] hi with h1 | h1 | h1
      · exact h h1
      · have := h1.length_le
        simp at this
      · simp at h1
    apply hno
    simp only [joinedDoc] at hdoc
    rw [hdoc]
    exact ⟨a ++ ind, b, by simp⟩
  | cons t ts ih =>
    intro p0 h
    obtain ⟨lead, p⟩ := t
    obtain ⟨h1, h2, _, h4⟩ := h
    simp only at h4
    rintro ⟨a, ind, b, hdoc, ha, hind, hb⟩
    have e : joinedDoc p0 ((lead, p) :: ts) ++ ['\n'] =
        (p0 ++ [' ']) ++ (emptyObj ++ (joinedDoc p ts ++ ['\n'])) := by
      simp [joinedDoc, spaceObj, emptyObj]
    rw [e] at hdoc
    have hdoc2 : (p0 ++ [' ']) ++ (emptyObj ++ (joinedDoc p ts ++ ['\n'])) =
        (a ++ ind) ++ (emptyObj ++ b) := by rw [hdoc]; simp
    rcases List.append_eq_append_iff.mp hdoc2 with ⟨t, ht1, ht2⟩ | ⟨t, ht1, ht2⟩
    · -- a ++ ind = (p0 ++ " ") ++ t
      cases t with
      | nil =>
        rw [List.append_nil] at ht1
        exact no_line_at_key p0 a ind h2 ht1 ha hind
      | cons x t =>
        cases t with
        | nil => simp [emptyObj] at ht2
        | cons y t =>
          simp only [emptyObj, List.cons_append, List.nil_append, List.cons.injEq] at ht2
          obtain ⟨hx, hy, hY⟩ := ht2
          subst hx hy
          -- the occurrence lies in the rest of the document
          have ht1' : a ++ ind = (p0 ++ [' ', '{', '}']) ++ t := by rw [ht1]; simp
          rcases List.append_eq_append_iff.mp ht1' with ⟨s, hs1, hs2⟩ | ⟨s, hs1, hs2⟩
          · -- p0 ++ " {}" = a ++ s and ind = s ++ t
            cases s with
            | nil =>
              rw [List.append_nil] at hs1
              rcases ha with ha | ha
              · rw [ha] at hs1
                have := congrArg List.length hs1
                simp at this
              · rw [← hs1] at ha
                simp at ha
            | cons z s =>
              have hl : (z :: s).getLast? = some '}' := by
                have : (a ++ z :: s).getLast? = some '}' := by rw [← hs1]; simp
                rwa [List.getLast?_append_of_ne_nil _ (by simp)] at this
              have hm : '}' ∈ ind := by
                rw [hs2]
                exact List.mem_append_left _ (List.mem_of_getLast?_eq_some hl)
              have := hind _ hm
              simp at this
          · -- a = p0 ++ " {}" ++ s and t = s ++ ind
            cases s with
            | nil =>
              rw [List.append_nil] at hs1
              rcases ha with ha | ha
              · rw [ha] at hs1
                have := congrArg List.length hs1
                simp at this
              · rw [hs1] at ha
                simp at ha
            | cons z s =>
              apply ih p h4
              refine ⟨z :: s, ind, b, ?_, Or.inr ?_, hind, hb⟩
              · rw [hY, hs2]
                simp [emptyObj]
              · rw [hs1, List.getLast?_append_of_ne_nil _ (by simp)] at ha
                rcases ha with ha | ha
                · simp at ha
                · exact ha
    · -- p0 ++ " " = (a ++ ind) ++ t
      cases t with
      | nil =>
        rw [List.append_nil] at ht1
        exact no_line_at_key p0 a ind h2 ht1.symm ha hind
      | cons x t =>
        apply emptyObj_not_in_key_space p0 h1
        have hp : emptyObj <+: (x :: t) ++ emptyObj ++ (joinedDoc p ts ++ ['\n']) :=
          ⟨b, by simpa using ht2⟩
        have hq := prefix_before_occurrence emptyObj (x :: t) _ (by simp) hp
        have hd : emptyObj.dropLast = ['{'] := rfl
        rw [hd] at hq
        rw [ht1, List.append_assoc]
        exact hq.isInfix.trans (List.infix_append' (a ++ ind) _ [] |> fun h => by simpa using h)

/-- C8, as the code has it: when `{}` occurs in the composed document only as
the token of lines of their own (indentation and list markers, then `{}`), each
directly below a key line, the returned document has every such line joined to
its key line as `key: {}` and has no line that consists solely of indentation
followed by `{}`. -/
theorem refactoringYml_collapse (ext : Collaborators) (fs fs1 : Files)
    (source newYml r p0 : Text) (ts : List (Text × Text))
    (hr : reshape newYml = some r)
    (hdoc : PrepareNewYmlFromOld ext fs source ("  template:".toList ++ r) =
      some (composeDoc p0 ts, fs1))
    (hw : WellPlaced p0 ts) :
    RefactoringYml ext fs source newYml = some (joinedDoc p0 ts ++ ['\n'], fs1) ∧
    ¬ HasEmptyObjLine (joinedDoc p0 ts ++ ['\n']) := by
  refine ⟨?_, joinedDoc_no_line ts p0 hw⟩
  unfold RefactoringYml
  rw [hr]
  simp only [hdoc]
  rw [collapseEmptyObj_composeDoc p0 ts hw]

/-- Witness of C8: two empty blocks under `provider`, in a directory without
files. -/
theorem refactoringYml_collapse_witness :
    reshape twoEmptyBlocks =
      some "\n    provider:\n      aws:\n      - {}\n      google:\n      - {}\n".toList ∧
    PrepareNewYmlFromOld noCollaborators noFiles sampleSource
        ("  template:".toList ++
          "\n    provider:\n      aws:\n      - {}\n      google:\n      - {}\n".toList) =
      some (composeDoc twoEmptyBlocksHead twoEmptyBlocksTokens, noFiles) ∧
    WellPlaced twoEmptyBlocksHead twoEmptyBlocksTokens ∧
    RefactoringYml noCollaborators noFiles sampleSource twoEmptyBlocks =
      some (joinedDoc twoEmptyBlocksHead twoEmptyBlocksTokens ++ ['\n'], noFiles) ∧
    ¬ HasEmptyObjLine (joinedDoc twoEmptyBlocksHead twoEmptyBlocksTokens ++ ['\n']) := by
  have hw : WellPlaced twoEmptyBlocksHead twoEmptyBlocksTokens := by
    refine ⟨by rw [← containsText_iff]; decide, ?_, by decide,
      by rw [← containsText_iff]; decide, ?_, by decide, ?_⟩
    · exact ⟨"## local config\ncomponent:\n  name: 'vpc'\n  template:\n    provider:\n      aws".toList,
        ':', [], by decide, by decide, by decide, by decide, by decide⟩
    · exact ⟨"\n      google".toList, ':', [], by decide, by decide, by decide, by decide,
        by decide⟩
    · show ¬ emptyObj <:+: "\n".toList
      rw [← containsText_iff]; decide
  exact ⟨by decide, by rfl, hw,
    refactoringYml_collapse noCollaborators noFiles noFiles sampleSource twoEmptyBlocks
      "\n    provider:\n      aws:\n      - {}\n      google:\n      - {}\n".toList
      twoEmptyBlocksHead twoEmptyBlocksTokens (by decide) (by rfl) hw⟩

/-- Counterexample to C8 as stated: a template text with a block scalar whose
second paragraph is the line `{}`.  The collapse joins that line to the blank
line above it, and the returned document has the line `     {}`. -/
theorem refactoringYml_collapse_counterexample :
    (RefactoringYml noCollaborators noFiles sampleSource
        "a: |\n  x\n\n  {}\n".toList).map Prod.fst =
      some ("## local config\ncomponent:\n  name: 'vpc'\n  template:\n" ++
        "    a: |\n      x\n     {}\n\n").toList ∧
    HasEmptyObjLine ("## local config\ncomponent:\n  name: 'vpc'\n  template:\n" ++
        "    a: |\n      x\n     {}\n\n").toList :=
  ⟨by decide,
    ⟨"## local config\ncomponent:\n  name: 'vpc'\n  template:\n    a: |\n      x\n".toList,
      "     ".toList, "\n\n".toList, by decide, Or.inr (by decide), by decide,
      Or.inr (by decide)⟩⟩

/-! ## Claims on the document reshaper -/

/-- C10 at a failing input: the line `      - - description: VPC - main`, which
the template text of a block with that description gives.  The double marker
is replaced by the placeholder, and then the second replacement finds the `- `
of the value: the description becomes `VPC   main`, also in the reshaped
template text. -/
theorem scanRecRewrite_rewrites_value :
    SpaceCount "      - - description: VPC - main".toList ≤ 10 ∧
    ':' ∈ "      - - description: VPC - main".toList ∧
    doubleMarker <:+: "      - - description: VPC - main".toList ∧
    replaceFirst doubleMarker placeholder "      - - description: VPC - main".toList =
      "      # description: VPC - main".toList ∧
    scanRecRewrite "      - - description: VPC - main".toList =
      "      # description: VPC   main".toList ∧
    reshape "resource:\n- aws_vpc:\n  - - description: VPC - main\n".toList =
      some "\n    resource:\n      aws_vpc:\n        description: VPC   main\n".toList :=
  ⟨by decide, by decide, by rw [← containsText_iff]; decide, by decide, by decide, by decide⟩

/-! ## Evaluations at failing inputs -/

/-- C3 at the failing input with the groups `a` and `b`, each with one slot
that has the key `K`: whichever group is visited first, the only slot of the
other group is absorbed, and the returned text keeps it as the array element
`null`. -/
theorem normalizeJson_keeps_null :
    NormalizeJson twoGroups = some "\x7b\"a\":[\x7b\"K\":[[1],[2]]\x7d],\"b\":[null]\x7d".toList ∧
    NormalizeJson twoGroupsSwapped =
      some "\x7b\"a\":[null],\"b\":[\x7b\"K\":[[2],[1]]\x7d]\x7d".toList := by
  constructor <;> decide

/-- C5 at a failing input: the existing document has the line `  tags: {}`
before its first blank-line boundary and `  env: {}` after it; the returned
document has neither, so the part before the boundary is not a prefix of it. -/
theorem refactoringYml_alters_existing :
    (RefactoringYml noCollaborators (filesWithDoc docWithEmptyObj) sampleSource
        "x: 1\n".toList).map Prod.fst =
      some "component:\n  name: 'vpc' {}\n  template:\n    x: 1\n\nbuild: {}\n\n".toList ∧
    ¬ "component:\n  name: 'vpc'\n  tags: {}".toList <+:
      "component:\n  name: 'vpc' {}\n  template:\n    x: 1\n\nbuild: {}\n\n".toList := by
  constructor
  · decide
  · decide

/-- C7 at a failing input: the template text of an empty block `aws {}` under
`provider`, then the template text of a resource.  The first document holds
the block of the first text, with the line `      aws: {}`; the second document
no longer has that line. -/
theorem scaffold_then_merge_loses_block :
    (RefactoringYml noCollaborators noFiles sampleSource emptyBlock).map Prod.fst =
      some firstDocument ∧
    (RefactoringYml noCollaborators (filesWithDoc firstDocument) sampleSource
        oneResource).map Prod.fst =
      some ("## local config\ncomponent:\n  name: 'vpc'\n  template:\n    provider: {}\n" ++
        "  template:\n    resource:\n      aws_vpc:\n        main:\n" ++
        "          cidr: 10.0.0.0/16\n\n\n").toList ∧
    "      aws: {}".toList <:+: firstDocument ∧
    ¬ "      aws: {}".toList <:+:
      ("## local config\ncomponent:\n  name: 'vpc'\n  template:\n    provider: {}\n" ++
        "  template:\n    resource:\n      aws_vpc:\n        main:\n" ++
        "          cidr: 10.0.0.0/16\n\n\n").toList := by
  refine ⟨by decide, by decide, ?_, ?_⟩
  · rw [← containsText_iff]; decide
  · rw [← containsText_iff]; decide

/-- C9 at a failing input: the line `        default: '{}'` of the composed
document carries a quoted scalar; the collapse removes its key and joins the
rest to the line above. -/
theorem refactoringYml_collapses_scalar :
    (RefactoringYml noCollaborators noFiles sampleSource
        "variable:\n- tags:\n  - default: '{}'\n".toList).map Prod.fst =
      some ("## local config\ncomponent:\n  name: 'vpc'\n  template:\n" ++
        "    variable:\n      tags: {}'\n\n").toList := by
  decide

/-! ## Depth bands of the reshaper -/

theorem replaceFirst_cons_ne (pat new : Text) (c : Char) (rest : Text)
    (h : pat.isPrefixOf (c :: rest) = false) :
    replaceFirst pat new (c :: rest) = c :: replaceFirst pat new rest := by
  simp only [replaceFirst, h, Bool.false_eq_true, if_false]

theorem replaceFirst_space (pat new : Text) (hpat : pat.head? = some '-') (s : Text) :
    replaceFirst pat new (' ' :: s) = ' ' :: replaceFirst pat new s := by
  have h1 : pat.isPrefixOf (' ' :: s) = false := by
    cases pat with
    | nil => simp at hpat
    | cons c pat =>
      simp only [List.head?_cons, Option.some.injEq] at hpat
      subst hpat
      simp [List.isPrefixOf]
  simp only [replaceFirst, h1, Bool.false_eq_true, if_false]

theorem replaceFirst_spaces (pat new : Text) (hpat : pat.head? = some '-') (s : Text) :
    ∀ n, replaceFirst pat new (List.replicate n ' ' ++ s) =
      List.replicate n ' ' ++ replaceFirst pat new s := by
  intro n
  induction n with
  | zero => rfl
  | succ n ih =>
    rw [List.replicate_succ, List.cons_append, replaceFirst_space pat new hpat, ih]
    rfl

theorem spaceCount_two (line : Text) (h : 2 ≤ SpaceCount line) :
    ∃ rest, line = ' ' :: ' ' :: rest := by
  cases line with
  | nil => simp [SpaceCount] at h
  | cons a line =>
    by_cases ha : a = ' '
    · subst ha
      cases line with
      | nil => simp [SpaceCount] at h
      | cons b line =>
        by_cases hb : b = ' '
        · subst hb
          exact ⟨line, rfl⟩
        · simp [SpaceCount, hb] at h
    · simp [SpaceCount, ha] at h

/-- C12: on a line with at least 10 leading spaces the slice `line[2:]` is in
range, also after the marker rewrite at depth exactly 10; the two characters it
removes are spaces; and on a line with more than 10 leading spaces the rewrite
changes nothing, so the emitted line is the input line without its first two
characters. -/
theorem scanRecLine_strip (line : Text) (h : 10 ≤ SpaceCount line) :
    ∃ rest, scanRecRewrite line = ' ' :: ' ' :: rest ∧ scanRecLine line = some rest ∧
      (10 < SpaceCount line → scanRecRewrite line = line ∧ line = ' ' :: ' ' :: rest) := by
  obtain ⟨tail, ht⟩ := spaceCount_two line (by omega)
  have hrw : ∃ rest, scanRecRewrite line = ' ' :: ' ' :: rest ∧
      (10 < SpaceCount line → scanRecRewrite line = line) := by
    unfold scanRecRewrite
    split
    · rename_i hc
      refine ⟨replaceFirst singleMarker twoSpaces (replaceFirst doubleMarker placeholder tail),
        ?_, ?_⟩
      · rw [ht, replaceFirst_space doubleMarker placeholder rfl,
          replaceFirst_space doubleMarker placeholder rfl,
          replaceFirst_space singleMarker twoSpaces rfl,
          replaceFirst_space singleMarker twoSpaces rfl]
      · intro hgt
        omega
    · exact ⟨tail, ht, fun _ => rfl⟩
  obtain ⟨rest, hr1, hr2⟩ := hrw
  refine ⟨rest, hr1, ?_, ?_⟩
  · unfold scanRecLine
    rw [if_pos h, hr1]
    simp [sliceFrom]
  · intro hgt
    have := hr2 hgt
    exact ⟨this, by rw [← this, hr1]⟩

/-- Witness of C12: a line at depth 10 with a list marker, which the rewrite
changes before the strip. -/
theorem scanRecLine_strip_witness :
    10 ≤ SpaceCount "          - cidr: 10.0.0.0/16".toList ∧
    ∃ rest, scanRecRewrite "          - cidr: 10.0.0.0/16".toList = ' ' :: ' ' :: rest ∧
      scanRecLine "          - cidr: 10.0.0.0/16".toList = some rest ∧
      (10 < SpaceCount "          - cidr: 10.0.0.0/16".toList →
        scanRecRewrite "          - cidr: 10.0.0.0/16".toList =
          "          - cidr: 10.0.0.0/16".toList ∧
        "          - cidr: 10.0.0.0/16".toList = ' ' :: ' ' :: rest) :=
  ⟨by decide, scanRecLine_strip "          - cidr: 10.0.0.0/16".toList (by decide)⟩

/-- C11, as the code has it: a line made of 8 spaces, the list marker `- ` and a
pair `key: value` that does not start with a list marker and holds no double
list marker is emitted with the marker replaced by two spaces, key and value as
they were; the emitted line has a `- ` exactly when the pair has one. -/
theorem scanRecLine_depth8 (key value : Text)
    (hp : ¬ singleMarker <+: key ++ ':' :: ' ' :: value)
    (hd : ¬ doubleMarker <:+: key ++ ':' :: ' ' :: value) :
    scanRecLine (List.replicate 8 ' ' ++ singleMarker ++ key ++ ':' :: ' ' :: value) =
      some (List.replicate 8 ' ' ++ twoSpaces ++ key ++ ':' :: ' ' :: value) ∧
    (singleMarker <:+: List.replicate 8 ' ' ++ twoSpaces ++ key ++ ':' :: ' ' :: value ↔
      singleMarker <:+: key ++ ':' :: ' ' :: value) := by
  have e : List.replicate 8 ' ' ++ singleMarker ++ key ++ ':' :: ' ' :: value =
      List.replicate 8 ' ' ++ ('-' :: ' ' :: (key ++ ':' :: ' ' :: value)) := by
    simp [singleMarker]
  have hsc : SpaceCount (List.replicate 8 ' ' ++ ('-' :: ' ' :: (key ++ ':' :: ' ' :: value))) = 8 := by
    simp [List.replicate, SpaceCount]
  have hcol : containsText [':'] (List.replicate 8 ' ' ++
      ('-' :: ' ' :: (key ++ ':' :: ' ' :: value))) = true := by
    rw [containsText_iff]
    exact ⟨List.replicate 8 ' ' ++ '-' :: ' ' :: key, ' ' :: value, by simp⟩
  have hnp : singleMarker.isPrefixOf (key ++ ':' :: ' ' :: value) = false := by
    rw [Bool.eq_false_iff]
    intro h1
    exact hp (List.isPrefixOf_iff_prefix.mp h1)
  have hdouble : replaceFirst doubleMarker placeholder
      (List.replicate 8 ' ' ++ ('-' :: ' ' :: (key ++ ':' :: ' ' :: value))) =
      List.replicate 8 ' ' ++ ('-' :: ' ' :: (key ++ ':' :: ' ' :: value)) := by
    rw [replaceFirst_spaces doubleMarker placeholder rfl]
    congr 1
    have h1 : doubleMarker.isPrefixOf ('-' :: ' ' :: (key ++ ':' :: ' ' :: value)) = false := by
      have : doubleMarker.isPrefixOf ('-' :: ' ' :: (key ++ ':' :: ' ' :: value)) =
          singleMarker.isPrefixOf (key ++ ':' :: ' ' :: value) := by
        simp [doubleMarker, singleMarker, List.isPrefixOf]
      rw [this, hnp]
    rw [replaceFirst_cons_ne _ _ _ _ h1,
      replaceFirst_space doubleMarker placeholder rfl, replaceFirst_of_not_infix _ _ _ hd]
  have hsingle : replaceFirst singleMarker twoSpaces
      (List.replicate 8 ' ' ++ ('-' :: ' ' :: (key ++ ':' :: ' ' :: value))) =
      List.replicate 8 ' ' ++ twoSpaces ++ key ++ ':' :: ' ' :: value := by
    rw [replaceFirst_spaces singleMarker twoSpaces rfl]
    simp [replaceFirst, singleMarker, twoSpaces, List.isPrefixOf]
  have e2 : List.replicate 8 ' ' ++ twoSpaces ++ key ++ ':' :: ' ' :: value =
      (List.replicate 8 ' ' ++ twoSpaces) ++ (key ++ ':' :: ' ' :: value) := by simp
  refine ⟨?_, ?_, ?_⟩
  · rw [e]
    unfold scanRecLine scanRecRewrite
    rw [hsc, if_neg (by omega), if_pos ⟨by omega, hcol⟩, hdouble, hsingle]
  · intro hi
    rw [e2] at hi
    rcases pair_infix_append '-' ' ' _ _ hi with h1 | h1 | h1
    · exfalso
      revert h1
      rw [← containsText_iff]
      decide
    · exact h1
    · exfalso
      have : (List.replicate 8 ' ' ++ twoSpaces).getLast? = some ' ' := by decide
      rw [this] at h1
      simp at h1
  · rintro ⟨a, b, hab⟩
    rw [e2]
    exact ⟨List.replicate 8 ' ' ++ twoSpaces ++ a, b, by rw [← hab]; simp⟩

/-- Witness of C11: the line `        - name: web - 1`, whose value holds a `- `. -/
theorem scanRecLine_depth8_witness :
    ¬ singleMarker <+: "name".toList ++ ':' :: ' ' :: "web - 1".toList ∧
    ¬ doubleMarker <:+: "name".toList ++ ':' :: ' ' :: "web - 1".toList ∧
    (scanRecLine (List.replicate 8 ' ' ++ singleMarker ++ "name".toList ++
        ':' :: ' ' :: "web - 1".toList) =
      some (List.replicate 8 ' ' ++ twoSpaces ++ "name".toList ++
        ':' :: ' ' :: "web - 1".toList) ∧
    (singleMarker <:+: List.replicate 8 ' ' ++ twoSpaces ++ "name".toList ++
        ':' :: ' ' :: "web - 1".toList ↔
      singleMarker <:+: "name".toList ++ ':' :: ' ' :: "web - 1".toList)) :=
  ⟨by decide, by rw [← containsText_iff]; decide,
    scanRecLine_depth8 "name".toList "web - 1".toList (by decide)
      (by rw [← containsText_iff]; decide)⟩

/-- Counterexample to C11 as stated: the line `        - a: x - y` is made of 8
spaces, one list marker and the pair `a: x - y`.  It is emitted with the marker
replaced and the pair as it was, so the emitted line holds the `- ` of the
value. -/
theorem scanRecLine_depth8_counterexample :
    scanRecLine (List.replicate 8 ' ' ++ singleMarker ++ "a".toList ++
        ':' :: ' ' :: "x - y".toList) =
      some (List.replicate 8 ' ' ++ twoSpaces ++ "a".toList ++ ':' :: ' ' :: "x - y".toList) ∧
    singleMarker <:+: List.replicate 8 ' ' ++ twoSpaces ++ "a".toList ++
      ':' :: ' ' :: "x - y".toList :=
  ⟨by decide, by rw [← containsText_iff]; decide⟩

/-! ## Claims on the file pipeline driver -/

theorem length_le_byteLength (s : Text) : s.length ≤ byteLength s := by
  induction s with
  | nil => simp [byteLength]
  | cons c s ih =>
    have hc := Char.utf8Size_pos c
    simp only [byteLength, List.foldr_cons, List.length_cons] at ih ⊢
    omega

theorem drop_eq_iff_suffix (name ext : Text) (he : ext.length = 3) :
    name.drop (name.length - 3) = ext ↔ ext <:+ name := by
  constructor
  · intro h
    rw [← h]
    exact List.drop_suffix _ _
  · rintro ⟨t, ht⟩
    rw [← ht]
    have : (t ++ ext).length - 3 = t.length := by simp [he]
    rw [this, List.drop_left]

theorem eligible_of_length (e : DirEntry) (h : 3 ≤ e.name.length) :
    (eligible e = some true ∨ eligible e = some false) ∧
    (eligible e = some true ↔
      (e.isDir = false ∧ dotTf <:+ e.name ∧ ¬ localsTf <:+: e.name)) := by
  have hb : ¬ byteLength e.name < 3 := by
    have := length_le_byteLength e.name
    omega
  unfold eligible
  rw [if_neg hb]
  constructor
  · cases (decide (e.name.drop (e.name.length - 3) = dotTf) && !e.isDir &&
        !containsText localsTf e.name) <;> simp
  · simp only [Option.some.injEq, Bool.and_eq_true, decide_eq_true_eq, Bool.not_eq_true',
      drop_eq_iff_suffix e.name dotTf rfl]
    constructor
    · rintro ⟨⟨h1, h2⟩, h3⟩
      refine ⟨h2, h1, ?_⟩
      intro hi
      rw [← containsText_iff] at hi
      rw [hi] at h3
      cases h3
    · rintro ⟨h1, h2, h3⟩
      refine ⟨⟨h2, h1⟩, ?_⟩
      cases hc : containsText localsTf e.name with
      | false => rfl
      | true => exact absurd ((containsText_iff _ _).mp hc) h3

/-- C13: in a listing whose names have at least three characters the test of
`ParsingTfFile` is defined for every entry and holds exactly for the entries
that are not directories, end with `.tf` and do not contain `locals.tf`; an
entry that passes contributes the text of `StartProccesingTfFile`, and the
loop gives the same result as on the entries that pass alone. -/
theorem parseLoop_eligible (ext : Collaborators) (source destination : Text)
    (entries : List DirEntry) (hlen : ∀ e ∈ entries, 3 ≤ e.name.length) :
    (∀ e ∈ entries, eligible e = some true ↔
      (e.isDir = false ∧ dotTf <:+ e.name ∧ ¬ localsTf <:+: e.name)) ∧
    (∀ e rest acc, eligible e = some true →
      parseLoop ext source destination (e :: rest) acc =
        (StartProccesingTfFile ext acc.2 (source ++ e.name)).bind (fun y =>
          parseLoop ext source destination rest
            (acc.1 ++ y,
              if source = destination then DeleteFile acc.2 (source ++ e.name) else acc.2))) ∧
    (∀ acc, parseLoop ext source destination entries acc =
      parseLoop ext source destination
        (entries.filter (fun e => eligible e == some true)) acc) := by
  refine ⟨fun e he => (eligible_of_length e (hlen e he)).2, ?_, ?_⟩
  · intro e rest acc he
    simp only [parseLoop, he]
    cases StartProccesingTfFile ext acc.2 (source ++ e.name) <;> rfl
  · induction entries with
    | nil => intro acc; rfl
    | cons e rest ih =>
      intro acc
      have ih2 := ih (fun x hx => hlen x (List.mem_cons_of_mem _ hx))
      rcases (eligible_of_length e (hlen e (List.mem_cons_self _ _))).1 with h1 | h1
      · have hf : List.filter (fun e => eligible e == some true) (e :: rest) =
            e :: List.filter (fun e => eligible e == some true) rest := by
          simp [List.filter_cons, h1]
        rw [hf]
        simp only [parseLoop, h1]
        cases StartProccesingTfFile ext acc.2 (source ++ e.name) with
        | none => rfl
        | some y => exact ih2 _
      · have hf : List.filter (fun e => eligible e == some true) (e :: rest) =
            List.filter (fun e => eligible e == some true) rest := by
          simp [List.filter_cons, h1]
        rw [hf]
        simp only [parseLoop, h1]
        exact ih2 acc

/-- Witness of C13: the directory that holds `a.tf`, `locals.tf` and `b.tf`;
the entries that pass are `a.tf` and `b.tf`, and the template text is made of
the texts of these two files. -/
theorem parseLoop_eligible_witness :
    (∀ e ∈ threeEntries, 3 ≤ e.name.length) ∧
    ((∀ e ∈ threeEntries, eligible e = some true ↔
        (e.isDir = false ∧ dotTf <:+ e.name ∧ ¬ localsTf <:+: e.name)) ∧
      (∀ e rest acc, eligible e = some true →
        parseLoop echoCollaborators sampleSource sampleSource (e :: rest) acc =
          (StartProccesingTfFile echoCollaborators acc.2 (sampleSource ++ e.name)).bind
            (fun y => parseLoop echoCollaborators sampleSource sampleSource rest
              (acc.1 ++ y,
                if sampleSource = sampleSource then DeleteFile acc.2 (sampleSource ++ e.name)
                else acc.2))) ∧
      (∀ acc, parseLoop echoCollaborators sampleSource sampleSource threeEntries acc =
        parseLoop echoCollaborators sampleSource sampleSource
          (threeEntries.filter (fun e => eligible e == some true)) acc)) ∧
    (threeEntries.filter (fun e => eligible e == some true)).map (fun e => e.name) =
      ["a.tf".toList, "b.tf".toList] ∧
    (parseLoop echoCollaborators sampleSource sampleSource threeEntries
        ([], threeFiles)).map Prod.fst =
      some "\x7b\"text\":\"A\"\x7d\x7b\"text\":\"B\"\x7d".toList :=
  ⟨by decide,
    parseLoop_eligible echoCollaborators sampleSource sampleSource threeEntries (by decide),
    by decide, by decide⟩

/-- C14 at a failing input: a directory that holds a defaults file and no
eligible source file.  The block is the bare `  template:`, which does not end
with a newline, and `tfvars:` is put on the same line. -/
theorem addTfVars_bare_block :
    (AddTfVars regionCollaborators onlyDefaults sampleSource "  template:".toList).map
        Prod.fst =
      some "  template:    tfvars:\n      region: eu".toList ∧
    ((ParsingTfFile regionCollaborators onlyDefaults [] sampleSource sampleSource).bind
        (fun fs => fs (sampleSource ++ terrahubYml))) =
      some ("## local config\ncomponent:\n  name: 'vpc'\n" ++
        "  template:    tfvars:\n      region: eu\n").toList := by
  constructor <;> decide

/-! ## Which document the driver merges -/

theorem eligible_suffix (e : DirEntry) (h : eligible e = some true) : dotTf <:+ e.name := by
  unfold eligible at h
  split at h
  · cases h
  · simp only [Option.some.injEq, Bool.and_eq_true, decide_eq_true_eq] at h
    rw [← h.1.1]
    exact List.drop_suffix _ _

theorem path_last (a x : Text) (c : Char) (h : x.getLast? = some c) :
    (a ++ x).getLast? = some c := by
  simp [List.getLast?_append, h]

theorem path_ne_of_last (a x b y : Text) (c1 c2 : Char) (hx : x.getLast? = some c1)
    (hy : y.getLast? = some c2) (hc : c1 ≠ c2) : a ++ x ≠ b ++ y := by
  intro e
  have h1 := path_last a x c1 hx
  rw [e, path_last b y c2 hy] at h1
  exact hc (Option.some.inj h1).symm

theorem eligible_path_ne (e : DirEntry) (h : eligible e = some true) (s d : Text) :
    s ++ e.name ≠ d ++ terrahubYml := by
  obtain ⟨t, ht⟩ := eligible_suffix e h
  apply path_ne_of_last s e.name d terrahubYml 'f' 'l' _ (by decide) (by decide)
  rw [← ht]
  exact path_last t dotTf 'f' (by decide)

theorem overrideFile_read (fs : Files) (q : Text) (x : Option Text) (p : Text) (h : p ≠ q) :
    overrideFile fs q x p = fs p := by
  simp [overrideFile, h]

theorem deleteFile_override (fs : Files) (q : Text) (x : Option Text) (p : Text) (h : p ≠ q) :
    DeleteFile (overrideFile fs q x) p = overrideFile (DeleteFile fs p) q x := by
  funext r
  simp only [DeleteFile, overrideFile]
  by_cases h1 : r = p
  · have h2 : ¬ r = q := fun e => h (h1.symm.trans e)
    simp [h1, h]
  · simp [h1]

theorem startProccesing_override (ext : Collaborators) (fs : Files) (q : Text)
    (x : Option Text) (p : Text) (h : p ≠ q) :
    StartProccesingTfFile ext (overrideFile fs q x) p = StartProccesingTfFile ext fs p := by
  unfold StartProccesingTfFile
  rw [overrideFile_read fs q x p h]

theorem parseLoop_override (ext : Collaborators) (source destination q : Text)
    (x : Option Text) (hq : ∀ e, eligible e = some true → source ++ e.name ≠ q) :
    ∀ (entries : List DirEntry) (t : Text) (fs : Files),
      parseLoop ext source destination entries (t, overrideFile fs q x) =
        (parseLoop ext source destination entries (t, fs)).map
          (fun a => (a.1, overrideFile a.2 q x)) := by
  intro entries
  induction entries with
  | nil => intro t fs; rfl
  | cons e rest ih =>
    intro t fs
    simp only [parseLoop]
    cases he : eligible e with
    | none => rfl
    | some b =>
      cases b with
      | false => exact ih t fs
      | true =>
        simp only
        rw [startProccesing_override ext fs q x _ (hq e he)]
        cases StartProccesingTfFile ext fs (source ++ e.name) with
        | none => rfl
        | some y =>
          simp only
          by_cases hsd : source = destination
          · simp only [hsd, if_true]
            rw [← hsd, deleteFile_override fs q x _ (hq e he)]
            have := ih (t ++ y) (DeleteFile fs (source ++ e.name))
            rw [hsd] at this ⊢
            exact this
          · simp only [hsd, if_false]
            exact ih (t ++ y) fs

theorem addTfVars_override (ext : Collaborators) (fs : Files) (source context q : Text)
    (x : Option Text) (h : source ++ defaultTfvars ≠ q) :
    AddTfVars ext (overrideFile fs q x) source context =
      (AddTfVars ext fs source context).map (fun r => (r.1, overrideFile r.2 q x)) := by
  unfold AddTfVars
  rw [overrideFile_read fs q x _ h, startProccesing_override ext fs q x _ h]
  cases fs (source ++ defaultTfvars) with
  | none => rfl
  | some c =>
    simp only
    cases StartProccesingTfFile ext fs (source ++ defaultTfvars) with
    | none => rfl
    | some y =>
      simp only [Option.map_some']
      rw [deleteFile_override fs q x _ h]

theorem prepareNewYmlFromOld_override (ext : Collaborators) (fs : Files)
    (source context q : Text) (x : Option Text) (h1 : source ++ defaultTfvars ≠ q)
    (h2 : source ++ terrahubYml ≠ q) :
    PrepareNewYmlFromOld ext (overrideFile fs q x) source context =
      (PrepareNewYmlFromOld ext fs source context).map
        (fun r => (r.1, overrideFile r.2 q x)) := by
  unfold PrepareNewYmlFromOld
  rw [addTfVars_override ext fs source context q x h1]
  cases AddTfVars ext fs source context with
  | none => rfl
  | some r =>
    obtain ⟨c1, fs1⟩ := r
    simp only [Option.map_some']
    rw [overrideFile_read fs1 q x _ h2]
    cases fs1 (source ++ terrahubYml) with
    | none =>
      simp only
      split
      · rfl
      · cases (splitSlash source).get? ((splitSlash source).length - 2) <;> rfl
    | some old => rfl

theorem refactoringYml_override (ext : Collaborators) (fs : Files)
    (source newYml q : Text) (x : Option Text) (h1 : source ++ defaultTfvars ≠ q)
    (h2 : source ++ terrahubYml ≠ q) :
    RefactoringYml ext (overrideFile fs q x) source newYml =
      (RefactoringYml ext fs source newYml).map (fun r => (r.1, overrideFile r.2 q x)) := by
  unfold RefactoringYml
  cases reshape newYml with
  | none => rfl
  | some r =>
    simp only
    rw [prepareNewYmlFromOld_override ext fs source _ q x h1 h2]
    cases PrepareNewYmlFromOld ext fs source ("  template:".toList ++ r) with
    | none => rfl
    | some d => rfl

theorem writeFile_override (fs : Files) (q : Text) (x : Option Text) (doc : Text) :
    WriteFile (overrideFile fs q x) q doc = WriteFile fs q doc := by
  funext r
  simp only [WriteFile, overrideFile]
  by_cases h : r = q
  · simp [h]
  · simp [h]

/-- A run between two different directories does not read the document of the
destination: with any other document there, or none, it leaves the same files. -/
theorem parsingTfFile_override (ext : Collaborators) (fs : Files) (entries : List DirEntry)
    (source destination : Text) (hsd : source ≠ destination) (x : Option Text) :
    ParsingTfFile ext (overrideFile fs (destination ++ terrahubYml) x) entries source
        destination =
      ParsingTfFile ext fs entries source destination := by
  have hd : source ++ defaultTfvars ≠ destination ++ terrahubYml :=
    path_ne_of_last _ _ _ _ 's' 'l' (by decide) (by decide) (by decide)
  have hy : source ++ terrahubYml ≠ destination ++ terrahubYml :=
    fun e => hsd (List.append_cancel_right e)
  unfold ParsingTfFile
  rw [parseLoop_override ext source destination _ x
    (fun e he => eligible_path_ne e he source destination) entries [] fs]
  cases parseLoop ext source destination entries ([], fs) with
  | none => rfl
  | some acc =>
    simp only [Option.map_some', if_neg hsd]
    rw [refactoringYml_override ext acc.2 source acc.1 _ x hd hy]
    cases RefactoringYml ext acc.2 source acc.1 with
    | none => rfl
    | some r =>
      simp only [Option.map_some']
      rw [writeFile_override]

theorem parseLoop_keeps (ext : Collaborators) (source destination p : Text)
    (hp : ∀ e, eligible e = some true → source ++ e.name ≠ p) :
    ∀ (entries : List DirEntry) (acc acc1 : Text × Files),
      parseLoop ext source destination entries acc = some acc1 → acc1.2 p = acc.2 p := by
  intro entries
  induction entries with
  | nil => intro acc acc1 h; cases h; rfl
  | cons e rest ih =>
    intro acc acc1 h
    simp only [parseLoop] at h
    cases he : eligible e with
    | none => rw [he] at h; cases h
    | some b =>
      rw [he] at h
      cases b with
      | false => exact ih acc acc1 h
      | true =>
        simp only at h
        cases hs : StartProccesingTfFile ext acc.2 (source ++ e.name) with
        | none => rw [hs] at h; cases h
        | some y =>
          rw [hs] at h
          rw [ih _ acc1 h]
          simp only
          split
          · simp [DeleteFile, (hp e he).symm]
          · rfl

theorem addTfVars_keeps (ext : Collaborators) (fs : Files) (source context p : Text)
    (hp : source ++ defaultTfvars ≠ p) (r : Text × Files)
    (h : AddTfVars ext fs source context = some r) : r.2 p = fs p := by
  unfold AddTfVars at h
  cases hd : fs (source ++ defaultTfvars) with
  | none =>
    rw [hd] at h
    cases h
    rfl
  | some c =>
    rw [hd] at h
    simp only at h
    cases hs : StartProccesingTfFile ext fs (source ++ defaultTfvars) with
    | none => rw [hs] at h; cases h
    | some y =>
      rw [hs] at h
      cases h
      simp [DeleteFile, hp.symm]

theorem addTfVars_starts (ext : Collaborators) (fs : Files) (source context : Text)
    (r : Text × Files) (h : AddTfVars ext fs source context = some r) : context <+: r.1 := by
  unfold AddTfVars at h
  cases hd : fs (source ++ defaultTfvars) with
  | none =>
    rw [hd] at h
    cases h
    exact List.prefix_refl _
  | some c =>
    rw [hd] at h
    simp only at h
    cases hs : StartProccesingTfFile ext fs (source ++ defaultTfvars) with
    | none => rw [hs] at h; cases h
    | some y =>
      rw [hs] at h
      cases h
      exact ⟨_, (List.append_assoc _ _ _).symm⟩

/-- C15, as the code has it: the document that is merged into the output is the
one of the source directory.  For a run that writes the document `w` to the
destination, `w` is the collapsed text of a document `doc` and a final
newline, where `doc` is the prior document of the source with the template
block (a text that starts with `  template:`) spliced in when the source has
one, and the fresh scaffold around the block when the source has none; and
when the two directories differ, the run writes the same `w` whatever
document, or none, the destination held. -/
theorem parsingTfFile_merges_source_document (ext : Collaborators) (fs : Files)
    (entries : List DirEntry) (source destination w : Text)
    (h : (ParsingTfFile ext fs entries source destination).bind
      (fun f => f (destination ++ terrahubYml)) = some w) :
    (∃ block doc, "  template:".toList <+: block ∧ w = collapseEmptyObj doc ++ ['\n'] ∧
      (∀ old, fs (source ++ terrahubYml) = some old → doc = spliceOld old block) ∧
      (fs (source ++ terrahubYml) = none → ∃ name, doc = scaffoldHeader name ++ block)) ∧
    (source ≠ destination → ∀ x,
      (ParsingTfFile ext (overrideFile fs (destination ++ terrahubYml) x) entries source
        destination).bind (fun f => f (destination ++ terrahubYml)) = some w) := by
  refine ⟨?_, fun hsd x => by rw [parsingTfFile_override ext fs entries _ _ hsd x]; exact h⟩
  unfold ParsingTfFile at h
  cases hL : parseLoop ext source destination entries ([], fs) with
  | none => rw [hL] at h; cases h
  | some acc =>
    rw [hL] at h
    simp only at h
    have hkeep := parseLoop_keeps ext source destination (source ++ terrahubYml)
      (fun e he => eligible_path_ne e he source source) entries _ acc hL
    simp only at hkeep
    -- the files after the deletion of `locals.tf`
    have hloc : ∀ fs2 : Files,
        fs2 = (if source = destination then DeleteFile acc.2 (source ++ localsTf) else acc.2) →
        fs2 (source ++ terrahubYml) = fs (source ++ terrahubYml) := by
      intro fs2 e
      rw [e, ← hkeep]
      split
      · have hne : source ++ terrahubYml ≠ source ++ localsTf :=
          path_ne_of_last _ _ _ _ 'l' 'f' (by decide) (by decide) (by decide)
        simp [DeleteFile, hne]
      · rfl
    generalize hfs2 : (if source = destination then DeleteFile acc.2 (source ++ localsTf)
      else acc.2) = fs2 at h
    have hread := hloc fs2 hfs2.symm
    cases hR : RefactoringYml ext fs2 source acc.1 with
    | none => rw [hR] at h; cases h
    | some r =>
      rw [hR] at h
      have hw : r.1 = w := by simpa [WriteFile] using h
      unfold RefactoringYml at hR
      cases hS : reshape acc.1 with
      | none => rw [hS] at hR; cases hR
      | some t =>
        rw [hS] at hR
        simp only at hR
        cases hP : PrepareNewYmlFromOld ext fs2 source ("  template:".toList ++ t) with
        | none => rw [hP] at hR; cases hR
        | some d =>
          obtain ⟨doc, fs3⟩ := d
          rw [hP] at hR
          simp only [Option.some.injEq] at hR
          unfold PrepareNewYmlFromOld at hP
          cases hA : AddTfVars ext fs2 source ("  template:".toList ++ t) with
          | none => rw [hA] at hP; cases hP
          | some a =>
            obtain ⟨block, fsA⟩ := a
            rw [hA] at hP
            simp only at hP
            have hA2 := addTfVars_keeps ext fs2 source _ (source ++ terrahubYml)
              (path_ne_of_last _ _ _ _ 's' 'l' (by decide) (by decide) (by decide)) _ hA
            simp only at hA2
            rw [hread] at hA2
            have hpre : "  template:".toList <+: block :=
              (List.prefix_append _ t).trans (addTfVars_starts ext fs2 source _ _ hA)
            refine ⟨block, doc, hpre, by rw [← hw, ← hR], ?_, ?_⟩
            · intro old hold
              rw [hA2, hold] at hP
              simp only [Option.some.injEq, Prod.mk.injEq] at hP
              exact hP.1.symm
            · intro hnone
              rw [hA2, hnone] at hP
              simp only at hP
              split at hP
              · cases hP
              · cases hg : (splitSlash source).get? ((splitSlash source).length - 2) with
                | none => rw [hg] at hP; cases hP
                | some name =>
                  rw [hg] at hP
                  simp only [Option.some.injEq, Prod.mk.injEq] at hP
                  exact ⟨name, hP.1.symm⟩

/-- Witness of C15: a run from `infra/vpc/` to `out/vpc/` with a document in
either directory; the document written is the one of the source with the
block spliced in. -/
theorem parsingTfFile_merges_source_document_witness :
    (ParsingTfFile regionCollaborators bothDocuments [⟨"main.tf".toList, false⟩] sampleSource
        otherDestination).bind (fun f => f (otherDestination ++ terrahubYml)) =
      some "a: 1\n  template:\n    region: eu\n\nb: 2\n\n".toList ∧
    ((∃ block doc, "  template:".toList <+: block ∧
        "a: 1\n  template:\n    region: eu\n\nb: 2\n\n".toList = collapseEmptyObj doc ++ ['\n'] ∧
        (∀ old, bothDocuments (sampleSource ++ terrahubYml) = some old →
          doc = spliceOld old block) ∧
        (bothDocuments (sampleSource ++ terrahubYml) = none →
          ∃ name, doc = scaffoldHeader name ++ block)) ∧
      (sampleSource ≠ otherDestination → ∀ x,
        (ParsingTfFile regionCollaborators
          (overrideFile bothDocuments (otherDestination ++ terrahubYml) x)
          [⟨"main.tf".toList, false⟩] sampleSource otherDestination).bind
            (fun f => f (otherDestination ++ terrahubYml)) =
          some "a: 1\n  template:\n    region: eu\n\nb: 2\n\n".toList)) :=
  ⟨by decide,
    parsingTfFile_merges_source_document regionCollaborators bothDocuments
      [⟨"main.tf".toList, false⟩] sampleSource otherDestination _ (by decide)⟩

/-- Counterexample to C15 as stated: source `infra/vpc/`, destination
`out/vpc/`, and a document `keep: me` at the destination only.  The document
written to the destination is a fresh scaffold, and the prior content of the
destination document is not in it. -/
theorem parsingTfFile_merges_source_document_counterexample :
    splitFiles (otherDestination ++ terrahubYml) = some "keep: me\n\n".toList ∧
    ((ParsingTfFile regionCollaborators splitFiles [⟨"main.tf".toList, false⟩] sampleSource
        otherDestination).bind (fun fs => fs (otherDestination ++ terrahubYml))) =
      some ("## local config\ncomponent:\n  name: 'vpc'\n  template:\n    region: eu\n" ++
        "    tfvars:\n      region: eu\n").toList ∧
    ¬ "keep: me".toList <:+: ("## local config\ncomponent:\n  name: 'vpc'\n" ++
        "  template:\n    region: eu\n    tfvars:\n      region: eu\n").toList :=
  ⟨by decide, by decide, by rw [← containsText_iff]; decide⟩

/-- C16 at a failing input: source `infra/vpc/` and destination `out/vpc/`
differ; the source file `main.tf` is still there after the run, the defaults
file is not. -/
theorem parsingTfFile_deletes_defaults :
    sampleSource ≠ otherDestination ∧
    (splitFiles (sampleSource ++ defaultTfvars)).isSome = true ∧
    ((ParsingTfFile regionCollaborators splitFiles [⟨"main.tf".toList, false⟩] sampleSource
        otherDestination).map (fun fs => fs (sampleSource ++ "main.tf".toList))) =
      some (some "region = \"eu\"".toList) ∧
    ((ParsingTfFile regionCollaborators splitFiles [⟨"main.tf".toList, false⟩] sampleSource
        otherDestination).map (fun fs => fs (sampleSource ++ defaultTfvars))) =
      some none := by
  refine ⟨by decide, by decide, by decide, by decide⟩

/-- C18 at a failing input: a sub-directory named `db`.  The slice of the
eligibility test is out of range and the run panics. -/
theorem parsingTfFile_short_name :
    eligible ⟨"db".toList, true⟩ = none ∧
    (ParsingTfFile noCollaborators noFiles [⟨"db".toList, true⟩] sampleSource
      sampleSource).isNone = true := by
  constructor <;> decide

/-! ## Safety of the scan and of the write-back -/

theorem groupLength_cons (k : String) (x : Json) (rest : Tree) (g : String) :
    groupLength ((k, x) :: rest) g =
      if k = g then (match x with | .arr xs => some xs.length | _ => none)
      else groupLength rest g := by
  unfold groupLength
  simp only [lookupKey]
  by_cases hk : k = g
  · simp only [hk, if_true]
    cases x <;> rfl
  · simp only [hk, if_false]

theorem setSlot_groupLength (t : Tree) (g : String) (i : Nat) (v : Json) :
    ∀ t1, setSlot t g i v = some t1 → ∀ g1, groupLength t1 g1 = groupLength t g1 := by
  induction t with
  | nil => intro t1 h; simp [setSlot] at h
  | cons kv rest ih =>
    obtain ⟨k, x⟩ := kv
    intro t1 h g1
    simp only [setSlot] at h
    by_cases hk : k = g
    · simp only [hk, if_true] at h
      cases x with
      | arr xs =>
        simp only at h
        split at h
        · cases h
          subst hk
          rw [groupLength_cons, groupLength_cons]
          by_cases hg : k = g1
          · simp [hg]
          · simp [hg]
        · cases h
      | null => cases h
      | bool b => cases h
      | num n => cases h
      | str s => cases h
      | obj kvs => cases h
    · simp only [hk, if_false] at h
      cases hr : setSlot rest g i v with
      | none => rw [hr] at h; cases h
      | some r =>
        rw [hr] at h
        cases h
        rw [groupLength_cons, groupLength_cons]
        by_cases hg : k = g1
        · simp [hg]
        · simp only [hg, if_false]
          exact ih r hr g1

theorem scan_groupLength :
    ∀ (vs : List Visit) (st st1 : NormState), vs.foldlM visitStep st = some st1 →
      ∀ g, groupLength st1.m g = groupLength st.m g := by
  intro vs
  induction vs with
  | nil => intro st st1 h g; cases h; rfl
  | cons x vs ih =>
    intro st st1 h g
    obtain ⟨s, hs, hrest⟩ := (foldlM_cons_some _ _ _ _ _).mp h
    rw [ih s st1 hrest g]
    rcases visitStep_tree st x s hs with h1 | ⟨_, h1⟩
    · rw [h1]
    · exact setSlot_groupLength st.m x.1 x.2.1 .null s.m h1 g

theorem writeBack_total :
    ∀ (es : List Element) (t : Tree),
      (∀ e ∈ es, getSlot t e.GK e.SK = some .null ∨
        ∃ fs, getSlot t e.GK e.SK = some (.obj fs)) →
      ∃ t1, es.foldlM writeBack t = some t1 := by
  intro es
  induction es with
  | nil => intro t _; exact ⟨t, rfl⟩
  | cons e es ih =>
    intro t hslots
    have hslots' := fun e1 (h1 : e1 ∈ es) => hslots e1 (List.mem_cons_of_mem _ h1)
    rcases hslots e (List.mem_cons_self _ _) with hnull | ⟨fs0, hobj⟩
    · have hwb : writeBack t e = some t := by simp [writeBack, hnull]
      obtain ⟨t1, ht1⟩ := ih t hslots'
      exact ⟨t1, (foldlM_cons_some _ _ _ _ _).mpr ⟨t, hwb, ht1⟩⟩
    · have hsome : (getSlot t e.GK e.SK).isSome = true := by rw [hobj]; rfl
      obtain ⟨t0, ht0⟩ := setSlot_isSome t e.GK e.SK
        (.obj (setField fs0 e.EK (.arr e.Elements))) hsome
      have hwb : writeBack t e = some t0 := by simp [writeBack, hobj, ht0]
      have hget := getSlot_setSlot t e.GK e.SK _ t0 ht0
      have hslots0 : ∀ e1 ∈ es, getSlot t0 e1.GK e1.SK = some .null ∨
          ∃ fs, getSlot t0 e1.GK e1.SK = some (.obj fs) := by
        intro e1 h1
        rw [hget]
        split
        · exact Or.inr ⟨_, rfl⟩
        · exact hslots' e1 h1
      obtain ⟨t1, ht1⟩ := ih t0 hslots0
      exact ⟨t1, (foldlM_cons_some _ _ _ _ _).mpr ⟨t0, hwb, ht1⟩⟩

/-- C17: for every tree the scan returns, it leaves the length of every
top-level array unchanged, and after it the slot of every accumulated element
is a valid index that holds null or the mapping that the input has there; the
write-back loop then returns a tree, without an index out of range and without
a failed type assertion. -/
theorem normalizeTree_safe (m : Tree) (hkeys : (m.map Prod.fst).Nodup) :
    ∃ st, CheckElementByType m [] = some st ∧
      (∀ g, groupLength st.m g = groupLength m g) ∧
      (∀ e ∈ st.uniqKeys, getSlot st.m e.GK e.SK = some .null ∨
        ∃ fs, getSlot st.m e.GK e.SK = some (.obj fs) ∧
          getSlot m e.GK e.SK = some (.obj fs)) ∧
      ∃ m1, st.uniqKeys.foldlM writeBack st.m = some m1 ∧ normalizeTree m = some m1 := by
  have hvalid : ∀ x ∈ fieldVisits m, ∃ fs, getSlot m x.1 x.2.1 = some (.obj fs) := by
    intro x hx
    obtain ⟨fs, h1, _⟩ := mem_fieldVisits_slot m hkeys x hx
    exact ⟨fs, h1⟩
  obtain ⟨st, hscan, hev, hent⟩ :=
    scan_total m (fieldVisits m) ⟨m, []⟩ hvalid (evolves_refl m) (by simp)
  have hslots : ∀ e ∈ st.uniqKeys, getSlot st.m e.GK e.SK = some .null ∨
      ∃ fs, getSlot st.m e.GK e.SK = some (.obj fs) ∧
        getSlot m e.GK e.SK = some (.obj fs) := by
    intro e he
    obtain ⟨fs, hfs⟩ := hent e he
    rcases hev e.GK e.SK with h1 | h1
    · exact Or.inr ⟨fs, by rw [h1, hfs], hfs⟩
    · exact Or.inl h1.1
  obtain ⟨m1, hm1⟩ := writeBack_total st.uniqKeys st.m (by
    intro e he
    rcases hslots e he with h1 | ⟨fs, h1, _⟩
    · exact Or.inl h1
    · exact Or.inr ⟨fs, h1⟩)
  refine ⟨st, ?_, ?_, hslots, m1, hm1, ?_⟩
  · rw [checkElementByType_eq_scan]; exact hscan
  · intro g
    exact scan_groupLength (fieldVisits m) ⟨m, []⟩ st hscan g
  · unfold normalizeTree
    rw [checkElementByType_eq_scan, hscan]
    exact hm1

/-- Witness of C17: a tree with two groups, an absorbed slot that holds the
first occurrence of another key, and a slot that is not a mapping. -/
theorem normalizeTree_safe_witness :
    (mixedTree.map Prod.fst).Nodup ∧
    ∃ st, CheckElementByType mixedTree [] = some st ∧
      (∀ g, groupLength st.m g = groupLength mixedTree g) ∧
      (∀ e ∈ st.uniqKeys, getSlot st.m e.GK e.SK = some .null ∨
        ∃ fs, getSlot st.m e.GK e.SK = some (.obj fs) ∧
          getSlot mixedTree e.GK e.SK = some (.obj fs)) ∧
      ∃ m1, st.uniqKeys.foldlM writeBack st.m = some m1 ∧ normalizeTree mixedTree = some m1 :=
  ⟨by decide, normalizeTree_safe mixedTree (by decide)⟩

/-! ## Trees whose slots have at most one sequence-valued field -/

theorem occurrences_slotVisits (K g : String) (i : Nat) (fs : List (String × Json)) :
    occurrences K (slotVisits g (i, .obj fs)) =
      (fs.filter (fun f => f.2.isArr)).filterMap
        (fun f => if f.1 = K then some (g, i, f.2) else none) := by
  induction fs with
  | nil => rfl
  | cons f fs ih =>
    have e : slotVisits g (i, .obj (f :: fs)) =
        (g, i, f.1, f.2) :: slotVisits g (i, .obj fs) := rfl
    rw [e, occurrences_cons, ih]
    by_cases ha : f.2.isArr = true
    · by_cases hk : f.1 = K
      · simp [List.filter_cons, hk, ha]
      · simp [List.filter_cons, hk, ha]
    · have ha2 : f.2.isArr = false := by simpa using ha
      simp [List.filter_cons, ha2]

/-- C19: on a tree in which every slot mapping has at most one sequence-valued
field, the slot of the first occurrence of a candidate key `K` is a mapping
after normalization, and every sequence that the input holds under `K` is an
element of the sequence stored under `K` in that slot. -/
theorem normalizeTree_keeps_sequences (m : Tree) (K g : String) (i : Nat) (v : Json)
    (hkeys : (m.map Prod.fst).Nodup)
    (hone : ∀ g1 i1 fs, getSlot m g1 i1 = some (.obj fs) →
      (fs.filter (fun f => f.2.isArr)).length ≤ 1)
    (hv : (g, i, v) ∈ occurrences K (fieldVisits m)) :
    ∃ m1 g0 i0 v0 rest fs, normalizeTree m = some m1 ∧
      occurrences K (fieldVisits m) = (g0, i0, v0) :: rest ∧
      getSlot m1 g0 i0 = some (.obj fs) ∧
      lookupKey fs K = some (.arr (v0 :: rest.map (fun o => o.2.2))) ∧
      v ∈ v0 :: rest.map (fun o => o.2.2) := by
  cases hocc : occurrences K (fieldVisits m) with
  | nil => rw [hocc] at hv; simp at hv
  | cons o rest =>
    obtain ⟨g0, i0, v0⟩ := o
    have hhead : (g0, i0, v0) ∈ occurrences K (fieldVisits m) := by
      rw [hocc]; exact List.mem_cons_self _ _
    rw [mem_occurrences] at hhead
    obtain ⟨fs0, hslot, hmem⟩ := mem_fieldVisits_slot m hkeys _ hhead.1
    simp only at hslot hmem
    -- the only sequence-valued field of the slot is `K`
    have hfilt : fs0.filter (fun f => f.2.isArr) = [(K, v0)] := by
      have hin : (K, v0) ∈ fs0.filter (fun f => f.2.isArr) :=
        List.mem_filter.mpr ⟨hmem, hhead.2⟩
      have hl := hone g0 i0 fs0 hslot
      cases hf : fs0.filter (fun f => f.2.isArr) with
      | nil => rw [hf] at hin; simp at hin
      | cons a l =>
        rw [hf] at hin hl
        cases l with
        | nil => rw [List.mem_singleton.mp hin]
        | cons b l => simp at hl
    have honly : ∀ k w, (k, w) ∈ fs0 → w.isArr = true → k = K := by
      intro k w hkw hw
      have : (k, w) ∈ fs0.filter (fun f => f.2.isArr) := List.mem_filter.mpr ⟨hkw, hw⟩
      rw [hfilt] at this
      simp only [List.mem_singleton, Prod.mk.injEq] at this
      exact this.1
    have hseg : occurrences K (slotVisits g0 (i0, .obj fs0)) = [(g0, i0, v0)] := by
      rw [occurrences_slotVisits, hfilt]
      simp
    obtain ⟨m1, h1, ⟨fs, h2, h3⟩, _⟩ :=
      normalizeTree_core m K g0 i0 fs0 v0 rest hkeys hslot honly hseg hocc
    refine ⟨m1, g0, i0, v0, rest, fs, h1, rfl, h2, h3, ?_⟩
    rw [hocc] at hv
    rcases List.mem_cons.mp hv with h4 | h4
    · simp only [Prod.mk.injEq] at h4
      rw [h4.2.2]
      exact List.mem_cons_self _ _
    · exact List.mem_cons_of_mem _ (List.mem_map.mpr ⟨_, h4, rfl⟩)

/-- Witness of C19: the second sequence of the tree with two slots that share
the key `K`. -/
theorem normalizeTree_keeps_sequences_witness :
    (twoSlots.map Prod.fst).Nodup ∧
    (∀ g1 i1 fs, getSlot twoSlots g1 i1 = some (.obj fs) →
      (fs.filter (fun f => f.2.isArr)).length ≤ 1) ∧
    (("r", 1, Json.arr [.num 3]) : String × Nat × Json) ∈
      occurrences "K" (fieldVisits twoSlots) ∧
    ∃ m1 g0 i0 v0 rest fs, normalizeTree twoSlots = some m1 ∧
      occurrences "K" (fieldVisits twoSlots) = (g0, i0, v0) :: rest ∧
      getSlot m1 g0 i0 = some (.obj fs) ∧
      lookupKey fs "K" = some (.arr (v0 :: rest.map (fun o => o.2.2))) ∧
      Json.arr [.num 3] ∈ v0 :: rest.map (fun o => o.2.2) := by
  have hone : ∀ g1 i1 fs, getSlot twoSlots g1 i1 = some (.obj fs) →
      (fs.filter (fun f => f.2.isArr)).length ≤ 1 := by
    intro g1 i1 fs h
    rw [twoSlots, getSlot_cons] at h
    split at h
    · match i1 with
      | 0 => simp at h; rw [← h]; decide
      | 1 => simp at h; rw [← h]; decide
      | n + 2 => simp at h
    · simp [getSlot, lookupKey] at h
  have hmem : (("r", 1, Json.arr [.num 3]) : String × Nat × Json) ∈
      occurrences "K" (fieldVisits twoSlots) := by
    have : occurrences "K" (fieldVisits twoSlots) =
        [("r", 0, .arr [.num 1, .num 2]), ("r", 1, .arr [.num 3])] := rfl
    rw [this]
    simp
  exact ⟨by decide, hone, hmem,
    normalizeTree_keeps_sequences twoSlots "K" "r" 1 _ (by decide) hone hmem⟩

/-! ## The occurrences of a key in a well-formed tree -/

theorem lookupKey_of_mem_nodup (fs : List (String × Json)) (h : (fs.map Prod.fst).Nodup)
    (k : String) (v : Json) (hm : (k, v) ∈ fs) : lookupKey fs k = some v := by
  induction fs with
  | nil => simp at hm
  | cons kv rest ih =>
    obtain ⟨k1, x⟩ := kv
    simp only [List.map_cons, List.nodup_cons] at h
    simp only [lookupKey]
    rcases List.mem_cons.mp hm with h1 | h1
    · simp only [Prod.mk.injEq] at h1
      rw [if_pos h1.1.symm, h1.2]
    · have hne : ¬ k1 = k := by
        intro e
        apply h.1
        rw [e]
        exact List.mem_map_of_mem Prod.fst h1
      rw [if_neg hne]
      exact ih h.2 h1

theorem getSlot_key_mem (m : Tree) (g : String) (i : Nat) (x : Json)
    (h : getSlot m g i = some x) : g ∈ m.map Prod.fst := by
  unfold getSlot at h
  cases hl : lookupKey m g with
  | none => rw [hl] at h; cases h
  | some y =>
    exact List.mem_map_of_mem Prod.fst (mem_of_lookupKey m g y hl)

theorem wellFormed_tail (kv : String × Json) (rest : Tree) (h : WellFormed (kv :: rest)) :
    WellFormed rest := by
  obtain ⟨k, x⟩ := kv
  obtain ⟨h1, h2⟩ := h
  simp only [List.map_cons, List.nodup_cons] at h1
  refine ⟨h1.2, ?_⟩
  intro g i fs hg
  apply h2 g i fs
  have hne : ¬ k = g := by
    intro e
    apply h1.1
    rw [e]
    exact getSlot_key_mem rest g i _ hg
  rw [getSlot_cons, if_neg hne]
  exact hg

theorem mem_occurrences_iff (m : Tree) (hwf : WellFormed m) (K g : String) (i : Nat)
    (v : Json) :
    (g, i, v) ∈ occurrences K (fieldVisits m) ↔
      ∃ fs, getSlot m g i = some (.obj fs) ∧ lookupKey fs K = some v ∧ v.isArr = true := by
  rw [mem_occurrences]
  constructor
  · rintro ⟨h1, h2⟩
    obtain ⟨fs, h3, h4⟩ := mem_fieldVisits_slot m hwf.1 _ h1
    exact ⟨fs, h3, lookupKey_of_mem_nodup fs (hwf.2 g i fs h3) K v h4, h2⟩
  · rintro ⟨fs, h1, h2, h3⟩
    exact ⟨slot_mem_fieldVisits m hwf.1 g i fs h1 K v (mem_of_lookupKey fs K v h2), h3⟩

theorem occurrences_slot_length (K g : String) (i : Nat) (fs : List (String × Json))
    (h : (fs.map Prod.fst).Nodup) :
    (occurrences K (slotVisits g (i, .obj fs))).length ≤ 1 := by
  induction fs with
  | nil => simp [slotVisits, occurrences]
  | cons f fs ih =>
    simp only [List.map_cons, List.nodup_cons] at h
    have e : slotVisits g (i, .obj (f :: fs)) =
        (g, i, f.1, f.2) :: slotVisits g (i, .obj fs) := rfl
    rw [e, occurrences_cons]
    by_cases hx : f.1 = K ∧ f.2.isArr = true
    · rw [if_pos hx]
      have hnil : occurrences K (slotVisits g (i, .obj fs)) = [] := by
        rw [List.eq_nil_iff_forall_not_mem]
        intro o ho
        rw [mem_occurrences] at ho
        obtain ⟨_, _, fs1, h3, h4⟩ := mem_slotVisits g _ _ ho.1
        simp only [Json.obj.injEq] at h3
        subst h3
        apply h.1
        rw [hx.1]
        exact List.mem_map_of_mem Prod.fst h4
      rw [hnil]
      simp
    · rw [if_neg hx]
      exact ih h.2

theorem pairwise_of_length_le_one {α : Type} (R : α → α → Prop) (l : List α)
    (h : l.length ≤ 1) : l.Pairwise R := by
  cases l with
  | nil => exact List.Pairwise.nil
  | cons a t =>
    cases t with
    | nil => simp
    | cons b t => simp at h

theorem occurrences_enumFrom_pairwise (K g : String) :
    ∀ (xs : List Json) (n : Nat),
      (∀ i fs, xs.get? i = some (.obj fs) → (fs.map Prod.fst).Nodup) →
      List.Pairwise (fun a b : String × Nat × Json => a.2.1 < b.2.1)
        (occurrences K ((xs.enumFrom n).flatMap (slotVisits g))) := by
  intro xs
  induction xs with
  | nil => intro n _; simp [occurrences]
  | cons a xs ih =>
    intro n h
    rw [List.enumFrom_cons, List.flatMap_cons, occurrences_append, List.pairwise_append]
    refine ⟨?_, ih (n + 1) (fun i fs hi => h (i + 1) fs (by simpa using hi)), ?_⟩
    · apply pairwise_of_length_le_one
      cases a with
      | obj fs => exact occurrences_slot_length K g n fs (h 0 fs (by simp))
      | null => simp [slotVisits, occurrences]
      | bool b => simp [slotVisits, occurrences]
      | num k => simp [slotVisits, occurrences]
      | str s => simp [slotVisits, occurrences]
      | arr ys => simp [slotVisits, occurrences]
    · intro o ho o1 ho1
      rw [mem_occurrences] at ho ho1
      have h1 := (mem_slotVisits g _ _ ho.1).2.1
      have h2 := (mem_enumFrom_visits g xs (n + 1) _ ho1.1).2.1
      simp only at h1 h2
      omega

theorem occurrences_pairwise (K : String) (m : Tree) (hwf : WellFormed m) :
    List.Pairwise (fun a b : String × Nat × Json => a.1 = b.1 → a.2.1 < b.2.1)
      (occurrences K (fieldVisits m)) := by
  induction m with
  | nil => simp [fieldVisits, occurrences]
  | cons kv rest ih =>
    have hwf2 := wellFormed_tail kv rest hwf
    obtain ⟨k, x⟩ := kv
    have e : fieldVisits ((k, x) :: rest) = groupVisits (k, x) ++ fieldVisits rest := by
      simp [fieldVisits]
    rw [e, occurrences_append, List.pairwise_append]
    refine ⟨?_, ih hwf2, ?_⟩
    · cases x with
      | arr xs =>
        have hxs : ∀ i fs, xs.get? i = some (.obj fs) → (fs.map Prod.fst).Nodup := by
          intro i fs hi
          apply hwf.2 k i fs
          rw [getSlot_cons, if_pos rfl]
          exact hi
        have := occurrences_enumFrom_pairwise K k xs 0 hxs
        simp only [groupVisits, List.enum_eq_enumFrom]
        exact List.Pairwise.imp (fun {a b} (h : a.2.1 < b.2.1) (_ : a.1 = b.1) => h) this
      | null => simp [groupVisits, occurrences]
      | bool b => simp [groupVisits, occurrences]
      | num n => simp [groupVisits, occurrences]
      | str s => simp [groupVisits, occurrences]
      | obj kvs => simp [groupVisits, occurrences]
    · intro o ho o1 ho1 heq
      exfalso
      rw [mem_occurrences] at ho ho1
      have h1 := (mem_groupVisits (k, x) _ ho.1).1
      have h2 := mem_fieldVisits_key rest _ ho1.1
      simp only at h1 h2
      have hn := hwf.1
      simp only [List.map_cons, List.nodup_cons] at hn
      apply hn.1
      rw [← h1, heq]
      exact h2

/-- When no candidate key occurs in two groups, the occurrences of a key are
met in the order of their slot indices. -/
theorem occurrences_sorted (K : String) (m : Tree) (hwf : WellFormed m)
    (hone : OneGroupPerKey m) :
    List.Pairwise (fun a b : String × Nat × Json => a.2.1 < b.2.1)
      (occurrences K (fieldVisits m)) := by
  apply (occurrences_pairwise K m hwf).imp_of_mem
  intro a b ha hb hab
  obtain ⟨g1, i1, v1⟩ := a
  obtain ⟨g2, i2, v2⟩ := b
  obtain ⟨fs1, h1, h2, h3⟩ := (mem_occurrences_iff m hwf K g1 i1 v1).mp ha
  obtain ⟨fs2, h4, h5, h6⟩ := (mem_occurrences_iff m hwf K g2 i2 v2).mp hb
  exact hab (hone K g1 i1 fs1 v1 g2 i2 fs2 v2 h1 h2 h3 h4 h5 h6)

/-! ## Two visiting orders meet the occurrences of a key in the same order -/

theorem sameSlot_symm (a b : Option Json) (h : SameSlot a b) : SameSlot b a := by
  rcases h with h | ⟨fs1, fs2, h1, h2, h3⟩
  · exact Or.inl h.symm
  · exact Or.inr ⟨fs2, fs1, h2, h1, fun k => (h3 k).symm⟩

theorem sameTree_symm (m1 m2 : Tree) (h : SameTree m1 m2) : SameTree m2 m1 := by
  obtain ⟨h1, h2, h3⟩ := h
  refine ⟨fun g => (h1 g).symm, ?_, fun g i => sameSlot_symm _ _ (h3 g i)⟩
  intro g hg
  rw [← h1 g] at hg
  exact (h2 g hg).symm

theorem sameTree_slot (m1 m2 : Tree) (h : SameTree m1 m2) (g : String) (i : Nat)
    (fs1 : List (String × Json)) (h1 : getSlot m1 g i = some (.obj fs1)) :
    ∃ fs2, getSlot m2 g i = some (.obj fs2) ∧ ∀ k, lookupKey fs1 k = lookupKey fs2 k := by
  rcases h.2.2 g i with h2 | ⟨fs, fs2, h2, h3, h4⟩
  · exact ⟨fs1, by rw [← h2, h1], fun _ => rfl⟩
  · rw [h1] at h2
    simp only [Option.some.injEq, Json.obj.injEq] at h2
    subst h2
    exact ⟨fs2, h3, h4⟩

theorem occurrences_mem_same (m1 m2 : Tree) (hwf1 : WellFormed m1) (hwf2 : WellFormed m2)
    (h : SameTree m1 m2) (K : String) (o : String × Nat × Json)
    (ho : o ∈ occurrences K (fieldVisits m1)) : o ∈ occurrences K (fieldVisits m2) := by
  obtain ⟨g, i, v⟩ := o
  obtain ⟨fs1, h1, h2, h3⟩ := (mem_occurrences_iff m1 hwf1 K g i v).mp ho
  obtain ⟨fs2, h4, h5⟩ := sameTree_slot m1 m2 h g i fs1 h1
  exact (mem_occurrences_iff m2 hwf2 K g i v).mpr ⟨fs2, h4, by rw [← h5, h2], h3⟩

theorem oneGroupPerKey_same (m1 m2 : Tree) (h : SameTree m1 m2) (hone : OneGroupPerKey m1) :
    OneGroupPerKey m2 := by
  intro K g1 i1 fs1 v1 g2 i2 fs2 v2 h1 h2 h3 h4 h5 h6
  have hs := sameTree_symm m1 m2 h
  obtain ⟨fa, ha1, ha2⟩ := sameTree_slot m2 m1 hs g1 i1 fs1 h1
  obtain ⟨fb, hb1, hb2⟩ := sameTree_slot m2 m1 hs g2 i2 fs2 h4
  exact hone K g1 i1 fa v1 g2 i2 fb v2 ha1 (by rw [← ha2, h2]) h3 hb1 (by rw [← hb2, h5]) h6

theorem eq_of_sorted_of_mem_iff (l1 l2 : List (String × Nat × Json))
    (h1 : l1.Pairwise (fun a b => a.2.1 < b.2.1)) (h2 : l2.Pairwise (fun a b => a.2.1 < b.2.1))
    (hmem : ∀ o, o ∈ l1 ↔ o ∈ l2) : l1 = l2 := by
  have hn : ∀ l : List (String × Nat × Json), l.Pairwise (fun a b => a.2.1 < b.2.1) →
      l.Nodup := by
    intro l hl
    apply List.Pairwise.imp _ hl
    intro a b hab e
    rw [e] at hab
    exact Nat.lt_irrefl _ hab
  haveI : IsAntisymm (String × Nat × Json) (fun a b => a.2.1 < b.2.1) :=
    ⟨fun a b hab hba => absurd hab (Nat.lt_asymm hba)⟩
  exact List.eq_of_perm_of_sorted
    ((List.perm_ext_iff_of_nodup (hn l1 h1) (hn l2 h2)).mpr hmem) h1 h2

/-- Two visiting orders of a tree in which no candidate key occurs in two
groups meet the occurrences of each key in the same order. -/
theorem occurrences_same (m1 m2 : Tree) (hwf1 : WellFormed m1) (hwf2 : WellFormed m2)
    (h : SameTree m1 m2) (hone : OneGroupPerKey m1) (K : String) :
    occurrences K (fieldVisits m1) = occurrences K (fieldVisits m2) := by
  apply eq_of_sorted_of_mem_iff
  · exact occurrences_sorted K m1 hwf1 hone
  · exact occurrences_sorted K m2 hwf2 (oneGroupPerKey_same m1 m2 h hone)
  · intro o
    exact ⟨occurrences_mem_same m1 m2 hwf1 hwf2 h K o,
      occurrences_mem_same m2 m1 hwf2 hwf1 (sameTree_symm m1 m2 h) K o⟩

/-! ## The state of the scan, key by key and slot by slot -/

/-- After the scan of `vs` from a state with no element for `K`: no element for
`K` when `K` does not occur, and otherwise one element, at the slot of the
first occurrence, with the sequences of all occurrences; the slots of the
later occurrences are null. -/
theorem scan_entries (K : String) :
    ∀ (vs : List Visit) (st st1 : NormState), vs.foldlM visitStep st = some st1 →
      entriesFor K st.uniqKeys = [] →
      (occurrences K vs = [] ∧ entriesFor K st1.uniqKeys = []) ∨
      ∃ o rest, occurrences K vs = o :: rest ∧
        entriesFor K st1.uniqKeys =
          [⟨o.1, o.2.1, K, o.2.2 :: rest.map (fun o => o.2.2)⟩] ∧
        ∀ o1 ∈ rest, getSlot st1.m o1.1 o1.2.1 = some .null := by
  intro vs
  induction vs with
  | nil =>
    intro st st1 h he
    cases h
    exact Or.inl ⟨rfl, he⟩
  | cons x vs ih =>
    intro st st1 h he
    obtain ⟨s, hs, hrest⟩ := (foldlM_cons_some _ _ _ _ _).mp h
    rw [occurrences_cons]
    by_cases hx : x.2.2.1 = K ∧ x.2.2.2.isArr = true
    · rw [if_pos hx]
      right
      have hc : Contains st.uniqKeys x.2.2.1 = false := by
        rw [hx.1, contains_eq_false_iff]; exact he
      rcases visitStep_cases st x s hs with h1 | h1 | h1
      · rw [hx.2] at h1; cases h1.1
      · have hs1 : entriesFor K s.uniqKeys = [⟨x.1, x.2.1, K, [x.2.2.2]⟩] := by
          rw [h1.2.2]
          simp only [entriesFor_append, he, List.nil_append]
          simp [entriesFor, hx.1]
        obtain ⟨h2, h3⟩ := scan_entries_grow K vs s st1 _ hrest hs1
        exact ⟨_, _, rfl, by rw [h2]; rfl, h3⟩
      · rw [hc] at h1; cases h1.2.1
    · rw [if_neg hx]
      apply ih s st1 hrest
      rw [visitStep_entries_other K st x s hs hx, he]

/-- A slot keeps its value through the scan when every sequence-valued field
met at it is the first occurrence of its key. -/
theorem scan_slot_keep (g : String) (i : Nat) :
    ∀ (vs : List Visit) (st st1 : NormState), vs.foldlM visitStep st = some st1 →
      (∀ A x B, vs = A ++ x :: B → x.1 = g → x.2.1 = i → x.2.2.2.isArr = true →
        Contains st.uniqKeys x.2.2.1 = false ∧ occurrences x.2.2.1 A = []) →
      getSlot st1.m g i = getSlot st.m g i := by
  intro vs
  induction vs with
  | nil => intro st st1 h _; cases h; rfl
  | cons x vs ih =>
    intro st st1 h hyp
    obtain ⟨s, hs, hrest⟩ := (foldlM_cons_some _ _ _ _ _).mp h
    have hyp2 : ∀ A y B, vs = A ++ y :: B → y.1 = g → y.2.1 = i → y.2.2.2.isArr = true →
        Contains s.uniqKeys y.2.2.1 = false ∧ occurrences y.2.2.1 A = [] := by
      intro A y B hvs hg hi ha
      obtain ⟨h1, h2⟩ := hyp (x :: A) y B (by rw [hvs]; rfl) hg hi ha
      rw [occurrences_cons] at h2
      by_cases hx : x.2.2.1 = y.2.2.1 ∧ x.2.2.2.isArr = true
      · rw [if_pos hx] at h2; cases h2
      · rw [if_neg hx] at h2
        refine ⟨?_, h2⟩
        rw [contains_eq_false_iff] at h1 ⊢
        rw [visitStep_entries_other _ st x s hs hx, h1]
    rw [ih s st1 hrest hyp2]
    rcases visitStep_cases st x s hs with h1 | h1 | h1
    · rw [h1.2]
    · rw [h1.2.2]
    · rw [getSlot_setSlot st.m x.1 x.2.1 .null s.m h1.2.2.2 g i]
      by_cases hgi : g = x.1 ∧ i = x.2.1
      · exfalso
        have := (hyp [] x vs rfl hgi.1.symm hgi.2.symm h1.1).1
        rw [h1.2.1] at this
        cases this
      · rw [if_neg hgi]

theorem scan_keeps_slot (m : Tree) (hwf : WellFormed m)
    (hsorted : ∀ K, List.Pairwise (fun a b : String × Nat × Json => a.2.1 < b.2.1)
      (occurrences K (fieldVisits m)))
    (st : NormState) (hscan : (fieldVisits m).foldlM visitStep ⟨m, []⟩ = some st)
    (g : String) (i : Nat) (fs : List (String × Json))
    (hslot : getSlot m g i = some (.obj fs))
    (hfirst : ∀ k v, (k, v) ∈ fs → v.isArr = true →
      (occurrences k (fieldVisits m)).head? = some (g, i, v)) :
    getSlot st.m g i = some (.obj fs) := by
  rw [scan_slot_keep g i _ _ _ hscan, hslot]
  intro A x B hvs hg hi ha
  refine ⟨rfl, ?_⟩
  have hx : x ∈ fieldVisits m := by
    rw [hvs]; exact List.mem_append_right _ (List.mem_cons_self _ _)
  obtain ⟨fs1, h1, h2⟩ := mem_fieldVisits_slot m hwf.1 x hx
  rw [hg, hi, hslot] at h1
  simp only [Option.some.injEq, Json.obj.injEq] at h1
  subst h1
  have hhead := hfirst _ _ h2 ha
  have hs := hsorted x.2.2.1
  rw [hvs, occurrences_append, occurrences_cons, if_pos ⟨rfl, ha⟩] at hhead hs
  cases hA : occurrences x.2.2.1 A with
  | nil => rfl
  | cons o os =>
    exfalso
    rw [hA] at hhead hs
    simp only [List.cons_append, List.head?_cons, Option.some.injEq] at hhead
    simp only [List.cons_append, List.pairwise_cons] at hs
    have := hs.1 (x.1, x.2.1, x.2.2.2)
      (List.mem_append_right _ (List.mem_cons_self _ _))
    rw [hhead] at this
    simp only at this
    omega

theorem scan_nulls_slot (m : Tree) (hwf : WellFormed m)
    (st : NormState) (hscan : (fieldVisits m).foldlM visitStep ⟨m, []⟩ = some st)
    (g : String) (i : Nat) (fs : List (String × Json))
    (hslot : getSlot m g i = some (.obj fs)) (k : String) (v : Json)
    (hkv : (k, v) ∈ fs) (ha : v.isArr = true)
    (hnot : (occurrences k (fieldVisits m)).head? ≠ some (g, i, v)) :
    getSlot st.m g i = some .null := by
  have hmem : (g, i, v) ∈ occurrences k (fieldVisits m) := by
    rw [mem_occurrences]
    exact ⟨slot_mem_fieldVisits m hwf.1 g i fs hslot k v hkv, ha⟩
  rcases scan_entries k (fieldVisits m) ⟨m, []⟩ st hscan rfl with h1 | ⟨o, rest, h1, _, h3⟩
  · rw [h1.1] at hmem; simp at hmem
  · rw [h1] at hmem hnot
    rcases List.mem_cons.mp hmem with h4 | h4
    · exfalso
      apply hnot
      rw [h4]
      rfl
    · exact h3 _ h4

theorem scan_keeps_other (m : Tree) (hwf : WellFormed m)
    (st : NormState) (hscan : (fieldVisits m).foldlM visitStep ⟨m, []⟩ = some st)
    (g : String) (i : Nat) (hslot : ∀ fs, getSlot m g i ≠ some (.obj fs)) :
    getSlot st.m g i = getSlot m g i := by
  apply scan_slot_frame g i _ _ st hscan
  intro x hx hg hi
  exfalso
  obtain ⟨fs, h1, _⟩ := mem_fieldVisits_slot m hwf.1 x hx
  rw [hg, hi] at h1
  exact hslot fs h1

/-! ## What the passes leave alone -/

theorem setSlot_lookupKey (t : Tree) (g : String) (i : Nat) (v : Json) :
    ∀ t1, setSlot t g i v = some t1 →
      ∀ g1, groupLength t g1 = none → lookupKey t1 g1 = lookupKey t g1 := by
  induction t with
  | nil => intro t1 h; simp [setSlot] at h
  | cons kv rest ih =>
    obtain ⟨k, x⟩ := kv
    intro t1 h g1 hg1
    simp only [setSlot] at h
    rw [groupLength_cons] at hg1
    by_cases hk : k = g
    · simp only [hk, if_true] at h
      cases x with
      | arr xs =>
        simp only at h
        split at h
        · cases h
          subst hk
          by_cases hg : k = g1
          · simp [hg] at hg1
          · simp [lookupKey, hg]
        · cases h
      | null => cases h
      | bool b => cases h
      | num n => cases h
      | str s => cases h
      | obj kvs => cases h
    · simp only [hk, if_false] at h
      cases hr : setSlot rest g i v with
      | none => rw [hr] at h; cases h
      | some r =>
        rw [hr] at h
        cases h
        by_cases hg : k = g1
        · simp [lookupKey, hg]
        · simp only [hg, if_false] at hg1
          simp only [lookupKey, hg, if_false]
          exact ih r hr g1 hg1

theorem scan_lookupKey :
    ∀ (vs : List Visit) (st st1 : NormState), vs.foldlM visitStep st = some st1 →
      ∀ g, groupLength st.m g = none → lookupKey st1.m g = lookupKey st.m g := by
  intro vs
  induction vs with
  | nil => intro st st1 h g _; cases h; rfl
  | cons x vs ih =>
    intro st st1 h g hg
    obtain ⟨s, hs, hrest⟩ := (foldlM_cons_some _ _ _ _ _).mp h
    rcases visitStep_tree st x s hs with h1 | ⟨_, h1⟩
    · rw [ih s st1 hrest g (by rw [h1]; exact hg), h1]
    · rw [ih s st1 hrest g (by rw [setSlot_groupLength st.m _ _ _ s.m h1 g]; exact hg)]
      exact setSlot_lookupKey st.m _ _ _ s.m h1 g hg

theorem writeBack_cases (t : Tree) (e : Element) (t1 : Tree) (h : writeBack t e = some t1) :
    t1 = t ∨ ∃ fs, getSlot t e.GK e.SK = some (.obj fs) ∧
      setSlot t e.GK e.SK (.obj (setField fs e.EK (.arr e.Elements))) = some t1 := by
  unfold writeBack at h
  cases hs : getSlot t e.GK e.SK with
  | none => rw [hs] at h; cases h
  | some x =>
    rw [hs] at h
    cases x with
    | null => left; simp only [Option.some.injEq] at h; exact h.symm
    | obj fs => right; exact ⟨fs, rfl, h⟩
    | bool b => cases h
    | num n => cases h
    | str s => cases h
    | arr xs => cases h

/-- The write-back loop keeps the top-level shape of the tree and every slot
that is not a mapping. -/
theorem writeBack_frame :
    ∀ (es : List Element) (t t1 : Tree), es.foldlM writeBack t = some t1 →
      (∀ g, groupLength t1 g = groupLength t g) ∧
      (∀ g, groupLength t g = none → lookupKey t1 g = lookupKey t g) ∧
      ∀ g i, (∀ fs, getSlot t g i ≠ some (.obj fs)) → getSlot t1 g i = getSlot t g i := by
  intro es
  induction es with
  | nil =>
    intro t t1 h
    cases h
    exact ⟨fun _ => rfl, fun _ _ => rfl, fun _ _ _ => rfl⟩
  | cons e es ih =>
    intro t t1 h
    obtain ⟨s, hs, hrest⟩ := (foldlM_cons_some _ _ _ _ _).mp h
    obtain ⟨ih1, ih2, ih3⟩ := ih s t1 hrest
    rcases writeBack_cases t e s hs with h1 | ⟨fs0, h0, h1⟩
    · subst h1
      exact ⟨ih1, ih2, ih3⟩
    · have hlen := setSlot_groupLength t _ _ _ s h1
      refine ⟨fun g => by rw [ih1 g, hlen g], ?_, ?_⟩
      · intro g hg
        rw [ih2 g (by rw [hlen g]; exact hg)]
        exact setSlot_lookupKey t _ _ _ s h1 g hg
      · intro g i hgi
        have hget := getSlot_setSlot t _ _ _ s h1 g i
        have hne : ¬ (g = e.GK ∧ i = e.SK) := by
          intro hc
          apply hgi fs0
          rw [hc.1, hc.2]
          exact h0
        rw [if_neg hne] at hget
        rw [ih3 g i (by rw [hget]; exact hgi), hget]

/-! ## The normalized tree is well formed -/

theorem setSlot_keys (t : Tree) (g : String) (i : Nat) (v : Json) :
    ∀ t1, setSlot t g i v = some t1 → t1.map Prod.fst = t.map Prod.fst := by
  induction t with
  | nil => intro t1 h; simp [setSlot] at h
  | cons kv rest ih =>
    obtain ⟨k, x⟩ := kv
    intro t1 h
    simp only [setSlot] at h
    by_cases hk : k = g
    · simp only [hk, if_true] at h
      cases x with
      | arr xs =>
        simp only at h
        split at h
        · cases h; simp [hk]
        · cases h
      | null => cases h
      | bool b => cases h
      | num n => cases h
      | str s => cases h
      | obj kvs => cases h
    · simp only [hk, if_false] at h
      cases hr : setSlot rest g i v with
      | none => rw [hr] at h; cases h
      | some r =>
        rw [hr] at h
        cases h
        simp [ih r hr]

theorem setSlot_wellFormed (t : Tree) (g : String) (i : Nat) (v : Json) (t1 : Tree)
    (h : setSlot t g i v = some t1) (hwf : WellFormed t)
    (hv : ∀ fs, v = .obj fs → (fs.map Prod.fst).Nodup) : WellFormed t1 := by
  refine ⟨by rw [setSlot_keys t g i v t1 h]; exact hwf.1, ?_⟩
  intro g1 i1 fs hg
  rw [getSlot_setSlot t g i v t1 h g1 i1] at hg
  split at hg
  · simp only [Option.some.injEq] at hg
    exact hv fs hg
  · exact hwf.2 g1 i1 fs hg

theorem mem_setField_keys (fs : List (String × Json)) (k : String) (v : Json) (a : String)
    (h : a ∈ (setField fs k v).map Prod.fst) : a = k ∨ a ∈ fs.map Prod.fst := by
  induction fs with
  | nil =>
    simp only [setField, List.map_cons, List.map_nil, List.mem_singleton] at h
    exact Or.inl h
  | cons f rest ih =>
    obtain ⟨k1, x⟩ := f
    simp only [setField] at h
    by_cases hk : k1 = k
    · rw [if_pos hk] at h
      exact Or.inr h
    · rw [if_neg hk] at h
      simp only [List.map_cons, List.mem_cons] at h ⊢
      rcases h with h1 | h1
      · exact Or.inr (Or.inl h1)
      · rcases ih h1 with h2 | h2
        · exact Or.inl h2
        · exact Or.inr (Or.inr h2)

theorem setField_nodup (fs : List (String × Json)) (k : String) (v : Json)
    (h : (fs.map Prod.fst).Nodup) : ((setField fs k v).map Prod.fst).Nodup := by
  induction fs with
  | nil => simp [setField]
  | cons f rest ih =>
    obtain ⟨k1, x⟩ := f
    simp only [List.map_cons, List.nodup_cons] at h
    simp only [setField]
    by_cases hk : k1 = k
    · rw [if_pos hk]
      simp only [List.map_cons, List.nodup_cons]
      exact h
    · rw [if_neg hk]
      simp only [List.map_cons, List.nodup_cons]
      refine ⟨?_, ih h.2⟩
      intro hc
      rcases mem_setField_keys rest k v k1 hc with h1 | h1
      · exact hk h1
      · exact h.1 h1

theorem scan_wellFormed :
    ∀ (vs : List Visit) (st st1 : NormState), vs.foldlM visitStep st = some st1 →
      WellFormed st.m → WellFormed st1.m := by
  intro vs
  induction vs with
  | nil => intro st st1 h hwf; cases h; exact hwf
  | cons x vs ih =>
    intro st st1 h hwf
    obtain ⟨s, hs, hrest⟩ := (foldlM_cons_some _ _ _ _ _).mp h
    apply ih s st1 hrest
    rcases visitStep_tree st x s hs with h1 | ⟨_, h1⟩
    · rw [h1]; exact hwf
    · exact setSlot_wellFormed st.m _ _ _ s.m h1 hwf (fun fs hc => by cases hc)

theorem writeBack_wellFormed :
    ∀ (es : List Element) (t t1 : Tree), es.foldlM writeBack t = some t1 →
      WellFormed t → WellFormed t1 := by
  intro es
  induction es with
  | nil => intro t t1 h hwf; cases h; exact hwf
  | cons e es ih =>
    intro t t1 h hwf
    obtain ⟨s, hs, hrest⟩ := (foldlM_cons_some _ _ _ _ _).mp h
    apply ih s t1 hrest
    rcases writeBack_cases t e s hs with h1 | ⟨fs0, h0, h1⟩
    · rw [h1]; exact hwf
    · apply setSlot_wellFormed t _ _ _ s h1 hwf
      intro fs hc
      simp only [Json.obj.injEq] at hc
      rw [← hc]
      exact setField_nodup fs0 _ _ (hwf.2 _ _ fs0 h0)

/-- The normalized tree of a well-formed tree is well formed. -/
theorem normalizeTree_wellFormed (m t : Tree) (hwf : WellFormed m)
    (h : normalizeTree m = some t) : WellFormed t := by
  unfold normalizeTree at h
  rw [checkElementByType_eq_scan] at h
  cases hs : (fieldVisits m).foldlM visitStep ⟨m, []⟩ with
  | none => rw [hs] at h; cases h
  | some st =>
    rw [hs] at h
    exact writeBack_wellFormed st.uniqKeys st.m t h
      (scan_wellFormed (fieldVisits m) ⟨m, []⟩ st hs hwf)

/-! ## The normalized tree, slot by slot -/

/-- The element that the scan holds for the key `K`. -/
theorem scan_element (m : Tree) (st : NormState)
    (hscan : (fieldVisits m).foldlM visitStep ⟨m, []⟩ = some st) (K : String) :
    ∃ eK : Element, eK.EK = K ∧ (∀ e ∈ st.uniqKeys, e.EK = K → e = eK) ∧
      (occurrences K (fieldVisits m) = [] → eK ∉ st.uniqKeys) ∧
      ∀ o rest, occurrences K (fieldVisits m) = o :: rest →
        eK ∈ st.uniqKeys ∧ eK.GK = o.1 ∧ eK.SK = o.2.1 ∧
        eK.Elements = (occurrences K (fieldVisits m)).map (fun o => o.2.2) := by
  have hmem : ∀ e : Element, e ∈ entriesFor K st.uniqKeys ↔ e ∈ st.uniqKeys ∧ e.EK = K := by
    intro e
    simp [entriesFor, List.mem_filter]
  rcases scan_entries K (fieldVisits m) ⟨m, []⟩ st hscan rfl with
    ⟨h1, h2⟩ | ⟨o, rest, h1, h2, _⟩
  · refine ⟨⟨"", 0, K, []⟩, rfl, ?_, ?_, ?_⟩
    · intro e he hk
      have := (hmem e).mpr ⟨he, hk⟩
      rw [h2] at this
      cases this
    · intro _ hc
      have := (hmem _).mpr ⟨hc, rfl⟩
      rw [h2] at this
      cases this
    · intro o rest ho
      rw [h1] at ho
      cases ho
  · refine ⟨⟨o.1, o.2.1, K, o.2.2 :: rest.map (fun o => o.2.2)⟩, rfl, ?_, ?_, ?_⟩
    · intro e he hk
      have := (hmem e).mpr ⟨he, hk⟩
      rw [h2] at this
      exact List.mem_singleton.mp this
    · intro hc
      rw [h1] at hc
      cases hc
    · intro o1 rest1 ho
      refine ⟨?_, ?_, ?_, ?_⟩
      · apply ((hmem _).mp _).1
        rw [h2]
        exact List.mem_singleton.mpr rfl
      · rw [h1] at ho
        simp only [List.cons.injEq] at ho
        rw [ho.1]
      · rw [h1] at ho
        simp only [List.cons.injEq] at ho
        rw [ho.1]
      · rw [h1]
        rfl

/-- The normalized tree of a well-formed tree in which no candidate key occurs
in two groups, in terms that do not depend on the visiting order: the shape of
the top level is kept; a slot that is not a mapping is kept; a mapping slot is
null when one of its sequence-valued fields is not the first occurrence of its
key, and otherwise it is a mapping that holds, under each of its keys with a
sequence value, the sequences of all occurrences of that key, and under every
other key what it held before. -/
theorem normalizeTree_pointwise (m : Tree) (hwf : WellFormed m) (hone : OneGroupPerKey m) :
    ∃ t, normalizeTree m = some t ∧
      (∀ g, groupLength t g = groupLength m g) ∧
      (∀ g, groupLength m g = none → lookupKey t g = lookupKey m g) ∧
      ∀ g i,
        ((∀ fs, getSlot m g i ≠ some (.obj fs)) → getSlot t g i = getSlot m g i) ∧
        ∀ fs, getSlot m g i = some (.obj fs) →
          ((∃ k v, (k, v) ∈ fs ∧ v.isArr = true ∧
              (occurrences k (fieldVisits m)).head? ≠ some (g, i, v)) →
            getSlot t g i = some .null) ∧
          ((∀ k v, (k, v) ∈ fs → v.isArr = true →
              (occurrences k (fieldVisits m)).head? = some (g, i, v)) →
            ∃ fs1, getSlot t g i = some (.obj fs1) ∧
              ∀ K, lookupKey fs1 K =
                mergedValue (lookupKey fs K)
                  ((occurrences K (fieldVisits m)).map (fun o => o.2.2))) := by
  have hvalid : ∀ x ∈ fieldVisits m, ∃ fs, getSlot m x.1 x.2.1 = some (.obj fs) := by
    intro x hx
    obtain ⟨fs, h1, _⟩ := mem_fieldVisits_slot m hwf.1 x hx
    exact ⟨fs, h1⟩
  obtain ⟨st, hscan, hev, hent⟩ :=
    scan_total m (fieldVisits m) ⟨m, []⟩ hvalid (evolves_refl m) (by simp)
  have hpre : ∀ e ∈ st.uniqKeys, getSlot st.m e.GK e.SK = some .null ∨
      ∃ fs, getSlot st.m e.GK e.SK = some (.obj fs) := by
    intro e he
    obtain ⟨fs, hfs⟩ := hent e he
    rcases hev e.GK e.SK with h1 | h1
    · exact Or.inr ⟨fs, by rw [h1, hfs]⟩
    · exact Or.inl h1.1
  obtain ⟨t, hwb⟩ := writeBack_total st.uniqKeys st.m hpre
  obtain ⟨hf1, hf2, hf3⟩ := writeBack_frame st.uniqKeys st.m t hwb
  have hlen := scan_groupLength (fieldVisits m) ⟨m, []⟩ st hscan
  simp only at hlen
  refine ⟨t, ?_, ?_, ?_, ?_⟩
  · unfold normalizeTree
    rw [checkElementByType_eq_scan, hscan]
    exact hwb
  · intro g
    rw [hf1 g, hlen g]
  · intro g hg
    rw [hf2 g (by rw [hlen g]; exact hg)]
    exact scan_lookupKey (fieldVisits m) ⟨m, []⟩ st hscan g hg
  · intro g i
    refine ⟨?_, ?_⟩
    · intro hno
      have h1 := scan_keeps_other m hwf st hscan g i hno
      rw [hf3 g i (by rw [h1]; exact hno), h1]
    · intro fs hslot
      refine ⟨?_, ?_⟩
      · rintro ⟨k, v, hkv, ha, hnot⟩
        have h1 := scan_nulls_slot m hwf st hscan g i fs hslot k v hkv ha hnot
        rw [hf3 g i (by rw [h1]; intro fs1 hc; cases hc), h1]
      · intro hfirst
        have h1 := scan_keeps_slot m hwf (fun K => occurrences_sorted K m hwf hone)
          st hscan g i fs hslot hfirst
        -- the slot is a mapping after the write-back
        obtain ⟨e0, he0, hu0, _, _⟩ := scan_element m st hscan ""
        obtain ⟨t0, ht0, hp0⟩ := writeBack_all "" e0 he0 st.uniqKeys st.m hpre hu0
        rw [hwb] at ht0
        simp only [Option.some.injEq] at ht0
        subst ht0
        obtain ⟨fs1, hget, _, _⟩ := (hp0 g i).1 fs h1
        refine ⟨fs1, hget, ?_⟩
        intro K
        obtain ⟨eK, heK, huK, hnil, hcons⟩ := scan_element m st hscan K
        obtain ⟨t1, ht1, hp1⟩ := writeBack_all K eK heK st.uniqKeys st.m hpre huK
        rw [hwb] at ht1
        simp only [Option.some.injEq] at ht1
        subst ht1
        obtain ⟨fs2, hget2, hin, hout⟩ := (hp1 g i).1 fs h1
        rw [hget] at hget2
        simp only [Option.some.injEq, Json.obj.injEq] at hget2
        subst hget2
        by_cases hK : ∃ v, lookupKey fs K = some v ∧ v.isArr = true
        · obtain ⟨v, hv1, hv2⟩ := hK
          have hmv : mergedValue (lookupKey fs K)
              ((occurrences K (fieldVisits m)).map (fun o => o.2.2)) =
              some (.arr ((occurrences K (fieldVisits m)).map (fun o => o.2.2))) := by
            rw [hv1]
            cases v with
            | arr xs => rfl
            | null => cases hv2
            | bool b => cases hv2
            | num n => cases hv2
            | str s => cases hv2
            | obj kvs => cases hv2
          rw [hmv]
          have hhead := hfirst K v (mem_of_lookupKey fs K v hv1) hv2
          obtain ⟨rest, hocc⟩ := List.head?_eq_some_iff.mp hhead
          obtain ⟨hc1, hc2, hc3, hc4⟩ := hcons _ _ hocc
          rw [hin hc1 hc2.symm hc3.symm, hc4]
        · have hmv : mergedValue (lookupKey fs K)
              ((occurrences K (fieldVisits m)).map (fun o => o.2.2)) = lookupKey fs K := by
            cases hl : lookupKey fs K with
            | none => rfl
            | some v =>
              cases v with
              | arr xs => exact absurd ⟨_, hl, rfl⟩ hK
              | null => rfl
              | bool b => rfl
              | num n => rfl
              | str s => rfl
              | obj kvs => rfl
          rw [hmv]
          apply hout
          rintro ⟨hc1, hc2, hc3⟩
          apply hK
          cases hocc : occurrences K (fieldVisits m) with
          | nil => exact absurd hc1 (hnil hocc)
          | cons o rest =>
            obtain ⟨_, hd2, hd3, _⟩ := hcons o rest hocc
            have hmem : (g, i, o.2.2) ∈ occurrences K (fieldVisits m) := by
              rw [hocc, hc2, hc3, hd2, hd3]
              exact List.mem_cons_self _ _
            obtain ⟨fs3, h3, h4, h5⟩ := (mem_occurrences_iff m hwf K g i _).mp hmem
            rw [hslot] at h3
            simp only [Option.some.injEq, Json.obj.injEq] at h3
            subst h3
            exact ⟨_, h4, h5⟩

/-! ## Independence of the visiting order -/

/-- C20: when no candidate key occurs in more than one top-level group, two
visiting orders of one tree (two well-formed listings that hold the same value
under every top-level key and under every key of every slot mapping) both
normalize, and the two normalized trees are again two well-formed listings of
one tree: the normalized tree does not depend on the visiting order. -/
theorem normalizeTree_order_independent (m1 m2 : Tree)
    (hwf1 : WellFormed m1) (hwf2 : WellFormed m2) (hsame : SameTree m1 m2)
    (hone : OneGroupPerKey m1) :
    ∃ t1 t2, normalizeTree m1 = some t1 ∧ normalizeTree m2 = some t2 ∧
      WellFormed t1 ∧ WellFormed t2 ∧ SameTree t1 t2 := by
  have hone2 := oneGroupPerKey_same m1 m2 hsame hone
  have hocc := occurrences_same m1 m2 hwf1 hwf2 hsame hone
  obtain ⟨t1, hn1, hl1, hk1, hs1⟩ := normalizeTree_pointwise m1 hwf1 hone
  obtain ⟨t2, hn2, hl2, hk2, hs2⟩ := normalizeTree_pointwise m2 hwf2 hone2
  refine ⟨t1, t2, hn1, hn2, normalizeTree_wellFormed m1 t1 hwf1 hn1,
    normalizeTree_wellFormed m2 t2 hwf2 hn2, ?_, ?_, ?_⟩
  · intro g
    rw [hl1 g, hl2 g]
    exact hsame.1 g
  · intro g hg
    rw [hl1 g] at hg
    rw [hk1 g hg, hk2 g (by rw [← hsame.1 g]; exact hg)]
    exact hsame.2.1 g hg
  · intro g i
    by_cases hobj : ∃ fs, getSlot m1 g i = some (.obj fs)
    · obtain ⟨fs1, hfs1⟩ := hobj
      obtain ⟨fs2, hfs2, hlk⟩ := sameTree_slot m1 m2 hsame g i fs1 hfs1
      have hmem : ∀ k v, (k, v) ∈ fs2 → (k, v) ∈ fs1 := by
        intro k v hkv
        apply mem_of_lookupKey
        rw [hlk k]
        exact lookupKey_of_mem_nodup fs2 (hwf2.2 g i fs2 hfs2) k v hkv
      have hmem2 : ∀ k v, (k, v) ∈ fs1 → (k, v) ∈ fs2 := by
        intro k v hkv
        apply mem_of_lookupKey
        rw [← hlk k]
        exact lookupKey_of_mem_nodup fs1 (hwf1.2 g i fs1 hfs1) k v hkv
      by_cases hfirst : ∀ k v, (k, v) ∈ fs1 → v.isArr = true →
          (occurrences k (fieldVisits m1)).head? = some (g, i, v)
      · obtain ⟨fa, hga, hla⟩ := ((hs1 g i).2 fs1 hfs1).2 hfirst
        obtain ⟨fb, hgb, hlb⟩ := ((hs2 g i).2 fs2 hfs2).2 (by
          intro k v hkv ha
          rw [← hocc k]
          exact hfirst k v (hmem k v hkv) ha)
        right
        refine ⟨fa, fb, hga, hgb, ?_⟩
        intro K
        rw [hla K, hlb K, hocc K, hlk K]
      · push_neg at hfirst
        obtain ⟨k, v, hkv, ha, hnot⟩ := hfirst
        have h1 := ((hs1 g i).2 fs1 hfs1).1 ⟨k, v, hkv, ha, hnot⟩
        have h2 := ((hs2 g i).2 fs2 hfs2).1 ⟨k, v, hmem2 k v hkv, ha, by
          rw [← hocc k]; exact hnot⟩
        left
        rw [h1, h2]
    · have hno1 : ∀ fs, getSlot m1 g i ≠ some (.obj fs) := fun fs hc => hobj ⟨fs, hc⟩
      have heq : getSlot m1 g i = getSlot m2 g i := by
        rcases hsame.2.2 g i with h | ⟨fs1, _, h, _⟩
        · exact h
        · exact absurd h (hno1 fs1)
      left
      rw [(hs1 g i).1 hno1, (hs2 g i).1 (by rw [← heq]; exact hno1), heq]

theorem orderA_wellFormed : WellFormed orderA := by
  refine ⟨by decide, ?_⟩
  intro g i fs h
  rw [orderA, getSlot_cons] at h
  split at h
  · match i with
    | 0 => simp at h; rw [← h]; decide
    | 1 => simp at h; rw [← h]; decide
    | 2 => simp at h
    | n + 3 => simp at h
  · rw [getSlot_cons] at h
    split at h
    · simp at h
    · simp [getSlot, lookupKey] at h

theorem orderB_wellFormed : WellFormed orderB := by
  refine ⟨by decide, ?_⟩
  intro g i fs h
  rw [orderB, getSlot_cons] at h
  split at h
  · simp at h
  · rw [getSlot_cons] at h
    split at h
    · match i with
      | 0 => simp at h; rw [← h]; decide
      | 1 => simp at h; rw [← h]; decide
      | 2 => simp at h
      | n + 3 => simp at h
    · simp [getSlot, lookupKey] at h

theorem orderA_oneGroup : OneGroupPerKey orderA := by
  have hr : ∀ g i x, getSlot orderA g i = some x → g = "r" := by
    intro g i x h
    rw [orderA, getSlot_cons] at h
    split at h
    · rename_i hg; exact hg.symm
    · rw [getSlot_cons] at h
      split at h
      · simp at h
      · simp [getSlot, lookupKey] at h
  intro K g1 i1 fs1 v1 g2 i2 fs2 v2 h1 _ _ h4 _ _
  rw [hr g1 i1 _ h1, hr g2 i2 _ h4]

theorem orderA_orderB_same : SameTree orderA orderB := by
  refine ⟨?_, ?_, ?_⟩
  · intro g
    rw [orderA, orderB]
    simp only [groupLength_cons]
    by_cases h1 : "r" = g
    · subst h1; simp
    · by_cases h2 : "name" = g
      · subst h2; simp
      · simp [h1, h2]
  · intro g hg
    rw [orderA, groupLength_cons] at hg
    rw [orderA, orderB]
    by_cases h1 : "r" = g
    · simp [h1] at hg
    · by_cases h2 : "name" = g
      · subst h2; simp [lookupKey]
      · simp [lookupKey, h1, h2]
  · intro g i
    rw [orderA, orderB]
    simp only [getSlot_cons]
    by_cases h1 : "r" = g
    · subst h1
      match i with
      | 0 =>
        right
        refine ⟨_, _, by simp; rfl, by simp; rfl, ?_⟩
        intro k
        simp only [lookupKey]
        by_cases hK : "K" = k
        · subst hK; simp
        · by_cases hL : "L" = k
          · subst hL; simp
          · by_cases hn : "n" = k
            · subst hn; simp
            · simp [hK, hL, hn]
      | 1 => left; simp
      | 2 => left; simp
      | n + 3 => left; simp
    · by_cases h2 : "name" = g
      · subst h2; left; simp [getSlot, lookupKey]
      · left; simp [h1, h2]

/-- Witness of C20: the listings `orderA` and `orderB` of one tree, which differ
in the order of the top-level keys and of the fields of the first slot. -/
theorem normalizeTree_order_independent_witness :
    WellFormed orderA ∧ WellFormed orderB ∧ SameTree orderA orderB ∧ OneGroupPerKey orderA ∧
    ∃ t1 t2, normalizeTree orderA = some t1 ∧ normalizeTree orderB = some t2 ∧
      WellFormed t1 ∧ WellFormed t2 ∧ SameTree t1 t2 :=
  ⟨orderA_wellFormed, orderB_wellFormed, orderA_orderB_same, orderA_oneGroup,
    normalizeTree_order_independent orderA orderB orderA_wellFormed orderB_wellFormed
      orderA_orderB_same orderA_oneGroup⟩

end Terrahub
